import Mathlib

/-!
QCT tile decoder (qct.cpp): shallow embedding and verified properties.

The development follows `src/qct.cpp`.  Conventions of the embedding:

* a `FILE` is the list of the file's bytes, a read position and the
  end-of-file indicator; `fgetc` returns the C `int` (the byte, or `-1` at the
  end of the file);
* C `int` values are `Int`; values stored into `unsigned char` cells are
  reduced modulo 256 (`toUChar`);
* `while` loops whose termination depends on the data take a fuel argument
  and report `Res.outOfFuel` when it is used up;
* the scratch buffer `tile_data` is always written sequentially
  (`tile_data[pixelnum++] = v`), so it is represented by the list of the
  cells written so far: cell `i` of the list is `tile_data[i]`, the length of
  the list is `pixelnum`, and cells never written keep the `0` of `memset`.
  A list longer than 4096 records stores past the end of the 4096-byte array:
  such a run of the model records an overrun of the stack buffer (undefined
  behaviour of the program), not a decoded tile;
* the matrix `pal_interp[128][128]` is a function of two indices; a lookup
  with an index of 128 or more is a read outside the array, so the lookups
  of the down-sampling loop are listed by `interpLookups` and the theorems
  about down-sampled pixels show that they are all in range;
* `image_data` and the rows of a tile are addressed by byte offset from the
  base pointer; offsets are computed in unbounded naturals.
-/

/-! ## Streams -/

/-- A stdio stream over an in-memory file: its bytes, the read position and
the end-of-file indicator. -/
structure FILE where
  data : List (Fin 256)
  pos : Nat
  eof : Bool

/-- The C `fgetc`: the next byte as a non-negative `int`, or `-1` (EOF) with
the end-of-file indicator set when the position is at or past the end. -/
def fgetc (fp : FILE) : Int × FILE :=
  match fp.data[fp.pos]? with
  | some b => ((b.val : Int), { fp with pos := fp.pos + 1 })
  | none => (-1, { fp with eof := true })

/-- Conversion of an `int` to `unsigned char` (reduction modulo 256). -/
def toUChar (c : Int) : Nat := (c % 256).toNat

/-- Conversion of an unsigned 32-bit pattern to a two's-complement `int`. -/
def toInt32 (u : Nat) : Int :=
  if u % 4294967296 < 2147483648 then ((u % 4294967296 : Nat) : Int)
  else ((u % 4294967296 : Nat) : Int) - 4294967296

/-- The function `readInt` (qct.cpp 109-119): four `fgetc` calls combined
little-endian; `-1` when the end-of-file indicator is set afterwards.  The
combined value is only returned when no read hit the end of the file, so all
four operands are then bytes. -/
def readInt (fp : FILE) : Int × FILE :=
  let r0 := fgetc fp
  let r1 := fgetc r0.2
  let r2 := fgetc r1.2
  let r3 := fgetc r2.2
  if r3.2.eof then (-1, r3.2)
  else (toInt32 (r0.1.toNat ||| (r1.1.toNat <<< 8) ||| (r2.1.toNat <<< 16)
          ||| (r3.1.toNat <<< 24)), r3.2)

/-! ## Helpers of the tile decoder -/

/-- The function `bits_per_pixel` (qct.cpp 206-220), in the integer-table
variant that is compiled when `HAS_LOG2` is not defined (nothing in the
sources defines it).  Above 128 control reaches the end of the function
without a `return`: there is no result. -/
def bits_per_pixel (num_colours : Int) : Option Nat :=
  if num_colours ≤ 2 then some 1
  else if num_colours ≤ 4 then some 2
  else if num_colours ≤ 8 then some 3
  else if num_colours ≤ 16 then some 4
  else if num_colours ≤ 32 then some 5
  else if num_colours ≤ 64 then some 6
  else if num_colours ≤ 128 then some 7
  else none

/-- The table `row_seq` of `QCT::readTile` (qct.cpp 370-376). -/
def row_seq : List Nat :=
  [0, 32, 16, 48, 8, 40, 24, 56, 4, 36, 20, 52, 12, 44, 28, 60, 2,
   34, 18, 50, 10, 42, 26, 58, 6, 38, 22, 54, 14, 46, 30, 62, 1,
   33, 17, 49, 9, 41, 25, 57, 5, 37, 21, 53, 13, 45, 29, 61, 3, 35,
   19, 51, 11, 43, 27, 59, 7, 39, 23, 55, 15, 47, 31, 63]

/-- The C expression `row_seq[row]`. -/
def rowSeq (row : Nat) : Nat := row_seq.getD row 0

/-- The C expression `x & m` on two's-complement `int` values. -/
def cAnd (x m : Int) : Int := Int.land x m

/-- The mask `(1 << shift) - 1`. -/
def lowMask (shift : Nat) : Int := ((1 <<< shift : Nat) : Int) - 1

/-- Outcome of a run of the decoder. -/
inductive Res (α : Type) where
  /-- The code ran to its end (or returned early) with this state. -/
  | ok (a : α)
  /-- Undefined behaviour: the prefix-code table was read at an index at or
  beyond its length, a function produced no return value, a division by
  zero, or a write beyond the end of a heap block. -/
  | fault
  /-- The fuel given to a `while` loop was used up before the loop ended. -/
  | outOfFuel

/-- Apply a function to the state of a finished run. -/
def Res.map {α β : Type} (f : α → β) : Res α → Res β
  | Res.ok a => Res.ok (f a)
  | Res.fault => Res.fault
  | Res.outOfFuel => Res.outOfFuel

/-- The fields of the class `QCT` (qct.h) used by `readTile`. -/
structure QCT where
  width : Nat
  height : Nat
  pal_interp : Nat → Nat → Nat
  image_data : Nat → Nat

/-! ## Prefix-code ("Huffman") mode -/

/-- The table-build loop (qct.cpp 424-453): `huff` is the table read so far
(`huff_idx` is its length).  Bytes are stored as `unsigned char`, so an EOF
is stored as 255.  The table is a list without a capacity: the growth of the
heap buffer by `realloc` is not part of the model. -/
def huffBuild : Nat → FILE → List Nat → Nat → Nat → Res (FILE × List Nat × Nat)
  | 0, fp, huff, num_colours, num_branches =>
    if num_colours ≤ num_branches then Res.outOfFuel else Res.ok (fp, huff, num_colours)
  | fuel + 1, fp, huff, num_colours, num_branches =>
    if num_colours ≤ num_branches then
      let r0 := fgetc fp
      let e := toUChar r0.1
      if e = 128 then
        let r1 := fgetc r0.2
        let r2 := fgetc r1.2
        huffBuild fuel r2.2 (huff ++ [e, toUChar r1.1, toUChar r2.1]) num_colours
          (num_branches + 1)
      else if e > 128 then
        huffBuild fuel r0.2 (huff ++ [e]) num_colours (num_branches + 1)
      else
        huffBuild fuel r0.2 (huff ++ [e]) (num_colours + 1) num_branches
    else Res.ok (fp, huff, num_colours)

/-- The validation loop (qct.cpp 465-484), `true` when it runs to the end and
`false` when it executes `return`.  The loop index grows by at least one per
round, so `huff.length` rounds of fuel are enough from index 0. -/
def huffValidFrom (huff : List Nat) : Nat → Nat → Bool
  | 0, _ => true
  | fuel + 1, ii =>
    if ii < huff.length then
      if huff.getD ii 0 < 128 then huffValidFrom huff fuel (ii + 1)
      else if huff.getD ii 0 = 128 then
        if ii + 2 ≥ huff.length then false
        else if ii + (65537 - (256 * huff.getD (ii + 2) 0 + huff.getD (ii + 1) 0) + 2)
            ≥ huff.length then false
        else huffValidFrom huff fuel (ii + 2 + 1)
      else
        if ii + (257 - huff.getD ii 0) ≥ huff.length then false
        else huffValidFrom huff fuel (ii + 1)
    else true

/-- The validation pass over the whole table. -/
def huffValid (huff : List Nat) : Bool := huffValidFrom huff huff.length 0

/-- State of the bit-stream traversal (qct.cpp 487-533): the stream, the
current byte `ii`, `bits_left`, the cursor `huff_ptr - huff`, and the cells
of `tile_data` written so far. -/
structure HuffState where
  fp : FILE
  ii : Int
  bits_left : Nat
  huff_ptr : Nat
  tile : List Nat

/-- One round of the traversal loop.  `none` when the round reads the table
at an index at or beyond its length (`*huff_ptr`, `huff_ptr[1]` or
`huff_ptr[2]`). -/
def huffStep (huff : List Nat) (s : HuffState) : Option HuffState :=
  match huff[s.huff_ptr]? with
  | none => none
  | some e =>
    if e < 128 then
      some { s with tile := s.tile ++ [e], huff_ptr := 0 }
    else
      let bit_value := cAnd s.ii 1
      let ii1 := s.ii >>> (1 : Nat)
      let refill := fgetc s.fp
      let ii2 := if s.bits_left - 1 = 0 then refill.1 else ii1
      let bits2 := if s.bits_left - 1 = 0 then 8 else s.bits_left - 1
      let fp2 := if s.bits_left - 1 = 0 then refill.2 else s.fp
      if bit_value = 0 then
        some { fp := fp2, ii := ii2, bits_left := bits2, tile := s.tile,
               huff_ptr := (if e = 128 then s.huff_ptr + 2 else s.huff_ptr) + 1 }
      else if e > 128 then
        some { fp := fp2, ii := ii2, bits_left := bits2, tile := s.tile,
               huff_ptr := s.huff_ptr + (257 - e) }
      else
        match huff[s.huff_ptr + 1]?, huff[s.huff_ptr + 2]? with
        | some lo, some hi =>
          some { fp := fp2, ii := ii2, bits_left := bits2, tile := s.tile,
                 huff_ptr := s.huff_ptr + (65537 - (256 * hi + lo) + 2) }
        | _, _ => none

/-- The traversal loop `while (pixelnum < QCT_TILE_PIXELS)`. -/
def huffDecode (huff : List Nat) : Nat → HuffState → Res HuffState
  | 0, s => if s.tile.length < 4096 then Res.outOfFuel else Res.ok s
  | fuel + 1, s =>
    if s.tile.length < 4096 then
      match huffStep huff s with
      | none => Res.fault
      | some s1 => huffDecode huff fuel s1
    else Res.ok s

/-! ## Sub-palette modes -/

/-- The sub-palette loop `for (ii=0; ii<num_sub_colours; ii++)
palette_index[ii] = fgetc(fp)`: `n` rounds remain, `ii` is the loop index.
An EOF is stored as the `int` -1. -/
def readSubPalette : Nat → Nat → FILE → (Nat → Int) → FILE × (Nat → Int)
  | 0, _, fp, palette_index => (fp, palette_index)
  | n + 1, ii, fp, palette_index =>
    readSubPalette n (ii + 1) (fgetc fp).2 (Function.update palette_index ii (fgetc fp).1)

/-- The inner loop of the bit-packed mode (qct.cpp 557-562): `runs` rounds
remain, `ii` is what is left of the word. -/
def unpackWord (shift : Nat) (mask : Int) (palette_index : Nat → Int) :
    Nat → Int → List Nat → List Nat
  | 0, _, tile => tile
  | runs + 1, ii, tile =>
    unpackWord shift mask palette_index runs (ii >>> shift)
      (tile ++ [toUChar (palette_index (cAnd ii mask).toNat)])

/-- The word loop of the bit-packed mode (qct.cpp 553-563).  The bound
`pixelnum < QCT_TILE_PIXELS` is tested between words only and every word
stores all its `num_pixels_per_word` pixels, so the result can hold more than
4096 cells: the cells from index 4096 on are stores past the end of
`tile_data[4096]`. -/
def packedLoop (shift : Nat) (mask : Int) (num_pixels_per_word : Nat)
    (palette_index : Nat → Int) : Nat → FILE → List Nat → Res (FILE × List Nat)
  | 0, fp, tile => if tile.length < 4096 then Res.outOfFuel else Res.ok (fp, tile)
  | fuel + 1, fp, tile =>
    if tile.length < 4096 then
      packedLoop shift mask num_pixels_per_word palette_index fuel (readInt fp).2
        (unpackWord shift mask palette_index num_pixels_per_word (readInt fp).1 tile)
    else Res.ok (fp, tile)

/-- The bit-packed branch of `readTile` (qct.cpp 537-564) for
`num_sub_colours = 256 - packing`.  `junk` is the indeterminate initial
content of the local array `palette_index`; `num_pixels_per_word = 32 / shift`
divides by zero when `shift` is 0. -/
def packedBranch (fuel : Nat) (junk : Nat → Int) (num_sub_colours : Int) (fp : FILE) :
    Res (FILE × List Nat) :=
  match bits_per_pixel num_sub_colours with
  | none => Res.fault
  | some shift =>
    if shift = 0 then Res.fault
    else
      let sub := readSubPalette num_sub_colours.toNat 0 fp junk
      packedLoop shift (lowMask shift) (32 / shift) sub.2 fuel sub.1 []

/-- The run loop of the RLE mode (qct.cpp 587-598).  The inner loop
`while (runs-- > 0) tile_data[pixelnum++] = palette_index[colour]` stores the
same byte `runs` times (no store when `runs` is not positive).  The bound
`pixelnum < QCT_TILE_PIXELS` is tested between runs only and every run is
stored in full, so the result can hold more than 4096 cells: the cells from
index 4096 on are stores past the end of `tile_data[4096]`. -/
def rleLoop (num_low_bits : Nat) (pal_mask : Int) (palette_index : Nat → Int) :
    Nat → FILE → List Nat → Res (FILE × List Nat)
  | 0, fp, tile => if tile.length < 4096 then Res.outOfFuel else Res.ok (fp, tile)
  | fuel + 1, fp, tile =>
    if tile.length < 4096 then
      rleLoop num_low_bits pal_mask palette_index fuel (fgetc fp).2
        (tile ++ List.replicate ((fgetc fp).1 >>> num_low_bits).toNat
          (toUChar (palette_index (cAnd (fgetc fp).1 pal_mask).toNat)))
    else Res.ok (fp, tile)

/-- The RLE branch of `readTile` (qct.cpp 574-599) for
`num_sub_colours = packing`. -/
def rleBranch (fuel : Nat) (junk : Nat → Int) (num_sub_colours : Int) (fp : FILE) :
    Res (FILE × List Nat) :=
  match bits_per_pixel num_sub_colours with
  | none => Res.fault
  | some num_low_bits =>
    let sub := readSubPalette num_sub_colours.toNat 0 fp junk
    rleLoop num_low_bits (lowMask num_low_bits) sub.2 fuel sub.1 []

/-- The eight `fgetc` calls in the argument list of `debugmsg` for packing
byte 128 (qct.cpp 569-571). -/
def skipEight (fp : FILE) : FILE :=
  (fgetc (fgetc (fgetc (fgetc (fgetc (fgetc (fgetc (fgetc fp).2).2).2).2).2).2).2).2

/-! ## Mode selection -/

/-- The branch of the `if` chain of `readTile` (qct.cpp 414, 537, 566, 574)
taken for a packing byte, with the value of `num_sub_colours` in the two
sub-palette branches. -/
inductive Mode where
  | huffman
  | pixel (num_sub_colours : Int)
  | unknown
  | rle (num_sub_colours : Int)
  deriving DecidableEq, Repr

/-- The `if` chain of `readTile`. -/
def selectMode (packing : Int) : Mode :=
  if packing = 0 ∨ packing = 255 then Mode.huffman
  else if packing > 128 then Mode.pixel (256 - packing)
  else if packing = 128 then Mode.unknown
  else Mode.rle packing

/-- The prefix-code branch of `readTile` (qct.cpp 414-535): the stream
afterwards and the cells of `tile_data`, or `none` in their place when the
validation fails and the function executes `return`. -/
def huffBranch (fuel : Nat) (fp : FILE) : Res (FILE × Option (List Nat)) :=
  match huffBuild fuel fp [] 0 0 with
  | Res.fault => Res.fault
  | Res.outOfFuel => Res.outOfFuel
  | Res.ok (fp1, huff, num_colours) =>
    if num_colours = 1 then
      Res.ok (fp1, some (List.replicate 4096 (huff.getD 0 0)))
    else if huffValid huff then
      match huffDecode huff fuel
          { fp := (fgetc fp1).2, ii := (fgetc fp1).1, bits_left := 8, huff_ptr := 0,
            tile := [] } with
      | Res.fault => Res.fault
      | Res.outOfFuel => Res.outOfFuel
      | Res.ok s => Res.ok (s.fp, some s.tile)
    else Res.ok (fp1, none)

/-- The decompression part of `readTile` (qct.cpp 413-599) for a packing byte
already read: the stream afterwards and the cells of `tile_data` (`none` for
the early `return` of the prefix-code branch). -/
def decodeTile (fuel : Nat) (junk : Nat → Int) (packing : Int) (fp : FILE) :
    Res (FILE × Option (List Nat)) :=
  match selectMode packing with
  | Mode.huffman => huffBranch fuel fp
  | Mode.pixel num_sub_colours =>
    (packedBranch fuel junk num_sub_colours fp).map (fun r => (r.1, some r.2))
  | Mode.unknown => Res.ok (skipEight fp, some [])
  | Mode.rle num_sub_colours =>
    (rleBranch fuel junk num_sub_colours fp).map (fun r => (r.1, some r.2))

/-! ## Placement -/

/-- The C expression `tile_data[i]` after decoding: the cell written, or the
0 of `memset(tile_data, 0, QCT_TILE_PIXELS)`. -/
def tileAt (tile : List Nat) (i : Nat) : Nat := tile.getD i 0

/-- The call `memcpy(dst, src, n)` into the memory `mem`. -/
def memcpy (mem : Nat → Nat) (dst : Nat) (src : Nat → Nat) (n : Nat) : Nat → Nat :=
  fun i => if dst ≤ i ∧ i < dst + n then src (i - dst) else mem i

/-- The pointer `row_ptr[row]` as an offset from `image_data`
(qct.cpp 389-411). -/
def rowPtr (width tile_xx tile_yy scalefactor row : Nat) : Nat :=
  let bytes_per_row := width * 64 / scalefactor
  if scalefactor = 1 then
    tile_yy * 64 * bytes_per_row + tile_xx * 64 + rowSeq row * bytes_per_row
  else
    tile_yy * 64 / scalefactor * bytes_per_row + tile_xx * 64 / scalefactor
      + rowSeq row * bytes_per_row

/-- The row-copy loop at scale factor 1 (qct.cpp 605-608): rows
`yy = 0 .. n-1` copied. -/
def copyRows (row_ptr : Nat → Nat) (tile : List Nat) : Nat → (Nat → Nat) → (Nat → Nat)
  | 0, image => image
  | n + 1, image =>
    memcpy (copyRows row_ptr tile n image) (row_ptr n) (fun j => tileAt tile (n * 64 + j)) 64

/-- The loop `for (nn=1; nn<scalefactor; nn++) pix = pal_interp[pix][*src++]`:
`n` rounds remain, `src` is the index of the next source cell.  The array is
`unsigned char pal_interp[128][128]`: the value is that of the program only
when every index pair of `interpLookups` is below 128, and a lookup with a
larger index is a read outside the array. -/
def interpRun (pal_interp : Nat → Nat → Nat) (tile : List Nat) : Nat → Nat → Nat → Nat
  | 0, _, pix => pix
  | n + 1, src, pix => interpRun pal_interp tile n (src + 1) (pal_interp pix (tileAt tile src))

/-- The column loop of the down-sampling branch (qct.cpp 623-631): output
columns `xx = 0 .. n-1` of the row starting at `dest`, from the source row
starting at `src`. -/
def scaleRow (pal_interp : Nat → Nat → Nat) (tile : List Nat) (scalefactor dest src : Nat) :
    Nat → (Nat → Nat) → (Nat → Nat)
  | 0, image => image
  | n + 1, image =>
    Function.update (scaleRow pal_interp tile scalefactor dest src n image) (dest + n)
      (interpRun pal_interp tile (scalefactor - 1) (src + n * scalefactor + 1)
        (tileAt tile (src + n * scalefactor)))

/-- The row loop of the down-sampling branch (qct.cpp 615-632): output rows
`yy = 0 .. n-1`. -/
def scaleRows (pal_interp : Nat → Nat → Nat) (row_ptr : Nat → Nat) (tile : List Nat)
    (scalefactor : Nat) : Nat → (Nat → Nat) → (Nat → Nat)
  | 0, image => image
  | n + 1, image =>
    scaleRow pal_interp tile scalefactor (row_ptr (n * scalefactor)) (n * 64)
      (64 / scalefactor) (scaleRows pal_interp row_ptr tile scalefactor n image)

/-- The placement part of `readTile` (qct.cpp 601-633). -/
def placeTile (q : QCT) (tile_xx tile_yy scalefactor : Nat) (tile : List Nat) : QCT :=
  let row_ptr := rowPtr q.width tile_xx tile_yy scalefactor
  if scalefactor = 1 then
    { q with image_data := copyRows row_ptr tile 64 q.image_data }
  else
    { q with image_data :=
        scaleRows q.pal_interp row_ptr tile scalefactor (64 / scalefactor) q.image_data }

/-- The method `QCT::readTile` (qct.cpp 360-634).  A scale factor 0 divides
by zero in the computation of `bytes_per_row`; after the early `return` of a
failed validation the image is left as it was. -/
def QCT.readTile (fuel : Nat) (junk : Nat → Int) (q : QCT) (fp : FILE)
    (tile_xx tile_yy scalefactor : Nat) : Res (FILE × QCT) :=
  if scalefactor = 0 then Res.fault
  else
    match decodeTile fuel junk (fgetc fp).1 (fgetc fp).2 with
    | Res.fault => Res.fault
    | Res.outOfFuel => Res.outOfFuel
    | Res.ok (fp1, none) => Res.ok (fp1, q)
    | Res.ok (fp1, some tile) => Res.ok (fp1, placeTile q tile_xx tile_yy scalefactor tile)

/-! ## Specification-side definitions -/

/-- Reversal of the 6-bit binary representation of `k`, following the words
of the specification ("bit-reversed order over 6 bits"): bit `i` of `k`
becomes bit `5 - i`. -/
def bit_reverse_6 (k : Nat) : Nat :=
  (k % 2) * 32 + (k / 2 % 2) * 16 + (k / 4 % 2) * 8 + (k / 8 % 2) * 4 + (k / 16 % 2) * 2
    + (k / 32 % 2)

/-- The mode table of the specification (section 4.3, "Mode selection") for a
first tile byte `p`. -/
def modeTable (p : Nat) : Mode :=
  if p = 0 ∨ p = 255 then Mode.huffman
  else if 1 ≤ p ∧ p ≤ 127 then Mode.rle p
  else if p = 128 then Mode.unknown
  else Mode.pixel (256 - (p : Int))


/-- The run of one RLE data byte in the words of the specification: the
high bits `byte >> b` give the number of copies, the low `b` bits the
sub-palette index. -/
def rleRun (b : Nat) (subpalette : Nat → Nat) (byte : Fin 256) : List Nat :=
  List.replicate (byte.val / 2 ^ b) (subpalette (byte.val % 2 ^ b))

/-- Entry `i` of the sub-palette as `readTile` sees it: the `i`-th of the
bytes `sub` read from the stream, stored in an `unsigned char` cell; beyond
them the array `palette_index` keeps its indeterminate initial content. -/
def subPaletteAt (sub : List (Fin 256)) (junk : Nat → Int) (i : Nat) : Nat :=
  match sub[i]? with
  | some c => c.val
  | none => toUChar (junk i)

/-- The value stored for pixel `r` of a word `w` in the bit-packed mode:
`palette_index[(w >> (shift * r)) & mask]` as an `unsigned char`. -/
def packedPixel (shift : Nat) (mask : Int) (palette_index : Nat → Int) (w : Int) (r : Nat) :
    Nat :=
  toUChar (palette_index (cAnd (w >>> (shift * r)) mask).toNat)

/-- The value returned by the `j`-th call of `readInt` (counting from 0) in
a sequence of consecutive calls starting at `fp`. -/
def nthWord (fp : FILE) (j : Nat) : Int :=
  (readInt ((fun f => (readInt f).2)^[j] fp)).1

/-- The little-endian 32-bit word at byte offset `off` of a file, in the
words of the specification. -/
def leWordAt (data : List (Fin 256)) (off : Nat) : Nat :=
  (data.getD off 0).val + 256 * (data.getD (off + 1) 0).val
    + 65536 * (data.getD (off + 2) 0).val + 16777216 * (data.getD (off + 3) 0).val

/-- The sub-palette index of pixel `n` of a bit-packed tile in the words of
the specification: with `q = 32 div b` pixels per word, the little-endian word
number `n div q` after offset `off`, shifted right by `b * (n mod q)` and
reduced modulo `2^b`. -/
def packedIndex (data : List (Fin 256)) (off b n : Nat) : Nat :=
  leWordAt data (off + 4 * (n / (32 / b))) / 2 ^ (b * (n % (32 / b))) % 2 ^ b

/-! ## Concrete streams -/

/-- An RLE tile with packing byte 2, sub-palette `[7, 9]` and the data bytes
`FE FF` followed by 31 more bytes `FE` (scenario S3, continued until the tile
is full). -/
def rleScenario : FILE :=
  ⟨[2, 7, 9] ++ ([254, 255] ++ List.replicate 31 254), 1, false⟩

/-- An RLE tile with packing byte 2, sub-palette `[7, 9]` and the data bytes
`FE FF`, 30 more bytes `FE` and the byte `40` (a run of 32 pixels): the runs
add up to 4096 exactly. -/
def rleWithinTile : FILE :=
  ⟨[2, 7, 9] ++ (([254, 255] ++ List.replicate 30 254) ++ [64]), 1, false⟩

/-- An RLE tile with packing byte 2, sub-palette `[7, 9]` and 33 data bytes
`FE`, each a run of 127 pixels of sub-palette entry 0. -/
def rleOverrun : FILE :=
  ⟨[2, 7, 9] ++ (List.replicate 32 254 ++ [254]), 1, false⟩

/-- An RLE tile with packing byte 1, the one-entry sub-palette `[5]` and 33
data bytes `FF`. -/
def rleSingleColour : FILE :=
  ⟨[1, 5] ++ (List.replicate 32 255 ++ [255]), 1, false⟩

/-- A bit-packed tile with packing byte 192, the sub-palette 10, 11, ..., 73
and one data word `00 00 00 00` (scenario S2). -/
def packedScenario : FILE :=
  ⟨[192,
    10, 11, 12, 13, 14, 15, 16, 17, 18, 19, 20, 21, 22, 23, 24, 25,
    26, 27, 28, 29, 30, 31, 32, 33, 34, 35, 36, 37, 38, 39, 40, 41,
    42, 43, 44, 45, 46, 47, 48, 49, 50, 51, 52, 53, 54, 55, 56, 57,
    58, 59, 60, 61, 62, 63, 64, 65, 66, 67, 68, 69, 70, 71, 72, 73,
    0, 0, 0, 0], 1, false⟩

/-- A prefix-code tile: packing byte 0, then the 133 table bytes `FF`,
`80 80 FF` (a long branch), `00`, 63 times `FF`, 65 times `00`, then the data
byte `03`. -/
def escapeStream : List (Fin 256) :=
  [0, 255, 128, 128, 255, 0] ++ List.replicate 63 255 ++ List.replicate 65 0 ++ [3]

/-- The table that the build loop reads from `escapeStream`. -/
def escapeTable : List Nat :=
  [255, 128, 128, 255, 0] ++ List.replicate 63 255 ++ List.replicate 65 0

/-! ## Stream positioning and the remaining readers -/

/-- The call `FSEEKO(fp, off, SEEK_SET)`: a negative offset is refused and
leaves the stream as it is; otherwise the position is set (also beyond the
end of the file) and the end-of-file indicator is cleared. -/
def fseek (fp : FILE) (off : Int) : FILE :=
  if off < 0 then fp else { fp with pos := off.toNat, eof := false }

/-- The call `FTELLO(fp)`. -/
def ftell (fp : FILE) : Int := (fp.pos : Int)

/-- A `double` read from the file, represented by the eight bytes of its
encoding in file order. -/
abbrev RawDouble := List Nat

/-- The next `n` bytes of the stream, each the result of one `fgetc` stored
in an `unsigned char`. -/
def readBytes : Nat → FILE → List Nat × FILE
  | 0, fp => ([], fp)
  | n + 1, fp => (toUChar (fgetc fp).1 :: (readBytes n (fgetc fp).2).1,
      (readBytes n (fgetc fp).2).2)

/-- The function `readDouble` (qct.cpp 134-159): eight `fgetc` calls. -/
def readDouble (fp : FILE) : RawDouble × FILE := readBytes 8 fp

/-- The loop of `readString` (qct.cpp 185-197): bytes are collected until a
zero is read; an EOF is stored as the byte 255 and does not end the loop.
`string` holds the bytes stored so far (`string_length` of them) and
`buf_length` is the size of the heap block: the byte read is stored at index
`string_length` before it is tested, which is a write beyond the block when
`string_length >= buf_length`, and the block grows by 1024 only once
`string_length > buf_length`. -/
def readStringLoop : Nat → FILE → List Nat → Nat → Res (List Nat × FILE)
  | 0, _, _, _ => Res.outOfFuel
  | fuel + 1, fp, string, buf_length =>
    if buf_length ≤ string.length then Res.fault
    else if (fgetc fp).1 = 0 then Res.ok (string, (fgetc fp).2)
    else readStringLoop fuel (fgetc fp).2 (string ++ [toUChar (fgetc fp).1])
      (if (string ++ [toUChar (fgetc fp).1]).length > buf_length then buf_length + 1024
       else buf_length)

/-- Sequencing of runs. -/
def Res.bind {α β : Type} : Res α → (α → Res β) → Res β
  | Res.ok a, f => f a
  | Res.fault, _ => Res.fault
  | Res.outOfFuel, _ => Res.outOfFuel

instance : Monad Res where
  pure := Res.ok
  bind := Res.bind

/-- The function `readString` (qct.cpp 170-201): the bytes of the string
(without the final zero) and the stream afterwards.  The block of the string
starts with 1024 bytes. -/
def readString (fuel : Nat) (fp : FILE) : Res (List Nat × FILE) :=
  if (readInt fp).1 = 0 then Res.ok ([], (readInt fp).2)
  else
    (readStringLoop fuel (fseek (readInt fp).2 (readInt fp).1) [] 1024).bind
      (fun r => Res.ok (r.1, fseek r.2 (ftell (readInt fp).2)))

/-- The constant `QCT_MAGIC`. -/
def QCT_MAGIC : Int := 0x1423D5FF

/-- The call `calloc(nmemb, size)` with `int` arguments converted to 64-bit
`size_t`: the number of bytes of the block, or `none` (NULL) when the request
exceeds `avail`, the largest request the allocator grants. -/
def calloc (avail : Nat) (nmemb size : Int) : Option Nat :=
  if (nmemb % 18446744073709551616).toNat * (size % 18446744073709551616).toNat ≤ avail then
    some ((nmemb % 18446744073709551616).toNat * (size % 18446744073709551616).toNat)
  else none

/-! ## The class `QCT` -/

/-- The member `metadata` of the class `QCT` (qct.h).  A string is `none`
while its pointer is NULL; an array is `none` while its pointer is NULL and
otherwise the function from indices to elements. -/
structure Metadata where
  version : Int
  title : Option (List Nat)
  name : Option (List Nat)
  ident : Option (List Nat)
  edition : Option (List Nat)
  revision : Option (List Nat)
  keywords : Option (List Nat)
  copyright : Option (List Nat)
  scale : Option (List Nat)
  datum : Option (List Nat)
  depths : Option (List Nat)
  heights : Option (List Nat)
  projection : Option (List Nat)
  flags : Int
  origfilename : Option (List Nat)
  origfilesize : Int
  origfiletime : Int
  unknown1 : Int
  maptype : Option (List Nat)
  diskname : Option (List Nat)
  associateddata : Option (List Nat)
  license_identifier : Int
  license_description : Option (List Nat)
  license_serial : Int
  unknown2 : Int
  unknown3 : Int
  unknown4 : Int
  unknown5 : Int
  unknown6 : Int
  num_outline : Int
  outline_lat : Option (Nat → RawDouble)
  outline_lon : Option (Nat → RawDouble)
  image_index : Option (Nat → Int)

/-- The forty geo-referencing coefficients of the class `QCT` (qct.h), in
the order of their declaration. -/
structure Georef where
  eas : RawDouble
  easY : RawDouble
  easX : RawDouble
  easYY : RawDouble
  easXY : RawDouble
  easXX : RawDouble
  easYYY : RawDouble
  easXYY : RawDouble
  easXXY : RawDouble
  easXXX : RawDouble
  nor : RawDouble
  norY : RawDouble
  norX : RawDouble
  norYY : RawDouble
  norXY : RawDouble
  norXX : RawDouble
  norYYY : RawDouble
  norXYY : RawDouble
  norXXY : RawDouble
  norXXX : RawDouble
  lat : RawDouble
  latX : RawDouble
  latY : RawDouble
  latXX : RawDouble
  latXY : RawDouble
  latYY : RawDouble
  latXXX : RawDouble
  latXXY : RawDouble
  latXYY : RawDouble
  latYYY : RawDouble
  lon : RawDouble
  lonX : RawDouble
  lonY : RawDouble
  lonXX : RawDouble
  lonXY : RawDouble
  lonYY : RawDouble
  lonXXX : RawDouble
  lonXXY : RawDouble
  lonXYY : RawDouble
  lonYYY : RawDouble

/-- An object of the class `QCT` (qct.h) with the fields that `loadMetadata`
and `loadImage` use.  `image_size` is `none` while `image_data` is NULL and
otherwise the size of the allocated block; `width` and `height` are the C
`int` members (the structure `QCT` above is the view of `readTile`, which
only runs for a positive width). -/
structure QCTObject where
  qctfp : Option FILE
  width : Int
  height : Int
  palette : Nat → Int
  pal_interp : Nat → Nat → Nat
  image_size : Option Nat
  image_data : Nat → Nat
  scalefactor : Nat
  metadata : Metadata
  georef : Georef
  datum_shift_north : RawDouble
  datum_shift_east : RawDouble

/-! ## `QCT::loadMetadata` -/

/-- The assignments of qct.cpp 650-669: `version`, `width`, `height`, the
twelve strings `title` .. `projection`, `flags`, `origfilename`,
`origfilesize`, `origfiletime` and `unknown1`. -/
def loadHeader (fuel : Nat) (q : QCTObject) (fp : FILE) : Res (QCTObject × FILE) := do
  let version := readInt fp
  let width := readInt version.2
  let height := readInt width.2
  let title ← readString fuel height.2
  let name ← readString fuel title.2
  let ident ← readString fuel name.2
  let edition ← readString fuel ident.2
  let revision ← readString fuel edition.2
  let keywords ← readString fuel revision.2
  let copyright ← readString fuel keywords.2
  let scale ← readString fuel copyright.2
  let datum ← readString fuel scale.2
  let depths ← readString fuel datum.2
  let heights ← readString fuel depths.2
  let projection ← readString fuel heights.2
  let flags := readInt projection.2
  let origfilename ← readString fuel flags.2
  let origfilesize := readInt origfilename.2
  let origfiletime := readInt origfilesize.2
  let unknown1 := readInt origfiletime.2
  pure ({ q with
            width := width.1, height := height.1,
            metadata := { q.metadata with
              version := version.1, title := some title.1, name := some name.1,
              ident := some ident.1, edition := some edition.1,
              revision := some revision.1, keywords := some keywords.1,
              copyright := some copyright.1, scale := some scale.1,
              datum := some datum.1, depths := some depths.1,
              heights := some heights.1, projection := some projection.1,
              flags := flags.1, origfilename := some origfilename.1,
              origfilesize := origfilesize.1, origfiletime := origfiletime.1,
              unknown1 := unknown1.1 } }, unknown1.2)

/-- The block "Pointer to license serial structure" (qct.cpp 704-714),
entered at the serial pointer. -/
def loadSerial (q : QCTObject) (fp : FILE) : QCTObject × FILE :=
  let serial_position := readInt fp
  if serial_position.1 ≠ 0 then
    let current_position := ftell serial_position.2
    let license_serial := readInt (fseek serial_position.2 serial_position.1)
    ({ q with metadata := { q.metadata with license_serial := license_serial.1 } },
      fseek license_serial.2 current_position)
  else (q, serial_position.2)

/-- The block "Pointer to license structure" (qct.cpp 692-720), entered at
the license pointer. -/
def loadLicense (fuel : Nat) (q : QCTObject) (fp : FILE) : Res (QCTObject × FILE) :=
  let license_position := readInt fp
  if license_position.1 ≠ 0 then do
    let current_position := ftell license_position.2
    let license_identifier := readInt (fseek license_position.2 license_position.1)
    let skip1 := readInt license_identifier.2
    let skip2 := readInt skip1.2
    let license_description ← readString fuel skip2.2
    let serial := loadSerial
      { q with metadata := { q.metadata with
          license_identifier := license_identifier.1,
          license_description := some license_description.1 } } license_description.2
    let skip3 := readInt serial.2
    pure (serial.1, fseek skip3.2 current_position)
  else Res.ok (q, license_position.2)

/-- The block "Pointer to extended metadata" (qct.cpp 672-724), entered at
the extended-metadata pointer, with the datum-shift block (679-687)
inside. -/
def loadExtended (fuel : Nat) (q : QCTObject) (fp : FILE) : Res (QCTObject × FILE) := do
  let extended_position := readInt fp
  let current_position := ftell extended_position.2
  let maptype ← readString fuel (fseek extended_position.2 extended_position.1)
  let datum_shift_position := readInt maptype.2
  let datum_current_position := ftell datum_shift_position.2
  let north := readDouble (fseek datum_shift_position.2 datum_shift_position.1)
  let east := readDouble north.2
  let diskname ← readString fuel (fseek east.2 datum_current_position)
  let unknown2 := readInt diskname.2
  let unknown3 := readInt unknown2.2
  let license ← loadLicense fuel
    { q with
        datum_shift_north := north.1, datum_shift_east := east.1,
        metadata := { q.metadata with
          maptype := some maptype.1, diskname := some diskname.1,
          unknown2 := unknown2.1, unknown3 := unknown3.1 } } unknown3.2
  let associateddata ← readString fuel license.2
  let unknown6 := readInt associateddata.2
  pure ({ license.1 with metadata := { license.1.metadata with
            associateddata := some associateddata.1, unknown6 := unknown6.1 } },
        fseek unknown6.2 current_position)

/-- The loop over the outline points (qct.cpp 740-744): `n` rounds remain,
`outline` is the loop index. -/
def readOutline : Nat → Nat → FILE → (Nat → RawDouble) → (Nat → RawDouble) →
    FILE × (Nat → RawDouble) × (Nat → RawDouble)
  | 0, _, fp, outline_lat, outline_lon => (fp, outline_lat, outline_lon)
  | n + 1, outline, fp, outline_lat, outline_lon =>
    readOutline n (outline + 1) (readDouble (readDouble fp).2).2
      (Function.update outline_lat outline (readDouble fp).1)
      (Function.update outline_lon outline (readDouble (readDouble fp).2).1)

/-- The part "Map outline" (qct.cpp 727-746): `false` when it executes
`return false`. -/
def loadOutline (avail : Nat) (q : QCTObject) (fp : FILE) : Bool × QCTObject × FILE :=
  let num_outline := readInt fp
  let lat_block := calloc avail num_outline.1 8
  let lon_block := calloc avail num_outline.1 8
  let q1 : QCTObject :=
    { q with metadata := { q.metadata with
        num_outline := num_outline.1,
        outline_lat := lat_block.map (fun _ _ => [0, 0, 0, 0, 0, 0, 0, 0]),
        outline_lon := lon_block.map (fun _ _ => [0, 0, 0, 0, 0, 0, 0, 0]) } }
  if lat_block = none ∨ lon_block = none then (false, q1, num_outline.2)
  else
    let outline_position := readInt num_outline.2
    let current_position := ftell outline_position.2
    let points := readOutline num_outline.1.toNat 0
      (fseek outline_position.2 outline_position.1)
      (fun _ => [0, 0, 0, 0, 0, 0, 0, 0]) (fun _ => [0, 0, 0, 0, 0, 0, 0, 0])
    (true,
      { q1 with metadata := { q1.metadata with
          outline_lat := some points.2.1, outline_lon := some points.2.2 } },
      fseek points.1 current_position)

/-- The forty calls of `readDouble` for the geo-referencing coefficients
(qct.cpp 750-793). -/
def readGeoref (fp : FILE) : Georef × FILE :=
  let eas := readDouble fp
  let easY := readDouble eas.2
  let easX := readDouble easY.2
  let easYY := readDouble easX.2
  let easXY := readDouble easYY.2
  let easXX := readDouble easXY.2
  let easYYY := readDouble easXX.2
  let easXYY := readDouble easYYY.2
  let easXXY := readDouble easXYY.2
  let easXXX := readDouble easXXY.2
  let nor := readDouble easXXX.2
  let norY := readDouble nor.2
  let norX := readDouble norY.2
  let norYY := readDouble norX.2
  let norXY := readDouble norYY.2
  let norXX := readDouble norXY.2
  let norYYY := readDouble norXX.2
  let norXYY := readDouble norYYY.2
  let norXXY := readDouble norXYY.2
  let norXXX := readDouble norXXY.2
  let lat := readDouble norXXX.2
  let latX := readDouble lat.2
  let latY := readDouble latX.2
  let latXX := readDouble latY.2
  let latXY := readDouble latXX.2
  let latYY := readDouble latXY.2
  let latXXX := readDouble latYY.2
  let latXXY := readDouble latXXX.2
  let latXYY := readDouble latXXY.2
  let latYYY := readDouble latXYY.2
  let lon := readDouble latYYY.2
  let lonX := readDouble lon.2
  let lonY := readDouble lonX.2
  let lonXX := readDouble lonY.2
  let lonXY := readDouble lonXX.2
  let lonYY := readDouble lonXY.2
  let lonXXX := readDouble lonYY.2
  let lonXXY := readDouble lonXXX.2
  let lonXYY := readDouble lonXXY.2
  let lonYYY := readDouble lonXYY.2
  (⟨eas.1, easY.1, easX.1, easYY.1, easXY.1, easXX.1, easYYY.1, easXYY.1, easXXY.1, easXXX.1,
    nor.1, norY.1, norX.1, norYY.1, norXY.1, norXX.1, norYYY.1, norXYY.1, norXXY.1, norXXX.1,
    lat.1, latX.1, latY.1, latXX.1, latXY.1, latYY.1, latXXX.1, latXXY.1, latXYY.1, latYYY.1,
    lon.1, lonX.1, lonY.1, lonXX.1, lonXY.1, lonYY.1, lonXXX.1, lonXXY.1, lonXYY.1, lonYYY.1⟩,
   lonYYY.2)

/-- A loop `for (ii=0; ii<n; ii++) a[ii] = readInt(fp)` (the palette,
qct.cpp 795-798, and the image index, 810-811): `n` rounds remain, `ii` is
the loop index. -/
def readInts : Nat → Nat → FILE → (Nat → Int) → FILE × (Nat → Int)
  | 0, _, fp, a => (fp, a)
  | n + 1, ii, fp, a => readInts n (ii + 1) (readInt fp).2 (Function.update a ii (readInt fp).1)

/-- The inner loop of the interpolation matrix (qct.cpp 801-804) for row
`ii`: `n` rounds remain, `jj` is the loop index. -/
def readInterpRow (ii : Nat) : Nat → Nat → FILE → (Nat → Nat → Nat) → FILE × (Nat → Nat → Nat)
  | 0, _, fp, pal_interp => (fp, pal_interp)
  | n + 1, jj, fp, pal_interp =>
    readInterpRow ii n (jj + 1) (fgetc fp).2
      (fun a b => if a = ii ∧ b = jj then toUChar (fgetc fp).1 else pal_interp a b)

/-- The outer loop of the interpolation matrix: `n` rounds remain, `ii` is
the loop index. -/
def readInterp : Nat → Nat → FILE → (Nat → Nat → Nat) → FILE × (Nat → Nat → Nat)
  | 0, _, fp, pal_interp => (fp, pal_interp)
  | n + 1, ii, fp, pal_interp =>
    readInterp n (ii + 1) (readInterpRow ii 128 0 fp pal_interp).1
      (readInterpRow ii 128 0 fp pal_interp).2

/-- The part of `loadMetadata` from the geo-referencing coefficients to the
end (qct.cpp 748-814): the return value, the object and the stream.
`sizeof(int*)` is 8. -/
def loadTables (avail : Nat) (q : QCTObject) (fp : FILE) : Bool × QCTObject × FILE :=
  let georef := readGeoref fp
  let palette := readInts 256 0 georef.2 q.palette
  let interp := readInterp 128 0 palette.1 q.pal_interp
  let q1 : QCTObject :=
    { q with georef := georef.1, palette := palette.2, pal_interp := interp.2 }
  match calloc avail (q.width * q.height) 8 with
  | none => (false, { q1 with metadata := { q1.metadata with image_index := none } }, interp.1)
  | some _ =>
    let index := readInts (q.width * q.height).toNat 0 interp.1 (fun _ => 0)
    (true, { q1 with metadata := { q1.metadata with image_index := some index.2 } }, index.1)

/-- The part of `loadMetadata` after the magic check (qct.cpp 650-814). -/
def loadBody (fuel avail : Nat) (q : QCTObject) (fp : FILE) : Res (Bool × QCTObject × FILE) := do
  let header ← loadHeader fuel q fp
  let extended ← loadExtended fuel header.1 header.2
  let outline := loadOutline avail extended.1 extended.2
  if outline.1 = false then pure outline
  else pure (loadTables avail outline.2.1 outline.2.2)

/-- The method `QCT::loadMetadata` (qct.cpp 637-815): the return value, the
object and the stream afterwards. -/
def QCTObject.loadMetadata (fuel avail : Nat) (q : QCTObject) (fp : FILE) :
    Res (Bool × QCTObject × FILE) :=
  if (readInt fp).1 ≠ QCT_MAGIC then Res.ok (false, q, (readInt fp).2)
  else loadBody fuel avail q (readInt fp).2

/-! ## `QCT::loadImage` -/

/-- The view of an object that `readTile` works on, with the image `image`. -/
def QCTObject.tileView (q : QCTObject) (image : Nat → Nat) : QCT :=
  ⟨q.width.toNat, q.height.toNat, q.pal_interp, image⟩

/-- The body of the tile loops of `loadImage` (qct.cpp 835-839) for tile
`(xx, yy)`: seek to the tile's entry of the image index and call `readTile`.
The result is the stream and the image afterwards.  Reading the image index
through a NULL pointer is a fault. -/
def loadTile (fuel : Nat) (junk : Nat → Int) (q : QCTObject) (fp : FILE) (image : Nat → Nat)
    (xx yy : Nat) : Res (FILE × (Nat → Nat)) :=
  match q.metadata.image_index with
  | none => Res.fault
  | some image_index =>
    ((q.tileView image).readTile fuel junk
        (fseek fp (image_index (yy * q.width.toNat + xx))) xx yy q.scalefactor).map
      (fun r => (r.1, r.2.image_data))

/-- The inner tile loop `for (xx=0; xx<width; xx++)`: `n` rounds remain. -/
def loadTileRow (fuel : Nat) (junk : Nat → Int) (q : QCTObject) (yy : Nat) :
    Nat → Nat → FILE → (Nat → Nat) → Res (FILE × (Nat → Nat))
  | 0, _, fp, image => Res.ok (fp, image)
  | n + 1, xx, fp, image =>
    (loadTile fuel junk q fp image xx yy).bind
      (fun r => loadTileRow fuel junk q yy n (xx + 1) r.1 r.2)

/-- The outer tile loop `for (yy=0; yy<height; yy++)`: `n` rounds remain. -/
def loadTileRows (fuel : Nat) (junk : Nat → Int) (q : QCTObject) :
    Nat → Nat → FILE → (Nat → Nat) → Res (FILE × (Nat → Nat))
  | 0, _, fp, image => Res.ok (fp, image)
  | n + 1, yy, fp, image =>
    (loadTileRow fuel junk q yy q.width.toNat 0 fp image).bind
      (fun r => loadTileRows fuel junk q n (yy + 1) r.1 r.2)

/-- The allocation of `loadImage` (qct.cpp 827):
`calloc(height*QCT_TILE_SIZE, width*QCT_TILE_SIZE)`. -/
def allocImage (avail : Nat) (q : QCTObject) : Option Nat :=
  calloc avail (q.height * 64) (q.width * 64)

/-- The method `QCT::loadImage` (qct.cpp 817-844): the return value and the
object afterwards. -/
def QCTObject.loadImage (fuel : Nat) (junk : Nat → Int) (avail : Nat) (q : QCTObject)
    (scale : Nat) : Res (Bool × QCTObject) :=
  match q.qctfp with
  | none => Res.ok (false, q)
  | some fp =>
    match allocImage avail q with
    | none => Res.ok (false, { q with scalefactor := scale, image_size := none })
    | some size =>
      (loadTileRows fuel junk { q with scalefactor := scale } q.height.toNat 0 fp
          (fun _ => 0)).map
        (fun r => (true, { q with scalefactor := scale, image_size := some size,
                                  qctfp := some r.1, image_data := r.2 }))

/-! ## Concrete objects -/

/-- A member `metadata` with every pointer NULL and every number 0, as the
constructor of the class leaves the pointers. -/
def emptyMetadata : Metadata :=
  ⟨0, none, none, none, none, none, none, none, none, none, none, none, none, 0, none, 0, 0, 0,
   none, none, none, 0, none, 0, 0, 0, 0, 0, 0, 0, none, none, none⟩

/-- Forty coefficients that are all the zero pattern. -/
def zeroGeoref : Georef :=
  ⟨[], [], [], [], [], [], [], [], [], [], [], [], [], [], [], [], [], [], [], [],
   [], [], [], [], [], [], [], [], [], [], [], [], [], [], [], [], [], [], [], []⟩

/-- An object without a stream, image or metadata, of `width` by `height`
tiles. -/
def blankObject (width height : Int) : QCTObject :=
  ⟨none, width, height, fun _ => 0, fun _ _ => 0, none, fun _ => 0, 1, emptyMetadata,
   zeroGeoref, [], []⟩

/-- A one-tile map at scale factor 4 whose single image-index entry is 0. -/
def magicOnlyObject : QCTObject :=
  { blankObject 1 1 with
      scalefactor := 4,
      metadata := { emptyMetadata with image_index := some (fun _ => 0) } }

/-- The down-sampled pixel of output column `x` in the words of the
specification: start with `pix = src[x*s]`, then for `n = 1 .. s-1` set
`pix = interp[pix][src[x*s + n]]`; `src` is one row of 64 pixels. -/
def interpFold (interp : Nat → Nat → Nat) (src : Nat → Nat) (s x : Nat) : Nat :=
  (List.range (s - 1)).foldl (fun pix n => interp pix (src (x * s + (n + 1)))) (src (x * s))

/-- A one-tile map whose interpolation matrix maps every pair to palette
index 5. -/
def constInterpMap : QCT := ⟨1, 1, fun _ _ => 5, fun _ => 0⟩

/-- A tile stream with packing byte 128 followed by eight zero bytes. -/
def reservedTile : FILE := ⟨[128, 0, 0, 0, 0, 0, 0, 0, 0], 0, false⟩

/-- A one-tile map whose interpolation matrix returns its first index. -/
def leftInterpMap : QCT := ⟨1, 1, fun a _ => a, fun _ => 0⟩

/-- A decoded buffer whose row 1 is palette index 7 and whose other rows
are palette index 0. -/
def secondRowTile : List Nat := List.replicate 64 0 ++ List.replicate 64 7

/-! ## A concrete map file -/

/-- The bytes of a one-tile map file of 17828 bytes: the magic number,
version 2, width 1, height 1, NULL string pointers, the extended-metadata
pointer 96 at offset 84, no outline, zero coefficients, the first palette
entry 7 at offset 416, the first interpolation entry 9 at offset 1440 and
the tile-index entry 17828 at offset 17824. -/
def sampleByte (i : Nat) : Fin 256 :=
  if i = 0 then 255 else if i = 1 then 213 else if i = 2 then 35 else if i = 3 then 20
  else if i = 4 then 2 else if i = 8 then 1 else if i = 12 then 1 else if i = 84 then 96
  else if i = 416 then 7 else if i = 1440 then 9
  else if i = 17824 then 164 else if i = 17825 then 69 else 0

/-- The file with the bytes `sampleByte`. -/
@[irreducible]
def sampleFile : List (Fin 256) := (List.range 17828).map sampleByte

/-- The one-tile map `magicOnlyObject` with an open file that consists of
the four magic bytes. -/
def magicFileObject : QCTObject :=
  { magicOnlyObject with qctfp := some ⟨[255, 213, 35, 20], 0, false⟩ }

/-! ## A truncated map file -/

/-- The bytes of `sampleFile`, with the extended-metadata pointer at offset
84 changed to 16 (a block of zero bytes inside the header). -/
def truncatedByte (i : Nat) : Fin 256 := if i = 84 then 16 else sampleByte i

/-- A file that ends after the 96 bytes of the header: the coefficients, the
palette, the interpolation matrix and the tile index are missing. -/
def truncatedFile : List (Fin 256) := (List.range 96).map truncatedByte

/-! ## A map file with excursions -/

/-- A file whose first word is the string pointer 4 and whose bytes from
offset 4 are `Hi` and a zero. -/
def greetingFile : List (Fin 256) := [4, 0, 0, 0, 72, 105, 0]

/-- A file whose string pointer at offset 0 is 4, followed by a string of `n`
bytes `A` and its terminating zero. -/
def stringFile (n : Nat) : List (Fin 256) := [4, 0, 0, 0] ++ (List.replicate n 65 ++ [0])

/-- The file `stringFile` with a string of 1024 bytes, the size of the block
that `readString` allocates. -/
def longStringFile : List (Fin 256) := stringFile 1024

/-! ## The palette getter -/

/-- The macro `PAL_RED(c)`: `((c>>16)&255)`. -/
def PAL_RED (c : Int) : Int := cAnd (c >>> (16 : Nat)) 255

/-- The macro `PAL_GREEN(c)`: `((c>>8)&255)`. -/
def PAL_GREEN (c : Int) : Int := cAnd (c >>> (8 : Nat)) 255

/-- The macro `PAL_BLUE(c)`: `((c)&255)`. -/
def PAL_BLUE (c : Int) : Int := cAnd c 255

/-- The method `QCT::getColour` (qct.h 65-70): the return value and the
contents of `*R`, `*G`, `*B` afterwards, given their contents before. -/
def QCTObject.getColour (q : QCTObject) (index : Int) (R G B : Int) : Bool × Int × Int × Int :=
  if index < 0 ∨ index > 127 then (false, R, G, B)
  else (true, PAL_RED (q.palette index.toNat), PAL_GREEN (q.palette index.toNat),
    PAL_BLUE (q.palette index.toNat))

/-- An object whose palette entry `i` is `65536 * i + 256 * 2 + 3`. -/
def rampObject : QCTObject :=
  { blankObject 1 1 with palette := fun i => 65536 * (i : Int) + 515 }

/-! ## The coordinate transform -/

/-- The value of an `int` expression whose mathematical value is `z` on a
two's-complement target: `z` reduced modulo 2^32 into the range of `int`.
Signed overflow is undefined in C; the usual targets wrap. -/
def wrapInt (z : Int) : Int := toInt32 (z % 4294967296).toNat

/-- The values of the `double` members of the class `QCT` (qct.h 129-133), in
declaration order, in exact arithmetic. -/
structure Coefficients where
  eas : ℚ
  easY : ℚ
  easX : ℚ
  easYY : ℚ
  easXY : ℚ
  easXX : ℚ
  easYYY : ℚ
  easXYY : ℚ
  easXXY : ℚ
  easXXX : ℚ
  nor : ℚ
  norY : ℚ
  norX : ℚ
  norYY : ℚ
  norXY : ℚ
  norXX : ℚ
  norYYY : ℚ
  norXYY : ℚ
  norXXY : ℚ
  norXXX : ℚ
  lat : ℚ
  latX : ℚ
  latY : ℚ
  latXX : ℚ
  latXY : ℚ
  latYY : ℚ
  latXXX : ℚ
  latXXY : ℚ
  latXYY : ℚ
  latYYY : ℚ
  lon : ℚ
  lonX : ℚ
  lonY : ℚ
  lonXX : ℚ
  lonXY : ℚ
  lonYY : ℚ
  lonXXX : ℚ
  lonXXY : ℚ
  lonXYY : ℚ
  lonYYY : ℚ
  datum_shift_north : ℚ
  datum_shift_east : ℚ

/-- The first part of `QCT::xy_to_latlon` (qct.cpp 1255-1267): `x` and `y`
are multiplied by the scale factor and then clipped; the result is the pair
of `int` variables `x`, `y` afterwards. -/
def clipPixel (q : QCTObject) (x y : Int) : Int × Int :=
  let x1 := wrapInt (x * (q.scalefactor : Int))
  let y1 := wrapInt (y * (q.scalefactor : Int))
  let x2 := if x1 < 0 then 0 else x1
  let y2 := if y1 < 0 then 0 else y1
  let x3 := if x2 ≥ wrapInt (q.width * 64) then wrapInt (wrapInt (q.width * 64) - 1) else x2
  let y3 := if y2 ≥ wrapInt (q.height * 64) then wrapInt (q.height * 64) else y2
  (x3, y3)

/-- The second part of `QCT::xy_to_latlon` (qct.cpp 1269-1333) on the clipped
`int` variables `x`, `y`: the powers are `int` variables, the polynomials are
evaluated in `double` (here exactly), and the datum shift is added.  The
result is `(*latitude, *longitude)`. -/
def forwardPolynomials (c : Coefficients) (x y : Int) : ℚ × ℚ :=
  let x2 := wrapInt (x * x)
  let x3 := wrapInt (x2 * x)
  let y2 := wrapInt (y * y)
  let y3 := wrapInt (y2 * y)
  let longitude := c.lon + c.lonX * x + c.lonY * y + c.lonXX * x2 + c.lonXY * x * y
    + c.lonYY * y2 + c.lonXXX * x3 + c.lonXXY * x2 * y + c.lonXYY * x * y2 + c.lonYYY * y3
  let latitude := c.lat + c.latX * x + c.latY * y + c.latXX * x2 + c.latXY * x * y
    + c.latYY * y2 + c.latXXX * x3 + c.latXXY * x2 * y + c.latXYY * x * y2 + c.latYYY * y3
  (latitude + c.datum_shift_north, longitude + c.datum_shift_east)

/-- The method `QCT::xy_to_latlon` (qct.cpp 1255-1334) with the coefficient
values `c`: the pair `(*latitude, *longitude)`. -/
def QCTObject.xy_to_latlon (q : QCTObject) (c : Coefficients) (x y : Int) : ℚ × ℚ :=
  forwardPolynomials c (clipPixel q x y).1 (clipPixel q x y).2

/-- Modelled from the spec: the macro `NINT` of `satlib/dundee.h`, a header
that is not in the repository.  The spec says "Round to nearest integer"; a
tie is rounded away from zero. -/
def NINT (x : ℚ) : Int := if 0 ≤ x then ⌊x + 1 / 2⌋ else ⌈x - 1 / 2⌉

/-- The method `QCT::latlon_to_xy` (qct.cpp 1337-1367) with the coefficient
values `c`: the pair `(*pixel_x, *pixel_y)`.  The powers are taken before the
datum shift is removed.  The scale factor is not 0. -/
def QCTObject.latlon_to_xy (q : QCTObject) (c : Coefficients) (latitude longitude : ℚ) :
    Int × Int :=
  let latitude1 := if latitude < -90 then -90 else latitude
  let latitude2 := if latitude1 > 90 then 90 else latitude1
  let longitude1 := if longitude < -360 then 0 else longitude
  let longitude2 := if longitude1 > 360 then 0 else longitude1
  let lon2 := longitude2 * longitude2
  let lon3 := lon2 * longitude2
  let lat2 := latitude2 * latitude2
  let lat3 := lat2 * latitude2
  let lon := longitude2 - c.datum_shift_east
  let lat := latitude2 - c.datum_shift_north
  let pixel_x := NINT (c.eas + c.easX * lon + c.easY * lat + c.easXX * lon2 + c.easXY * lon * lat
    + c.easYY * lat2 + c.easXXX * lon3 + c.easXXY * lon2 * lat + c.easXYY * lon * lat2
    + c.easYYY * lat3)
  let pixel_y := NINT (c.nor + c.norX * lon + c.norY * lat + c.norXX * lon2 + c.norXY * lon * lat
    + c.norYY * lat2 + c.norXXX * lon3 + c.norXXY * lon2 * lat + c.norXYY * lon * lat2
    + c.norYYY * lat3)
  (Int.tdiv pixel_x (q.scalefactor : Int), Int.tdiv pixel_y (q.scalefactor : Int))

/-- The method `QCT::getImageWidth` (qct.h 62). -/
def QCTObject.getImageWidth (q : QCTObject) : Int :=
  Int.tdiv (wrapInt (q.width * 64)) (q.scalefactor : Int)

/-- The method `QCT::getImageHeight` (qct.h 63). -/
def QCTObject.getImageHeight (q : QCTObject) : Int :=
  Int.tdiv (wrapInt (q.height * 64)) (q.scalefactor : Int)

/-- The method `QCT::getDegreesPerPixel` (qct.cpp 1370-1384) with the
coefficient values `c`. -/
def QCTObject.getDegreesPerPixel (q : QCTObject) (c : Coefficients) : ℚ :=
  if q.width < 1 ∨ q.height < 1 then 0
  else
    let y := Int.tdiv q.height 2
    let w := Int.tdiv (wrapInt (q.width * 64)) (q.scalefactor : Int)
    let lon0 := (q.xy_to_latlon c 0 y).2
    let lon1 := (q.xy_to_latlon c (wrapInt (w - 1)) y).2
    |lon1 - lon0| / (w : ℚ)

/-- Coefficients and datum shifts that are all zero. -/
def zeroCoefficients : Coefficients :=
  ⟨0, 0, 0, 0, 0, 0, 0, 0, 0, 0, 0, 0, 0, 0, 0, 0, 0, 0, 0, 0,
   0, 0, 0, 0, 0, 0, 0, 0, 0, 0, 0, 0, 0, 0, 0, 0, 0, 0, 0, 0, 0, 0⟩

/-- The linear geo-reference of scenario S6: `lonX = 1e-6`, `latY = -1e-6`
and the matching inverse `easX = 1e6`, `norY = -1e6`. -/
def linearCoefficients : Coefficients :=
  { zeroCoefficients with
      lonX := 1 / 1000000, latY := -1 / 1000000, easX := 1000000, norY := -1000000 }

/-- A one-tile map at scale factor 2. -/
def halfScaleObject : QCTObject := { blankObject 1 1 with scalefactor := 2 }

/-- Coefficients that are zero except `lonX = 1`: the longitude is the
clipped `x`. -/
def lonXCoefficients : Coefficients := { zeroCoefficients with lonX := 1 }

/-- Coefficients that are zero except `lonXXX = 1`: the longitude is the
cube of the clipped `x`. -/
def lonCubeCoefficients : Coefficients := { zeroCoefficients with lonXXX := 1 }

/-- Coefficients that are zero except `easXX = 1`, with the datum shift 1 to
the east. -/
def eastSquareCoefficients : Coefficients :=
  { zeroCoefficients with easXX := 1, datum_shift_east := 1 }

/-- Coefficients that are zero except `lonXY = 1`: the longitude is the
product of the clipped `x` and `y`. -/
def lonCrossCoefficients : Coefficients := { zeroCoefficients with lonXY := 1 }

/-- The cubic polynomial of the specification,
`P(u, v) = c + cX*u + cY*v + cXX*u^2 + cXY*u*v + cYY*v^2 + cXXX*u^3
+ cXXY*u^2*v + cXYY*u*v^2 + cYYY*v^3`, in exact arithmetic. -/
def cubicPolynomial (c cX cY cXX cXY cYY cXXX cXXY cXYY cYYY u v : ℚ) : ℚ :=
  c + cX * u + cY * v + cXX * u ^ 2 + cXY * u * v + cYY * v ^ 2 + cXXX * u ^ 3
    + cXXY * u ^ 2 * v + cXYY * u * v ^ 2 + cYYY * v ^ 3

/-- The longitude of the specification at the clipped and scaled pixel
`(X, Y)`: the polynomial with the `lon` coefficients plus the datum shift. -/
def exactLongitude (c : Coefficients) (X Y : ℚ) : ℚ :=
  cubicPolynomial c.lon c.lonX c.lonY c.lonXX c.lonXY c.lonYY c.lonXXX c.lonXXY c.lonXYY
    c.lonYYY X Y + c.datum_shift_east

/-- The latitude of the specification at the clipped and scaled pixel
`(X, Y)`: the polynomial with the `lat` coefficients plus the datum shift. -/
def exactLatitude (c : Coefficients) (X Y : ℚ) : ℚ :=
  cubicPolynomial c.lat c.latX c.latY c.latXX c.latXY c.latYY c.latXXX c.latXXY c.latXYY
    c.latYYY X Y + c.datum_shift_north

/-- A map of 16 by 8 tiles (1024 by 512 pixels) at scale factor 1. -/
def sixteenByEightObject : QCTObject := blankObject 16 8

/-- A map of 1 by 2 tiles (64 by 128 pixels) at scale factor 1. -/
def oneByTwoObject : QCTObject := blankObject 1 2

/-! ## `QCT::coordInsideMap` -/

/-- The conversion `(unsigned int) d` of a `double` whose exact value is
`d`: the fraction is discarded and the integer is reduced modulo 2^32. -/
def toUInt (d : ℚ) : Nat := ((if 0 ≤ d then ⌊d⌋ else ⌈d⌉) % 4294967296).toNat

/-- The macro `LAT_TO_INT` (qct.cpp 996). -/
def LAT_TO_INT (L : ℚ) : Nat := toUInt ((L + 90) * 1000)

/-- The macro `LON_TO_INT` (qct.cpp 997). -/
def LON_TO_INT (L : ℚ) : Nat := toUInt ((L + 180) * 1000)

/-- The method `QCT::coordInsideMap` (qct.cpp 985-1012).  The polygon
primitive `inpoly` comes from the header `inpoly.h`, which is not among the
sources: it is the parameter `inpoly`, called with the array of vertices
`(lon, lat)`, the number of vertices and the point, and it may fail or run
for ever.  `value` gives the exact value of a stored `double`.  The array
`intpoly` is declared before the test of `num_outline`; the declaration does
nothing in the model.  Outline arrays that are NULL are dereferenced by the
loop. -/
def QCTObject.coordInsideMap (q : QCTObject) (value : RawDouble → ℚ)
    (inpoly : List (Nat × Nat) → Int → Nat → Nat → Res Int) (lat lon : ℚ) : Res Bool :=
  if q.metadata.num_outline < 3 then Res.ok false
  else
    let intlat := LAT_TO_INT lat
    let intlon := LON_TO_INT lon
    match q.metadata.outline_lat, q.metadata.outline_lon with
    | some outline_lat, some outline_lon =>
      let intpoly := (List.range q.metadata.num_outline.toNat).map
        (fun ii => (LON_TO_INT (value (outline_lon ii)), LAT_TO_INT (value (outline_lat ii))))
      (inpoly intpoly q.metadata.num_outline intlon intlat).map (fun rc => decide (rc ≠ 0))
    | _, _ => Res.fault

/-- A polygon primitive that never returns a result. -/
def failingInpoly : List (Nat × Nat) → Int → Nat → Nat → Res Int := fun _ _ _ _ => Res.fault

/-- A map whose outline has two vertices. -/
def twoVertexObject : QCTObject :=
  { blankObject 1 1 with
      metadata := { emptyMetadata with
        num_outline := 2,
        outline_lat := some (fun _ => []),
        outline_lon := some (fun _ => []) } }

/-! ## Counting the entries of a prefix-code table -/

/-- Progress of a walk over a prefix-code table from its first byte:
`pending` is the number of operand bytes of a long branch still to be
skipped, the other fields count the entries met so far. -/
structure TableCounts where
  pending : Nat
  leaves : Nat
  shorts : Nat
  longs : Nat
  deriving DecidableEq, Repr

/-- The walk of the specification over one more table byte `e`: an operand
byte of a long branch is skipped; otherwise a byte below 128 is a leaf, the
byte 128 is a long branch followed by two operand bytes, and a byte above 128
is a short branch. -/
def countEntry (c : TableCounts) (e : Nat) : TableCounts :=
  if 0 < c.pending then { c with pending := c.pending - 1 }
  else if e < 128 then { c with leaves := c.leaves + 1 }
  else if e = 128 then { c with longs := c.longs + 1, pending := 2 }
  else { c with shorts := c.shorts + 1 }

/-- The entries of a prefix-code table in the words of the specification. -/
def tableCounts (huff : List Nat) : TableCounts := huff.foldl countEntry ⟨0, 0, 0, 0⟩

/-! ## The bit stream of the prefix-code mode -/

/-- The value returned by the `k`-th call of `fgetc` (counting from 0) in a
sequence of consecutive calls starting at `fp`. -/
def nthByte (fp : FILE) (k : Nat) : Int :=
  (fgetc ((fun f => (fgetc f).2)^[k] fp)).1

/-- Bit `n mod 8` of data byte `n div 8` of the stream `fp` in the words of
the specification, the least-significant bit of a byte being bit 0. -/
def streamBit (fp : FILE) (n : Nat) : Int := nthByte fp (n / 8) / 2 ^ (n % 8) % 2

/-! ## Truncated streams -/

/-- An RLE tile with packing byte 1 and sub-palette `[7]` that ends before
the first run. -/
def truncatedRleTile : FILE := ⟨[1, 7], 0, false⟩

/-- An RLE tile with packing byte 1, sub-palette `[7]` and two runs of length
zero before the end of the stream. -/
def zeroRunTile : FILE := ⟨[1, 7, 0, 0], 0, false⟩

/-- A prefix-code tile that ends after the packing byte. -/
def truncatedHuffTile : FILE := ⟨[0], 0, false⟩

/-- A file whose string pointer at offset 0 is 4 and whose string `A` is not
followed by a zero byte. -/
def unterminatedFile : FILE := ⟨[4, 0, 0, 0, 65], 0, false⟩

/-- A file whose string pointer at offset 0 is 9, beyond the end of the
file. -/
def beyondFile : FILE := ⟨[9, 0, 0, 0], 0, false⟩

/-! ## The integer powers of `xy_to_latlon` -/

/-- The `int` variables `x2`, `x3`, `y2`, `y3` of `QCT::xy_to_latlon`
(qct.cpp 1269-1272) for the clipped variables `x`, `y`. -/
def intPowers (x y : Int) : Int × Int × Int × Int :=
  let x2 := wrapInt (x * x)
  let x3 := wrapInt (x2 * x)
  let y2 := wrapInt (y * y)
  let y3 := wrapInt (y2 * y)
  (x2, x3, y2, y3)

/-- Coefficients that are zero except `latYYY = 1`: the latitude is the cube
of the clipped `y`. -/
def latCubeCoefficients : Coefficients := { zeroCoefficients with latYYY := 1 }

/-! ## The lookups of the down-sampling branch -/

/-- The index pairs `(pix, *src)` of the lookups `pal_interp[pix][*src++]`
made by the loop of `interpRun`, in the order of the rounds. -/
def interpLookups (pal_interp : Nat → Nat → Nat) (tile : List Nat) :
    Nat → Nat → Nat → List (Nat × Nat)
  | 0, _, _ => []
  | n + 1, src, pix =>
    (pix, tileAt tile src)
      :: interpLookups pal_interp tile n (src + 1) (pal_interp pix (tileAt tile src))

/-- The lookups made by the down-sampling branch of the placement
(qct.cpp 615-632) for output row `yy` and output column `xx`. -/
def pixelLookups (q : QCT) (scalefactor : Nat) (tile : List Nat) (yy xx : Nat) :
    List (Nat × Nat) :=
  interpLookups q.pal_interp tile (scalefactor - 1) (yy * 64 + xx * scalefactor + 1)
    (tileAt tile (yy * 64 + xx * scalefactor))

/-- All the lookups in the interpolation matrix made by the placement part of
`readTile`: none at scale factor 1, otherwise those of every output row and
column in loop order. -/
def placeLookups (q : QCT) (scalefactor : Nat) (tile : List Nat) : List (Nat × Nat) :=
  if scalefactor = 1 then []
  else
    (List.range (64 / scalefactor)).flatMap (fun yy =>
      (List.range (64 / scalefactor)).flatMap (fun xx => pixelLookups q scalefactor tile yy xx))

/-- A one-tile map whose interpolation matrix holds 200 in every cell. -/
def wideInterpMap : QCT := ⟨1, 1, fun _ _ => 200, fun _ => 0⟩

/-- An RLE tile with packing byte 1, sub-palette `[200]` and 64 runs of
length 64 (data byte `80`). -/
def wideRleTile : FILE := ⟨[1, 200] ++ List.replicate 64 128, 0, false⟩

/-! ## The stand-alone converter -/

/-- The `if` chain of `readTile` in the stand-alone converter
(qct2png.cpp 410, 533, 562): prefix code for 0 and 255, the bit-packed branch
for every other byte above 127 with `num_sub_colours = 256 - packing`, and
the RLE branch otherwise with `num_sub_colours = packing`.  There is no
branch for the byte 128. -/
def selectModeConverter (packing : Int) : Mode :=
  if packing = 0 ∨ packing = 255 then Mode.huffman
  else if packing > 127 then Mode.pixel (256 - packing)
  else Mode.rle packing

/-- The value that the traversal loop stores for pixel `n` on the table
`[255, a, b]`, in the operations of the code: the current byte is the result
of `fgetc` number `n div 8`, shifted right `n mod 8` times, and its lowest bit
selects the leaf. -/
def twoLeafPixel (fp : FILE) (a b n : Nat) : Nat :=
  if cAnd (nthByte fp (n / 8) >>> (n % 8)) 1 = 0 then a else b

/-- The state of the traversal loop on the table `[255, a, b]` when `n`
pixels are stored: the byte number `n div 8` has been shifted `n mod 8` times
and the stream has been read once more than `n div 8` times. -/
def twoLeafState (fp : FILE) (a b n : Nat) : HuffState :=
  { fp := (fun f => (fgetc f).2)^[n / 8 + 1] fp,
    ii := nthByte fp (n / 8) >>> (n % 8),
    bits_left := 8 - n % 8,
    huff_ptr := 0,
    tile := (List.range n).map (twoLeafPixel fp a b) }

/-- A prefix-code tile with packing byte 0 whose table is the long branch
`80 FD FF` followed by the leaves 5 and 6. -/
def longBranchTile : FILE := ⟨[0, 128, 253, 255, 5, 6, 0], 0, false⟩

/-! ## Bitwise facts -/

theorem cAnd_lowMask_of_nonneg (m b : Nat) : cAnd (m : Int) (lowMask b) = ((m % 2 ^ b : Nat) : Int) := by
  have h1 : lowMask b = ((2 ^ b - 1 : Nat) : Int) := by
    unfold lowMask
    rw [Nat.one_shiftLeft]
    have : 1 ≤ 2 ^ b := Nat.one_le_two_pow
    omega
  rw [h1]
  show Int.land (Int.ofNat m) (Int.ofNat (2 ^ b - 1)) = _
  simp only [Int.land]
  rw [Nat.and_pow_two_sub_one_eq_mod]

theorem ldiff_mask (m b : Nat) : Nat.ldiff (2 ^ b - 1) m = 2 ^ b - 1 - m % 2 ^ b := by
  apply Nat.eq_of_testBit_eq
  intro i
  have hlt : m % 2 ^ b < 2 ^ b := Nat.mod_lt _ (Nat.two_pow_pos b)
  have e : 2 ^ b - 1 - m % 2 ^ b = 2 ^ b - (m % 2 ^ b + 1) := by omega
  rw [Nat.testBit_ldiff, e, Nat.testBit_two_pow_sub_succ hlt, Nat.testBit_two_pow_sub_one,
    Nat.testBit_mod_two_pow]
  by_cases h : i < b <;> simp [h]

theorem cAnd_lowMask (x : Int) (b : Nat) : cAnd x (lowMask b) = x % 2 ^ b := by
  cases x with
  | ofNat m =>
    rw [show Int.ofNat m = (m : Int) from rfl, cAnd_lowMask_of_nonneg]
    push_cast
    rfl
  | negSucc m =>
    have h1 : lowMask b = ((2 ^ b - 1 : Nat) : Int) := by
      unfold lowMask
      rw [Nat.one_shiftLeft]
      have : 1 ≤ 2 ^ b := Nat.one_le_two_pow
      omega
    rw [h1]
    show Int.land (Int.negSucc m) (Int.ofNat (2 ^ b - 1)) = _
    simp only [Int.land]
    rw [ldiff_mask]
    have hlt : m % 2 ^ b < 2 ^ b := Nat.mod_lt _ (Nat.two_pow_pos b)
    have hpos : (0 : Int) < 2 ^ b := by positivity
    rw [Int.negSucc_eq]
    have key : (-((m : Int) + 1)) % 2 ^ b = ((2 ^ b - 1 - m % 2 ^ b : Nat) : Int) := by
      have hm : (m : Int) = 2 ^ b * ((m / 2 ^ b : Nat) : Int) + ((m % 2 ^ b : Nat) : Int) := by
        have := Nat.div_add_mod m (2 ^ b)
        exact_mod_cast this.symm
      have e2 : (-((m : Int) + 1)) = ((2 ^ b - 1 - m % 2 ^ b : Nat) : Int) + 2 ^ b * (-((m / 2 ^ b : Nat) : Int) - 1) := by
        have : ((2 ^ b - 1 - m % 2 ^ b : Nat) : Int) = 2 ^ b - 1 - ((m % 2 ^ b : Nat) : Int) := by
          have h3 : m % 2 ^ b + 1 ≤ 2 ^ b := hlt
          have h4 : 2 ^ b - 1 - m % 2 ^ b = 2 ^ b - (m % 2 ^ b + 1) := by omega
          rw [h4, Nat.cast_sub h3]
          push_cast
          ring
        rw [this]
        nth_rewrite 1 [hm]
        ring
      rw [e2, Int.add_mul_emod_self_left]
      apply Int.emod_eq_of_lt
      · exact Int.natCast_nonneg _
      · have : 2 ^ b - 1 - m % 2 ^ b < 2 ^ b := by omega
        exact_mod_cast this
    rw [key]

/-! ## Mode selection and the row table -/

/-- C6: the table `row_seq` has 64 entries, entry `k` is the 6-bit reversal of
`k`, and looking up twice gives `k` back. -/
theorem row_seq_is_bit_reversal :
    row_seq.length = 64 ∧
      ∀ k : Fin 64, rowSeq k.val = bit_reverse_6 k.val ∧ rowSeq (rowSeq k.val) = k.val := by
  refine ⟨rfl, ?_⟩
  decide

set_option maxRecDepth 100000 in
/-- The `if` chain agrees with the mode table on every byte value. -/
theorem selectMode_eq_modeTable : ∀ q : Fin 256, selectMode (q.val : Int) = modeTable q.val := by
  decide

/-- C4: for every first tile byte `p` in 0..255 the `if` chain of `readTile`
selects the mode of the specification's table, and the decoder runs the
branch of that mode with that sub-palette size. -/
theorem readTile_mode_selection (p : Fin 256) (fuel : Nat) (junk : Nat → Int) (fp : FILE) :
    selectMode (p.val : Int) = modeTable p.val ∧
    ((p.val = 0 ∨ p.val = 255) → decodeTile fuel junk (p.val : Int) fp = huffBranch fuel fp) ∧
    ((1 ≤ p.val ∧ p.val ≤ 127) →
      decodeTile fuel junk (p.val : Int) fp
        = (rleBranch fuel junk (p.val : Int) fp).map (fun r => (r.1, some r.2))) ∧
    (p.val = 128 → decodeTile fuel junk (p.val : Int) fp = Res.ok (skipEight fp, some [])) ∧
    ((129 ≤ p.val ∧ p.val ≤ 254) →
      decodeTile fuel junk (p.val : Int) fp
        = (packedBranch fuel junk (256 - (p.val : Int)) fp).map (fun r => (r.1, some r.2))) := by
  have h := selectMode_eq_modeTable p
  refine ⟨h, ?_, ?_, ?_, ?_⟩
  · intro hp
    have hm : modeTable p.val = Mode.huffman := by
      unfold modeTable; rw [if_pos hp]
    simp only [decodeTile, h, hm]
  · intro hp
    have hm : modeTable p.val = Mode.rle p.val := by
      unfold modeTable
      rw [if_neg (by omega), if_pos hp]
    simp only [decodeTile, h, hm]
  · intro hp
    have hm : modeTable p.val = Mode.unknown := by
      unfold modeTable
      rw [if_neg (by omega), if_neg (by omega), if_pos hp]
    simp only [decodeTile, h, hm]
  · intro hp
    have hm : modeTable p.val = Mode.pixel (256 - (p.val : Int)) := by
      unfold modeTable
      rw [if_neg (by omega), if_neg (by omega), if_neg (by omega)]
    simp only [decodeTile, h, hm]

/-! ## Placement at scale factor 1 -/

theorem rowSeq_rowSeq (k : Fin 64) : rowSeq (rowSeq k.val) = k.val := by
  revert k
  decide

theorem rowSeq_injective (a b : Nat) (ha : a < 64) (hb : b < 64) (h : rowSeq a = rowSeq b) :
    a = b := by
  have h1 := rowSeq_rowSeq ⟨a, ha⟩
  have h2 := rowSeq_rowSeq ⟨b, hb⟩
  simp only at h1 h2
  rw [← h1, ← h2, h]

/-- Rows copied to pairwise disjoint destinations are all found in the
image afterwards. -/
theorem copyRows_apply (row_ptr : Nat → Nat) (tile : List Nat) (image : Nat → Nat) :
    ∀ n : Nat,
      (∀ a b, a < n → b < n → a ≠ b → row_ptr a + 64 ≤ row_ptr b ∨ row_ptr b + 64 ≤ row_ptr a) →
      ∀ k c, k < n → c < 64 →
        copyRows row_ptr tile n image (row_ptr k + c) = tileAt tile (k * 64 + c) := by
  intro n
  induction n with
  | zero => intro _ k c hk _; omega
  | succ n ih =>
    intro hdis k c hk hc
    simp only [copyRows, memcpy]
    by_cases hkn : k = n
    · subst hkn
      rw [if_pos (by omega)]
      congr 1
      omega
    · have hk2 : k < n := by omega
      have hd := hdis k n (by omega) (by omega) hkn
      rw [if_neg (by omega)]
      exact ih (fun a b ha hb hab => hdis a b (by omega) (by omega) hab) k c hk2 hc

/-- A position covered by one of the copied rows holds the common value of
the tile cells when these are all equal. -/
theorem copyRows_const (row_ptr : Nat → Nat) (tile : List Nat) (image : Nat → Nat) (e : Nat)
    (htile : ∀ j, j < 4096 → tileAt tile j = e) :
    ∀ n : Nat, n ≤ 64 → ∀ i k, k < n → row_ptr k ≤ i → i < row_ptr k + 64 →
      copyRows row_ptr tile n image i = e := by
  intro n
  induction n with
  | zero => intro _ i k hk; omega
  | succ n ih =>
    intro hn i k hk h1 h2
    simp only [copyRows, memcpy]
    by_cases hin : row_ptr n ≤ i ∧ i < row_ptr n + 64
    · rw [if_pos hin]
      exact htile _ (by omega)
    · rw [if_neg hin]
      have hk2 : k < n := by
        rcases Nat.lt_or_ge k n with h | h
        · exact h
        · exfalso
          have : k = n := by omega
          subst this
          exact hin ⟨h1, h2⟩
      exact ih (by omega) i k hk2 h1 h2

theorem rowPtr_one (width tile_xx tile_yy row : Nat) :
    rowPtr width tile_xx tile_yy 1 row
      = (tile_yy * 64 + rowSeq row) * (width * 64) + tile_xx * 64 := by
  simp only [rowPtr, Nat.div_one, if_true]
  ring

theorem rowPtr_one_disjoint (width tile_xx tile_yy : Nat) (hw : 0 < width) (a b : Nat)
    (ha : a < 64) (hb : b < 64) (hab : a ≠ b) :
    rowPtr width tile_xx tile_yy 1 a + 64 ≤ rowPtr width tile_xx tile_yy 1 b ∨
      rowPtr width tile_xx tile_yy 1 b + 64 ≤ rowPtr width tile_xx tile_yy 1 a := by
  rw [rowPtr_one, rowPtr_one]
  have hne : rowSeq a ≠ rowSeq b := fun h => hab (rowSeq_injective a b ha hb h)
  have key : ∀ x y : Nat, x < y →
      (tile_yy * 64 + x) * (width * 64) + tile_xx * 64 + 64
        ≤ (tile_yy * 64 + y) * (width * 64) + tile_xx * 64 := by
    intro x y hxy
    have h1 : (tile_yy * 64 + x + 1) * (width * 64) ≤ (tile_yy * 64 + y) * (width * 64) :=
      Nat.mul_le_mul_right _ (by omega)
    have h2 : (tile_yy * 64 + x + 1) * (width * 64)
        = (tile_yy * 64 + x) * (width * 64) + width * 64 := by ring
    omega
  rcases Nat.lt_or_gt_of_ne hne with h | h
  · exact Or.inl (key _ _ h)
  · exact Or.inr (key _ _ h)

theorem fgetc_of_get (fp : FILE) (b : Fin 256) (h : fp.data[fp.pos]? = some b) :
    fgetc fp = ((b.val : Int), { fp with pos := fp.pos + 1 }) := by
  simp only [fgetc, h]

theorem toUChar_byte (b : Fin 256) : toUChar (b.val : Int) = b.val := by
  unfold toUChar
  have h := b.isLt
  omega

theorem huffBuild_single_leaf (fuel : Nat) (fp : FILE) (e : Fin 256) (he : e.val < 128)
    (h : fp.data[fp.pos]? = some e) :
    huffBuild (fuel + 1) fp [] 0 0 = Res.ok ({ fp with pos := fp.pos + 1 }, [e.val], 1) := by
  have hne : ¬ (e.val = 128) := by omega
  have hng : ¬ (e.val > 128) := by omega
  have h10 : ¬ (1 ≤ 0) := by omega
  cases fuel with
  | zero =>
    simp only [huffBuild, fgetc_of_get fp e h, toUChar_byte, Nat.le_refl, if_true,
      List.nil_append, hne, hng, h10, if_false]
  | succ n =>
    simp only [huffBuild, fgetc_of_get fp e h, toUChar_byte, Nat.le_refl, if_true,
      List.nil_append, hne, hng, h10, if_false]

theorem get_of_drop_eq_cons (fp : FILE) (b : Fin 256) (rest : List (Fin 256))
    (h : fp.data.drop fp.pos = b :: rest) :
    fp.data[fp.pos]? = some b ∧ fp.data.drop (fp.pos + 1) = rest := by
  constructor
  · have := List.getElem?_drop fp.data fp.pos 0
    rw [h] at this
    simpa using this.symm
  · have := List.drop_drop 1 fp.pos fp.data
    rw [h] at this
    simpa using this.symm

theorem readSubPalette_spec : ∀ (sub : List (Fin 256)) (rest : List (Fin 256)) (ii : Nat)
    (fp : FILE) (pal : Nat → Int), fp.data.drop fp.pos = sub ++ rest →
    (readSubPalette sub.length ii fp pal).1 = { fp with pos := fp.pos + sub.length } ∧
    ∀ i, (readSubPalette sub.length ii fp pal).2 i
      = if ii ≤ i then (match sub[i - ii]? with
                        | some c => (c.val : Int)
                        | none => pal i) else pal i := by
  intro sub
  induction sub with
  | nil =>
    intro rest ii fp pal _
    refine ⟨rfl, ?_⟩
    intro i
    simp [readSubPalette]
  | cons c sub ih =>
    intro rest ii fp pal h
    obtain ⟨hget, hdrop⟩ := get_of_drop_eq_cons fp c (sub ++ rest) h
    have hf := fgetc_of_get fp c hget
    have hrec := ih rest (ii + 1) { fp with pos := fp.pos + 1 } (Function.update pal ii (c.val : Int))
      hdrop
    simp only [List.length_cons, readSubPalette, hf]
    refine ⟨?_, ?_⟩
    · rw [hrec.1]
      simp only [FILE.mk.injEq, true_and, and_true]
      omega
    · intro i
      rw [hrec.2 i]
      by_cases h1 : ii + 1 ≤ i
      · have h2 : ii ≤ i := by omega
        have h3 : i - ii = (i - (ii + 1)) + 1 := by omega
        rw [if_pos h1, if_pos h2, h3, List.getElem?_cons_succ]
        have hne : i ≠ ii := by omega
        cases hs : sub[i - (ii + 1)]? with
        | some d => rfl
        | none => simp [Function.update, hne]
      · rw [if_neg h1]
        by_cases h2 : i = ii
        · subst h2
          simp [Function.update]
        · have h3 : ¬ ii ≤ i := by omega
          rw [if_neg h3]
          simp [Function.update, h2]

theorem readSubPalette_entry (sub rest : List (Fin 256)) (fp : FILE) (junk : Nat → Int)
    (h : fp.data.drop fp.pos = sub ++ rest) (i : Nat) :
    toUChar ((readSubPalette sub.length 0 fp junk).2 i) = subPaletteAt sub junk i := by
  rw [(readSubPalette_spec sub rest 0 fp junk h).2 i]
  simp only [Nat.zero_le, if_true, Nat.sub_zero, subPaletteAt]
  cases hs : sub[i]? with
  | some c => exact toUChar_byte c
  | none => rfl

/-! ## The RLE loop -/

theorem rleLoop_done (b : Nat) (mask : Int) (pal : Nat → Int) (fuel : Nat) (fp : FILE)
    (tile : List Nat) (h : 4096 ≤ tile.length) :
    rleLoop b mask pal fuel fp tile = Res.ok (fp, tile) := by
  have hn : ¬ tile.length < 4096 := by omega
  cases fuel with
  | zero => simp only [rleLoop, hn, if_false]
  | succ n => simp only [rleLoop, hn, if_false]

theorem rleLoop_step (b : Nat) (pal : Nat → Int) (fuel : Nat) (fp : FILE) (tile : List Nat)
    (byte : Fin 256) (hget : fp.data[fp.pos]? = some byte) (h : tile.length < 4096) :
    rleLoop b (lowMask b) pal (fuel + 1) fp tile
      = rleLoop b (lowMask b) pal fuel { fp with pos := fp.pos + 1 }
          (tile ++ rleRun b (fun i => toUChar (pal i)) byte) := by
  have hs : ((byte.val : Int) >>> b).toNat = byte.val / 2 ^ b := by
    have : ((byte.val : Int) >>> b) = ((byte.val >>> b : Nat) : Int) := rfl
    rw [this, Int.toNat_natCast, Nat.shiftRight_eq_div_pow]
  simp only [rleLoop, h, if_true, fgetc_of_get fp byte hget, cAnd_lowMask_of_nonneg, hs,
    Int.toNat_natCast, rleRun]

/-- The loop on a stream that holds enough runs: it finishes, and the first
4096 cells are those of the concatenated runs. -/
theorem rleLoop_take (b : Nat) (pal : Nat → Int) :
    ∀ (rest : List (Fin 256)) (fp : FILE) (tile : List Nat) (fuel : Nat),
      fp.data.drop fp.pos = rest →
      4096 ≤ tile.length + (rest.map (fun byte => byte.val / 2 ^ b)).sum →
      rest.length ≤ fuel →
      ∃ fp1 tile1, rleLoop b (lowMask b) pal fuel fp tile = Res.ok (fp1, tile1) ∧
        tile1.take 4096
          = (tile ++ rest.flatMap (rleRun b (fun i => toUChar (pal i)))).take 4096 := by
  intro rest
  induction rest with
  | nil =>
    intro fp tile fuel _ hsum _
    simp only [List.map_nil, List.sum_nil, Nat.add_zero] at hsum
    exact ⟨fp, tile, rleLoop_done b _ pal fuel fp tile hsum, by simp⟩
  | cons byte rest ih =>
    intro fp tile fuel hdrop hsum hfuel
    by_cases hlen : tile.length < 4096
    · obtain ⟨n, rfl⟩ : ∃ n, fuel = n + 1 := ⟨fuel - 1, by simp at hfuel; omega⟩
      obtain ⟨hget, hdrop1⟩ := get_of_drop_eq_cons fp byte rest hdrop
      rw [rleLoop_step b pal n fp tile byte hget hlen]
      have hsum1 : 4096 ≤ (tile ++ rleRun b (fun i => toUChar (pal i)) byte).length
          + (rest.map (fun byte => byte.val / 2 ^ b)).sum := by
        simp only [List.map_cons, List.sum_cons] at hsum
        simp only [List.length_append, rleRun, List.length_replicate]
        omega
      obtain ⟨fp1, tile1, h1, h2⟩ := ih { fp with pos := fp.pos + 1 } _ n hdrop1 hsum1
        (by simp at hfuel; omega)
      refine ⟨fp1, tile1, h1, ?_⟩
      rw [h2, List.flatMap_cons, List.append_assoc]
    · have hge : 4096 ≤ tile.length := by omega
      refine ⟨fp, tile, rleLoop_done b _ pal fuel fp tile hge, ?_⟩
      rw [List.take_append_of_le_length hge]

/-- The loop on bytes whose runs do not yet fill the tile before the last of
them is read: all of them are consumed. -/
theorem rleLoop_consume (b : Nat) (pal : Nat → Int) :
    ∀ (pre : List (Fin 256)) (last : Fin 256) (rest : List (Fin 256)) (fp : FILE)
      (tile : List Nat) (fuel : Nat),
      fp.data.drop fp.pos = pre ++ last :: rest →
      tile.length + (pre.map (fun byte => byte.val / 2 ^ b)).sum < 4096 →
      rleLoop b (lowMask b) pal (fuel + (pre.length + 1)) fp tile
        = rleLoop b (lowMask b) pal fuel { fp with pos := fp.pos + (pre.length + 1) }
            (tile ++ (pre ++ [last]).flatMap (rleRun b (fun i => toUChar (pal i)))) := by
  intro pre
  induction pre with
  | nil =>
    intro last rest fp tile fuel hdrop hsum
    simp only [List.map_nil, List.sum_nil, Nat.add_zero] at hsum
    obtain ⟨hget, _⟩ := get_of_drop_eq_cons fp last rest hdrop
    simp only [List.length_nil, Nat.zero_add, List.nil_append, List.flatMap_cons,
      List.flatMap_nil, List.append_nil]
    exact rleLoop_step b pal fuel fp tile last hget hsum
  | cons byte pre ih =>
    intro last rest fp tile fuel hdrop hsum
    simp only [List.map_cons, List.sum_cons] at hsum
    obtain ⟨hget, hdrop1⟩ := get_of_drop_eq_cons fp byte (pre ++ last :: rest) hdrop
    have e : fuel + ((byte :: pre).length + 1) = (fuel + (pre.length + 1)) + 1 := by
      simp only [List.length_cons]
      omega
    have hlt : tile.length < 4096 := by
      generalize byte.val / 2 ^ b = c at hsum
      omega
    rw [e, rleLoop_step b pal _ fp tile byte hget hlt]
    have hsum1 : (tile ++ rleRun b (fun i => toUChar (pal i)) byte).length
        + (pre.map (fun byte => byte.val / 2 ^ b)).sum < 4096 := by
      simp only [List.length_append, rleRun, List.length_replicate]
      generalize byte.val / 2 ^ b = c at hsum
      omega
    rw [ih last rest { fp with pos := fp.pos + 1 } _ fuel hdrop1 hsum1]
    simp only [List.cons_append, List.flatMap_cons, List.append_assoc, List.length_cons]
    have epos : fp.pos + 1 + (pre.length + 1) = fp.pos + (pre.length + 1 + 1) := by omega
    rw [epos]

/-! ## The RLE branch -/

theorem clog_two_eq (p c : Nat) (h1 : 2 ^ c < p) (h2 : p ≤ 2 ^ (c + 1)) :
    Nat.clog 2 p = c + 1 := by
  have a := (Nat.le_pow_iff_clog_le (by norm_num : 1 < 2)).mp h2
  have b := (Nat.pow_lt_iff_lt_clog (by norm_num : 1 < 2)).mp h1
  omega

theorem bits_per_pixel_eq_clog (p : Nat) (h : 2 ≤ p ∧ p ≤ 128) :
    bits_per_pixel (p : Int) = some (Nat.clog 2 p) := by
  unfold bits_per_pixel
  split_ifs with h1 h2 h3 h4 h5 h6 h7
  · rw [clog_two_eq p 0 (by norm_num; omega) (by norm_num; omega)]
  · rw [clog_two_eq p 1 (by norm_num; omega) (by norm_num; omega)]
  · rw [clog_two_eq p 2 (by norm_num; omega) (by norm_num; omega)]
  · rw [clog_two_eq p 3 (by norm_num; omega) (by norm_num; omega)]
  · rw [clog_two_eq p 4 (by norm_num; omega) (by norm_num; omega)]
  · rw [clog_two_eq p 5 (by norm_num; omega) (by norm_num; omega)]
  · rw [clog_two_eq p 6 (by norm_num; omega) (by norm_num; omega)]
  · omega

theorem selectMode_rle (p : Nat) (h : 1 ≤ p ∧ p ≤ 127) :
    selectMode (p : Int) = Mode.rle (p : Int) := by
  unfold selectMode
  rw [if_neg (by omega), if_neg (by omega), if_neg (by omega)]

theorem selectMode_pixel (p : Nat) (h : 129 ≤ p ∧ p ≤ 254) :
    selectMode (p : Int) = Mode.pixel (256 - (p : Int)) := by
  unfold selectMode
  rw [if_neg (by omega), if_pos (by omega)]

/-- The RLE branch on a stream `sub ++ data`: the loop runs on `data` with the
sub-palette `sub`. -/
theorem rleBranch_eq (fuel b : Nat) (junk : Nat → Int) (fp : FILE) (sub data : List (Fin 256))
    (hb : bits_per_pixel (sub.length : Int) = some b)
    (hfile : fp.data.drop fp.pos = sub ++ data) :
    rleBranch fuel junk (sub.length : Int) fp
      = rleLoop b (lowMask b) (readSubPalette sub.length 0 fp junk).2 fuel
          { fp with pos := fp.pos + sub.length } [] ∧
    (fun i => toUChar ((readSubPalette sub.length 0 fp junk).2 i)) = subPaletteAt sub junk := by
  constructor
  · simp only [rleBranch, hb, Int.toNat_natCast]
    rw [(readSubPalette_spec sub data 0 fp junk hfile).1]
  · funext i
    exact readSubPalette_entry sub data fp junk hfile i

theorem flatMap_replicate_run (b : Nat) (f : Nat → Nat) (byte : Fin 256) :
    ∀ n : Nat, (List.replicate n byte).flatMap (rleRun b f)
      = List.replicate (n * (byte.val / 2 ^ b)) (f (byte.val % 2 ^ b)) := by
  intro n
  induction n with
  | zero => simp
  | succ n ih =>
    rw [List.replicate_succ, List.flatMap_cons, ih, rleRun, Nat.succ_mul, Nat.add_comm,
      List.replicate_add]

theorem length_flatMap_rleRun (b : Nat) (f : Nat → Nat) :
    ∀ data : List (Fin 256), (data.flatMap (rleRun b f)).length
      = (data.map (fun byte => byte.val / 2 ^ b)).sum := by
  intro data
  induction data with
  | nil => rfl
  | cons byte data ih =>
    rw [List.flatMap_cons, List.length_append, ih, List.map_cons, List.sum_cons, rleRun,
      List.length_replicate]

/-- The RLE mode with sub-palette size `p` in 2..127 and `b = ceil(log2 p)` on
a stream that holds the `p` sub-palette bytes `sub` followed by the data bytes
`pre`, `last` and any further bytes: when the runs of `pre` stay below 4096
cells, all these bytes are consumed and the cells stored are the concatenated
runs, `byte >> b` copies of sub-palette entry `byte mod 2^b` for each data
byte in order.  When the runs of `pre` and `last` add up to 4096 exactly the
stores fill `tile_data` and none goes past its end; otherwise the run of
`last` crosses the end of the array. -/
theorem rleBranch_runs (p b fuel : Nat) (junk : Nat → Int) (fp : FILE)
    (sub pre : List (Fin 256)) (last : Fin 256) (rest : List (Fin 256))
    (hp : 2 ≤ p ∧ p ≤ 127) (hb : Nat.clog 2 p = b)
    (hsub : sub.length = p) (hfile : fp.data.drop fp.pos = sub ++ (pre ++ last :: rest))
    (hpre : (pre.map (fun byte => byte.val / 2 ^ b)).sum < 4096)
    (hall : 4096 ≤ (pre.map (fun byte => byte.val / 2 ^ b)).sum + last.val / 2 ^ b) :
    decodeTile (fuel + (pre.length + 1)) junk (p : Int) fp
      = Res.ok ({ fp with pos := fp.pos + p + (pre.length + 1) },
          some ((pre ++ [last]).flatMap (rleRun b (subPaletteAt sub junk)))) ∧
    ((pre ++ [last]).flatMap (rleRun b (subPaletteAt sub junk))).length
      = (pre.map (fun byte => byte.val / 2 ^ b)).sum + last.val / 2 ^ b := by
  subst hsub
  have hbits : bits_per_pixel (sub.length : Int) = some b := by
    rw [bits_per_pixel_eq_clog sub.length (by omega), hb]
  obtain ⟨hbr, hpal⟩ := rleBranch_eq (fuel + (pre.length + 1)) b junk fp sub (pre ++ last :: rest)
    hbits hfile
  have hdrop : ({ fp with pos := fp.pos + sub.length } : FILE).data.drop
      ({ fp with pos := fp.pos + sub.length } : FILE).pos = pre ++ last :: rest := by
    show fp.data.drop (fp.pos + sub.length) = pre ++ last :: rest
    rw [← List.drop_drop, hfile, List.drop_left]
  have hcons := rleLoop_consume b (readSubPalette sub.length 0 fp junk).2 pre last rest
    { fp with pos := fp.pos + sub.length } [] fuel hdrop (by simpa using hpre)
  have hlen : ((pre ++ [last]).flatMap (rleRun b (subPaletteAt sub junk))).length
      = (pre.map (fun byte => byte.val / 2 ^ b)).sum + last.val / 2 ^ b := by
    rw [length_flatMap_rleRun, List.map_append, List.sum_append]
    simp only [List.map_cons, List.map_nil, List.sum_cons, List.sum_nil, Nat.add_zero]
  refine ⟨?_, hlen⟩
  rw [hpal, List.nil_append] at hcons
  simp only [decodeTile, selectMode_rle sub.length (by omega), hbr, hcons]
  rw [rleLoop_done _ _ _ _ _ _ (by rw [hlen]; exact hall)]
  rfl

set_option maxRecDepth 100000 in
/-- The RLE tile `rleWithinTile` (scenario S3 continued by runs that end at
cell 4095): the decoder stores exactly 4096 cells, 127 pixels of index 7
followed by 127 pixels of index 9 and then the further runs. -/
theorem rleWithinTile_decodes (fuel : Nat) (junk : Nat → Int) :
    ∃ fp1 tile, decodeTile (fuel + 33) junk 2 rleWithinTile = Res.ok (fp1, some tile) ∧
      tile.length = 4096 ∧
      tile.take 254 = List.replicate 127 7 ++ List.replicate 127 9 := by
  obtain ⟨h1, h2⟩ := rleBranch_runs 2 1 fuel junk rleWithinTile [7, 9]
    ([254, 255] ++ List.replicate 30 254) 64 [] (by decide)
    (clog_two_eq 2 0 (by decide) (by decide)) rfl rfl (by decide) (by decide)
  refine ⟨_, _, h1, ?_, ?_⟩
  · rw [h2]
    decide
  · have h4 : ([254, 255] : List (Fin 256)).flatMap (rleRun 1 (subPaletteAt [7, 9] junk))
        = List.replicate 127 7 ++ List.replicate 127 9 := by
      simp only [List.flatMap_cons, List.flatMap_nil, List.append_nil]
      rfl
    rw [List.append_assoc, List.flatMap_append, h4]
    exact List.take_left' (by simp)

set_option maxRecDepth 100000 in
/-- C9, at the failing input (scenario S3 continued by 31 data bytes `FE`): on
packing byte 2, sub-palette `[7, 9]` and the data bytes `FE FF FE ...` the
first 254 cells are 127 pixels of index 7 followed by 127 pixels of index 9,
but the RLE loop stores 4191 cells in all: the 33rd run starts at cell 4064
and its last 95 pixels go past the end of the 4096-byte `tile_data`. -/
theorem rle_scenario_crosses_tile_end (fuel : Nat) (junk : Nat → Int) :
    ∃ fp1 tile, decodeTile (fuel + 33) junk 2 rleScenario = Res.ok (fp1, some tile) ∧
      tile.length = 4191 ∧
      tile.take 254 = List.replicate 127 7 ++ List.replicate 127 9 := by
  obtain ⟨h1, h2⟩ := rleBranch_runs 2 1 fuel junk rleScenario [7, 9]
    ([254, 255] ++ List.replicate 30 254) 254 [] (by decide)
    (clog_two_eq 2 0 (by decide) (by decide)) rfl rfl (by decide) (by decide)
  refine ⟨_, _, h1, ?_, ?_⟩
  · rw [h2]
    decide
  · have h4 : ([254, 255] : List (Fin 256)).flatMap (rleRun 1 (subPaletteAt [7, 9] junk))
        = List.replicate 127 7 ++ List.replicate 127 9 := by
      simp only [List.flatMap_cons, List.flatMap_nil, List.append_nil]
      rfl
    rw [List.append_assoc, List.flatMap_append, h4]
    exact List.take_left' (by simp)

/-- C3, evaluation at the failing input: on packing byte 2, sub-palette
`[7, 9]` and 33 data bytes `FE` the RLE loop stores 4191 cells, the last 95 of
them past the end of the 4096-byte `tile_data`. -/
theorem rle_run_crosses_tile_end (fuel : Nat) (junk : Nat → Int) :
    ∃ fp1 tile, decodeTile (fuel + 33) junk 2 rleOverrun = Res.ok (fp1, some tile) ∧
      tile.length = 4191 := by
  have hfile : rleOverrun.data.drop rleOverrun.pos
      = ([7, 9] : List (Fin 256)) ++ (List.replicate 32 254 ++ [254]) := rfl
  obtain ⟨hbr, _⟩ := rleBranch_eq (fuel + 33) 1 junk rleOverrun [7, 9]
    (List.replicate 32 254 ++ [254]) rfl hfile
  have hcons := rleLoop_consume 1 (readSubPalette 2 0 rleOverrun junk).2
    (List.replicate 32 254) 254 [] { rleOverrun with pos := rleOverrun.pos + 2 } [] fuel rfl
    (by decide)
  have hlen : ([] ++ (List.replicate 32 254 ++ [254] : List (Fin 256)).flatMap
      (rleRun 1 (fun i => toUChar ((readSubPalette 2 0 rleOverrun junk).2 i)))).length
        = 4191 := by
    rw [List.nil_append, List.flatMap_append, flatMap_replicate_run, List.length_append,
      List.length_replicate]
    simp only [List.flatMap_cons, List.flatMap_nil, List.append_nil, rleRun,
      List.length_replicate]
    rfl
  have hrun : decodeTile (fuel + 33) junk 2 rleOverrun
      = Res.ok ({ rleOverrun with pos := rleOverrun.pos + 2 + (32 + 1) }, some (
          [] ++ (List.replicate 32 254 ++ [254] : List (Fin 256)).flatMap
            (rleRun 1 (fun i => toUChar ((readSubPalette 2 0 rleOverrun junk).2 i))))) := by
    have hsel : selectMode 2 = Mode.rle 2 := by decide
    have hbr2 : rleBranch (fuel + 33) junk 2 rleOverrun
        = rleLoop 1 (lowMask 1) (readSubPalette 2 0 rleOverrun junk).2 (fuel + 33)
            { rleOverrun with pos := rleOverrun.pos + 2 } [] := hbr
    simp only [decodeTile, hsel, hbr2]
    simp only [List.length_replicate] at hcons
    rw [hcons, rleLoop_done _ _ _ _ _ _ (by rw [hlen]; decide)]
    rfl
  exact ⟨_, _, hrun, hlen⟩

/-- C10, evaluation at the failing input: for packing byte 1 the number of
low bits is 1, not 0; on sub-palette `[5]` and 33 data bytes `FF` every byte
yields a run of 127 (not 255) cells taken from `palette_index[1]`, an entry
the sub-palette loop never initialised, and sub-palette entry 0 (the byte 5)
is not used at all. -/
theorem rle_single_colour_low_bit (fuel : Nat) (junk : Nat → Int) :
    bits_per_pixel 1 = some 1 ∧
    ∃ fp1 tile, decodeTile (fuel + 33) junk 1 rleSingleColour = Res.ok (fp1, some tile) ∧
      tile = List.replicate 4191 (toUChar (junk 1)) := by
  refine ⟨rfl, ?_⟩
  have hfile : rleSingleColour.data.drop rleSingleColour.pos
      = ([5] : List (Fin 256)) ++ (List.replicate 32 255 ++ [255]) := rfl
  obtain ⟨hbr, hpal⟩ := rleBranch_eq (fuel + 33) 1 junk rleSingleColour [5]
    (List.replicate 32 255 ++ [255]) rfl hfile
  have hcons := rleLoop_consume 1 (readSubPalette 1 0 rleSingleColour junk).2
    (List.replicate 32 255) 255 [] { rleSingleColour with pos := rleSingleColour.pos + 1 } []
    fuel rfl (by decide)
  have hpal1 : (fun i => toUChar ((readSubPalette 1 0 rleSingleColour junk).2 i))
      = subPaletteAt [5] junk := hpal
  have htile : ([] ++ (List.replicate 32 255 ++ [255] : List (Fin 256)).flatMap
      (rleRun 1 (fun i => toUChar ((readSubPalette 1 0 rleSingleColour junk).2 i))))
        = List.replicate 4191 (toUChar (junk 1)) := by
    rw [hpal1, List.nil_append, List.flatMap_append, flatMap_replicate_run]
    simp only [List.flatMap_cons, List.flatMap_nil, List.append_nil, rleRun]
    have e1 : (255 : Fin 256).val / 2 ^ 1 = 127 := rfl
    have e2 : (255 : Fin 256).val % 2 ^ 1 = 1 := rfl
    have e3 : subPaletteAt [5] junk 1 = toUChar (junk 1) := rfl
    rw [e1, e2, e3, ← List.replicate_add]
  have hrun : decodeTile (fuel + 33) junk 1 rleSingleColour
      = Res.ok ({ rleSingleColour with pos := rleSingleColour.pos + 1 + (32 + 1) }, some (
          [] ++ (List.replicate 32 255 ++ [255] : List (Fin 256)).flatMap
            (rleRun 1 (fun i => toUChar ((readSubPalette 1 0 rleSingleColour junk).2 i))))) := by
    have hsel : selectMode 1 = Mode.rle 1 := by decide
    have hbr2 : rleBranch (fuel + 33) junk 1 rleSingleColour
        = rleLoop 1 (lowMask 1) (readSubPalette 1 0 rleSingleColour junk).2 (fuel + 33)
            { rleSingleColour with pos := rleSingleColour.pos + 1 } [] := hbr
    simp only [decodeTile, hsel, hbr2]
    simp only [List.length_replicate] at hcons
    rw [hcons, rleLoop_done _ _ _ _ _ _ (by rw [htile, List.length_replicate]; decide)]
    rfl
  rw [htile] at hrun
  exact ⟨_, _, hrun, rfl⟩

/-! ## The bit-packed loop -/

theorem unpackWord_eq (shift : Nat) (mask : Int) (pal : Nat → Int) :
    ∀ (q : Nat) (w : Int) (tile : List Nat),
      unpackWord shift mask pal q w tile
        = tile ++ (List.range q).map (packedPixel shift mask pal w) := by
  intro q
  induction q with
  | zero => intro w tile; simp [unpackWord]
  | succ q ih =>
    intro w tile
    rw [unpackWord, ih, List.range_succ_eq_map, List.map_cons, List.map_map, List.append_assoc]
    congr 1
    have h0 : packedPixel shift mask pal w 0 = toUChar (pal (cAnd w mask).toNat) := by
      have e0 : w >>> (0 : Nat) = w := by
        rw [Int.shiftRight_eq_div_pow]
        simp
      simp only [packedPixel, Nat.mul_zero, e0]
    rw [h0, List.singleton_append]
    congr 1
    apply List.map_congr_left
    intro r _
    simp only [Function.comp, packedPixel]
    have e : shift * r.succ = shift + shift * r := by
      rw [Nat.mul_succ, Nat.add_comm]
    rw [e, Int.shiftRight_add]

theorem unpackWord_length (shift : Nat) (mask : Int) (pal : Nat → Int) (q : Nat) (w : Int)
    (tile : List Nat) : (unpackWord shift mask pal q w tile).length = tile.length + q := by
  rw [unpackWord_eq]
  simp

theorem unpackWord_get_left (shift : Nat) (mask : Int) (pal : Nat → Int) (q : Nat) (w : Int)
    (tile : List Nat) (n : Nat) (h : n < tile.length) :
    (unpackWord shift mask pal q w tile)[n]? = tile[n]? := by
  rw [unpackWord_eq, List.getElem?_append_left h]

theorem unpackWord_get_right (shift : Nat) (mask : Int) (pal : Nat → Int) (q : Nat) (w : Int)
    (tile : List Nat) (r : Nat) (h : r < q) :
    (unpackWord shift mask pal q w tile)[tile.length + r]?
      = some (packedPixel shift mask pal w r) := by
  rw [unpackWord_eq, List.getElem?_append_right (by omega)]
  simp [List.getElem?_map, List.getElem?_range h]

/-- The word loop always finishes: it stores whole words of `q` pixels until
at least 4096 cells are written, and cell `q*j + r` is pixel `r` of the `j`-th
word read. -/
theorem packedLoop_spec (shift : Nat) (mask : Int) (q : Nat) (pal : Nat → Int) (hq : 0 < q) :
    ∀ (fuel : Nat) (fp : FILE) (tile : List Nat), 4096 ≤ tile.length + q * fuel →
      ∃ fp1 tile1 m, packedLoop shift mask q pal fuel fp tile = Res.ok (fp1, tile1) ∧
        tile1.length = tile.length + q * m ∧ 4096 ≤ tile1.length ∧
        (4096 ≤ tile.length → m = 0) ∧
        (tile.length < 4096 → tile1.length < 4096 + q) ∧
        (∀ n, n < tile.length → tile1[n]? = tile[n]?) ∧
        (∀ j r, j < m → r < q →
          tile1[tile.length + q * j + r]? = some (packedPixel shift mask pal (nthWord fp j) r)) := by
  intro fuel
  induction fuel with
  | zero =>
    intro fp tile h
    have hn : ¬ tile.length < 4096 := by omega
    refine ⟨fp, tile, 0, ?_, by simp, by omega, fun _ => rfl, fun h => absurd h hn,
      fun _ _ => rfl, fun j r hj _ => absurd hj (by omega)⟩
    simp only [packedLoop, hn, if_false]
  | succ fuel ih =>
    intro fp tile h
    by_cases hlt : tile.length < 4096
    · have hlenA := unpackWord_length shift mask pal q (readInt fp).1 tile
      obtain ⟨fp1, tile1, m, hrun, hlen, hge, hzero, hbound, hpre, hpix⟩ :=
        ih (readInt fp).2 (unpackWord shift mask pal q (readInt fp).1 tile) (by
          rw [hlenA]
          have : q * (fuel + 1) = q + q * fuel := by ring
          omega)
      refine ⟨fp1, tile1, m + 1, ?_, ?_, hge, fun h => absurd hlt (by omega), ?_, ?_, ?_⟩
      · simp only [packedLoop, hlt, if_true]
        exact hrun
      · rw [hlen, hlenA]
        ring
      · intro _
        by_cases hA : (unpackWord shift mask pal q (readInt fp).1 tile).length < 4096
        · have := hbound hA
          omega
        · have hm : m = 0 := hzero (by omega)
          rw [hlen, hlenA, hm]
          omega
      · intro n hn
        rw [hpre n (by rw [hlenA]; omega), unpackWord_get_left _ _ _ _ _ _ _ hn]
      · intro j r hj hr
        cases j with
        | zero =>
          rw [Nat.mul_zero, Nat.add_zero, hpre _ (by rw [hlenA]; omega),
            unpackWord_get_right _ _ _ _ _ _ _ hr]
          rfl
        | succ j =>
          have e : tile.length + q * (j + 1) + r
              = (unpackWord shift mask pal q (readInt fp).1 tile).length + q * j + r := by
            rw [hlenA]
            ring
          rw [e, hpix j r (by omega) hr]
          rfl
    · have hn : 4096 ≤ tile.length := by omega
      refine ⟨fp, tile, 0, ?_, by simp, hn, fun _ => rfl, fun h => absurd h hlt,
        fun _ _ => rfl, fun j r hj _ => absurd hj (by omega)⟩
      simp only [packedLoop, hlt, if_false]

/-! ## Words of the stream -/

theorem or_shift_eq_sum (a b c d : Nat) (ha : a < 256) (hb : b < 256) (hc : c < 256) :
    a ||| (b <<< 8) ||| (c <<< 16) ||| (d <<< 24) = a + 256 * b + 65536 * c + 16777216 * d := by
  have h1 : a ||| (b <<< 8) = a + 256 * b := by
    rw [Nat.shiftLeft_eq, Nat.lor_comm, Nat.mul_comm b]
    have := Nat.mul_add_lt_is_or (show a < 2 ^ 8 by omega) b
    omega
  have h2 : (a + 256 * b) ||| (c <<< 16) = a + 256 * b + 65536 * c := by
    rw [Nat.shiftLeft_eq, Nat.lor_comm, Nat.mul_comm c]
    have := Nat.mul_add_lt_is_or (show a + 256 * b < 2 ^ 16 by omega) c
    omega
  have h3 : (a + 256 * b + 65536 * c) ||| (d <<< 24)
      = a + 256 * b + 65536 * c + 16777216 * d := by
    rw [Nat.shiftLeft_eq, Nat.lor_comm, Nat.mul_comm d]
    have := Nat.mul_add_lt_is_or (show a + 256 * b + 65536 * c < 2 ^ 24 by omega) d
    omega
  rw [h1, h2, h3]

theorem get_of_lt (data : List (Fin 256)) (i : Nat) (h : i < data.length) :
    data[i]? = some (data.getD i 0) := by
  rw [List.getD_eq_getElem?_getD, List.getElem?_eq_getElem h]
  rfl

theorem leWordAt_lt (data : List (Fin 256)) (off : Nat) : leWordAt data off < 4294967296 := by
  unfold leWordAt
  have h0 := (data.getD off 0).isLt
  have h1 := (data.getD (off + 1) 0).isLt
  have h2 := (data.getD (off + 2) 0).isLt
  have h3 := (data.getD (off + 3) 0).isLt
  omega

theorem fgetc_mk (data : List (Fin 256)) (pos : Nat) (eof : Bool) (h : pos < data.length) :
    fgetc ⟨data, pos, eof⟩ = (((data.getD pos 0).val : Int), ⟨data, pos + 1, eof⟩) :=
  fgetc_of_get ⟨data, pos, eof⟩ _ (get_of_lt data pos h)

/-- A call of `readInt` with four bytes left and no end-of-file indicator
returns the little-endian word as a two's-complement `int` and advances by
four. -/
theorem readInt_of_four (fp : FILE) (heof : fp.eof = false) (h : fp.pos + 4 ≤ fp.data.length) :
    readInt fp = (toInt32 (leWordAt fp.data fp.pos), { fp with pos := fp.pos + 4 }) := by
  obtain ⟨data, pos, eof⟩ := fp
  simp only at heof h
  subst heof
  have g0 := fgetc_mk data pos false (by omega)
  have g1 := fgetc_mk data (pos + 1) false (by omega)
  have g2 := fgetc_mk data (pos + 1 + 1) false (by omega)
  have g3 := fgetc_mk data (pos + 1 + 1 + 1) false (by omega)
  simp only [readInt, g0, g1, g2, g3, Int.toNat_natCast]
  rw [or_shift_eq_sum _ _ _ _ (Fin.isLt _) (Fin.isLt _) (Fin.isLt _)]
  simp [leWordAt, Nat.add_assoc]

theorem iterate_readInt (j : Nat) : ∀ (fp : FILE), fp.eof = false →
    fp.pos + 4 * j ≤ fp.data.length →
    (fun f => (readInt f).2)^[j] fp = { fp with pos := fp.pos + 4 * j } := by
  induction j with
  | zero => intro fp _ _; rfl
  | succ j ih =>
    intro fp heof h
    rw [Function.iterate_succ_apply]
    have h1 : (readInt fp).2 = { fp with pos := fp.pos + 4 } := by
      rw [readInt_of_four fp heof (by omega)]
    rw [h1, ih { fp with pos := fp.pos + 4 } heof (by show fp.pos + 4 + 4 * j ≤ fp.data.length; omega)]
    simp only [FILE.mk.injEq, true_and, and_true]
    omega

theorem nthWord_eq (fp : FILE) (j : Nat) (heof : fp.eof = false)
    (h : fp.pos + 4 * (j + 1) ≤ fp.data.length) :
    nthWord fp j = toInt32 (leWordAt fp.data (fp.pos + 4 * j)) := by
  unfold nthWord
  rw [iterate_readInt j fp heof (by omega)]
  rw [readInt_of_four { fp with pos := fp.pos + 4 * j } heof
    (by show fp.pos + 4 * j + 4 ≤ fp.data.length; omega)]

/-- Extracting a `b`-bit field that lies inside the 32 bits of a word gives
the same result on the two's-complement `int` as on the unsigned word. -/
theorem field_of_toInt32 (u s b : Nat) (hu : u < 4294967296) (hsb : s + b ≤ 32) :
    (cAnd (toInt32 u >>> s) (lowMask b)).toNat = u / 2 ^ s % 2 ^ b := by
  rw [cAnd_lowMask, Int.shiftRight_eq_div_pow]
  have hmod : u % 4294967296 = u := Nat.mod_eq_of_lt hu
  have hcast : (((u / 2 ^ s % 2 ^ b : Nat)) : Int) = ((u : Int) / 2 ^ s) % 2 ^ b := by
    push_cast
    rfl
  unfold toInt32
  rw [hmod]
  split_ifs with hlt
  · have : ((u : Int) / ((2 ^ s : Nat) : Int)) % 2 ^ b = ((u / 2 ^ s % 2 ^ b : Nat) : Int) := by
      push_cast
      rfl
    rw [this, Int.toNat_natCast]
  · have hs : s ≤ 32 := by omega
    have e32 : (4294967296 : Int) = ((2 ^ s : Nat) : Int) * (2 ^ b * 2 ^ (32 - s - b)) := by
      have : (4294967296 : Nat) = 2 ^ s * (2 ^ b * 2 ^ (32 - s - b)) := by
        rw [← Nat.pow_add, ← Nat.pow_add]
        have : s + (b + (32 - s - b)) = 32 := by omega
        rw [this]
      exact_mod_cast this
    have hne : ((2 ^ s : Nat) : Int) ≠ 0 := by positivity
    have e : (u : Int) - 4294967296
        = (u : Int) + ((2 ^ s : Nat) : Int) * (-(2 ^ b * 2 ^ (32 - s - b))) := by
      rw [e32]
      ring
    rw [e, Int.add_mul_ediv_left _ _ hne]
    have e2 : (u : Int) / ((2 ^ s : Nat) : Int) + -(2 ^ b * 2 ^ (32 - s - b))
        = (u : Int) / ((2 ^ s : Nat) : Int) + 2 ^ b * (-(2 ^ (32 - s - b))) := by ring
    rw [e2, Int.add_mul_emod_self_left]
    have : ((u : Int) / ((2 ^ s : Nat) : Int)) % 2 ^ b = ((u / 2 ^ s % 2 ^ b : Nat) : Int) := by
      push_cast
      rfl
    rw [this, Int.toNat_natCast]

/-! ## The bit-packed branch -/

theorem bits_per_pixel_range (k : Int) (b : Nat) (h : bits_per_pixel k = some b) :
    1 ≤ b ∧ b ≤ 7 := by
  unfold bits_per_pixel at h
  split_ifs at h <;> simp at h <;> omega

theorem div32_pos (b : Nat) (h : 1 ≤ b ∧ b ≤ 7) : 4 ≤ 32 / b := by
  obtain ⟨h1, h2⟩ := h
  interval_cases b <;> decide

/-- C2, evaluation at the failing input: for packing byte 192 (64 sub-palette
entries, 6 bits, 5 pixels per word) the word loop stores 4100 cells on every
stream, the last four of them past the end of the 4096-byte `tile_data`. -/
theorem packed_word_loop_overruns (fuel : Nat) (junk : Nat → Int) (fp : FILE) :
    ∃ fp1 tile, decodeTile (fuel + 820) junk 192 fp = Res.ok (fp1, some tile) ∧
      tile.length = 4100 := by
  have hsel : selectMode 192 = Mode.pixel 64 := by decide
  have hbits : bits_per_pixel 64 = some 6 := rfl
  obtain ⟨fp1, tile1, m, hrun, hlen, hge, _, hbound, _, _⟩ :=
    packedLoop_spec 6 (lowMask 6) 5 (readSubPalette 64 0 fp junk).2 (by decide) (fuel + 820)
      (readSubPalette 64 0 fp junk).1 [] (by simp only [List.length_nil]; omega)
  refine ⟨fp1, tile1, ?_, ?_⟩
  · have e1 : (64 : Int).toNat = 64 := rfl
    have e2 : 32 / 6 = 5 := rfl
    have e3 : ¬ (6 = 0) := by decide
    simp only [decodeTile, hsel, packedBranch, hbits, e1, e2, e3, if_false, hrun]
    rfl
  · have := hbound (by decide)
    simp only [List.length_nil] at hlen this
    omega

/-- The cells stored by the bit-packed branch (packing byte `p` in 129..254,
`k = 256 - p` sub-palette bytes, `b = bits_per_pixel(k)`, `q = 32 div b`) on
any stream: whole words of `q` cells are stored until at least 4096 cells are
written, so the number of cells is a multiple of `q` between 4096 and
`4095 + q`, and it exceeds 4096 (stores past the end of `tile_data`) when `q`
does not divide 4096.  For every pixel number `n < 4096` whose word `n div q`
lies inside the file and whose sub-palette index (bits `b*(n mod q) ..` of
that little-endian word, modulo `2^b`) is below `k`, cell `n` is the
sub-palette byte with that index. -/
theorem packedBranch_stores (p b fuel : Nat) (junk : Nat → Int) (fp : FILE)
    (hp : 129 ≤ p ∧ p ≤ 254) (hb : bits_per_pixel ((256 - p : Nat) : Int) = some b)
    (heof : fp.eof = false) (hfuel : 1024 ≤ fuel) :
    ∃ fp1 tile, decodeTile fuel junk (p : Int) fp = Res.ok (fp1, some tile) ∧
      (∃ m, tile.length = 32 / b * m) ∧ 4096 ≤ tile.length ∧ tile.length < 4096 + 32 / b ∧
      ∀ n, n < 4096 →
        fp.pos + (256 - p) + 4 * (n / (32 / b) + 1) ≤ fp.data.length →
        packedIndex fp.data (fp.pos + (256 - p)) b n < 256 - p →
        tile[n]? = some (fp.data.getD (fp.pos + packedIndex fp.data (fp.pos + (256 - p)) b n) 0).val := by
  have hbr := bits_per_pixel_range _ _ hb
  have hq := div32_pos b hbr
  have hbq : b * (32 / b) ≤ 32 := Nat.mul_div_le 32 b
  have hk : (256 - (p : Int)) = ((256 - p : Nat) : Int) := by omega
  obtain ⟨fp1, tile1, m, hrun, hlen, hge, _, hbound, _, hpix⟩ :=
    packedLoop_spec b (lowMask b) (32 / b) (readSubPalette (256 - p) 0 fp junk).2 (by omega) fuel
      (readSubPalette (256 - p) 0 fp junk).1 [] (by
        simp only [List.length_nil]
        have : 4 * fuel ≤ 32 / b * fuel := Nat.mul_le_mul_right _ hq
        omega)
  refine ⟨fp1, tile1, ?_, ⟨m, by simpa using hlen⟩, hge, hbound (by decide), ?_⟩
  · have hb0 : ¬ b = 0 := by omega
    simp only [decodeTile, selectMode_pixel p hp, hk, packedBranch, hb, hb0, if_false,
      Int.toNat_natCast]
    simp only [hrun, Res.map]
  · intro n hn hfile hidx
    simp only [List.length_nil, Nat.zero_add] at hlen hpix
    have hdm : 32 / b * (n / (32 / b)) + n % (32 / b) = n := Nat.div_add_mod n (32 / b)
    have hr : n % (32 / b) < 32 / b := Nat.mod_lt _ (by omega)
    have hj : n / (32 / b) < m := by
      by_contra hcon
      have : 32 / b * m ≤ 32 / b * (n / (32 / b)) := Nat.mul_le_mul_left _ (by omega)
      omega
    have h1 := hpix (n / (32 / b)) (n % (32 / b)) hj hr
    rw [hdm] at h1
    rw [h1]
    -- the stream after the sub-palette
    have hsplit : fp.data.drop fp.pos
        = (fp.data.drop fp.pos).take (256 - p) ++ (fp.data.drop fp.pos).drop (256 - p) :=
      (List.take_append_drop _ _).symm
    have hsublen : ((fp.data.drop fp.pos).take (256 - p)).length = 256 - p := by
      rw [List.length_take, List.length_drop]
      omega
    have hspec := readSubPalette_spec ((fp.data.drop fp.pos).take (256 - p))
      ((fp.data.drop fp.pos).drop (256 - p)) 0 fp junk hsplit
    rw [hsublen] at hspec
    obtain ⟨hfp, hpal⟩ := hspec
    have hword := nthWord_eq { fp with pos := fp.pos + (256 - p) } (n / (32 / b)) heof (by
      show fp.pos + (256 - p) + 4 * (n / (32 / b) + 1) ≤ fp.data.length
      exact hfile)
    rw [hfp, hword]
    have hfield := field_of_toInt32 (leWordAt fp.data (fp.pos + (256 - p) + 4 * (n / (32 / b))))
      (b * (n % (32 / b))) b (leWordAt_lt _ _) (by
        have : b * (n % (32 / b)) + b ≤ b * (32 / b) := by
          have : b * (n % (32 / b) + 1) ≤ b * (32 / b) := Nat.mul_le_mul_left _ hr
          rw [Nat.mul_add, Nat.mul_one] at this
          exact this
        omega)
    have hidx2 : packedIndex fp.data (fp.pos + (256 - p)) b n
        = leWordAt fp.data (fp.pos + (256 - p) + 4 * (n / (32 / b)))
            / 2 ^ (b * (n % (32 / b))) % 2 ^ b := rfl
    simp only [packedPixel]
    show some (toUChar ((readSubPalette (256 - p) 0 fp junk).2
      (cAnd (toInt32 (leWordAt fp.data (fp.pos + (256 - p) + 4 * (n / (32 / b))))
        >>> (b * (n % (32 / b)))) (lowMask b)).toNat)) = _
    rw [hfield, ← hidx2, hpal]
    simp only [Nat.zero_le, if_true, Nat.sub_zero]
    have hget : ((fp.data.drop fp.pos).take (256 - p))[packedIndex fp.data (fp.pos + (256 - p)) b n]?
        = some (fp.data.getD (fp.pos + packedIndex fp.data (fp.pos + (256 - p)) b n) 0) := by
      rw [List.getElem?_take_of_lt hidx, List.getElem?_drop]
      exact get_of_lt _ _ (by omega)
    rw [hget]
    simp only [toUChar_byte]

/-- C8, at the failing input (scenario S2): on packing byte 192, the
sub-palette 10..73 and a first word `00 00 00 00`, pixels 0..4 are stored as
palette index 10, but the word loop stores 4100 cells in all: the 820th word
is read at cell 4095 and its five pixels go to cells 4095..4099, four of them
past the end of the 4096-byte `tile_data`. -/
theorem packed_scenario_overruns (fuel : Nat) (junk : Nat → Int) :
    ∃ fp1 tile, decodeTile (fuel + 1024) junk 192 packedScenario = Res.ok (fp1, some tile) ∧
      tile.length = 4100 ∧
      tile[0]? = some 10 ∧ tile[1]? = some 10 ∧ tile[2]? = some 10 ∧ tile[3]? = some 10 ∧
      tile[4]? = some 10 := by
  obtain ⟨fp1, tile, h, ⟨m, hm⟩, hge, hlt, hpix⟩ := packedBranch_stores 192 6 (fuel + 1024) junk
    packedScenario (by decide) rfl rfl (by omega)
  have e : 32 / 6 = 5 := rfl
  rw [e] at hm hlt
  exact ⟨fp1, tile, h, by omega, hpix 0 (by decide) (by decide) (by decide),
    hpix 1 (by decide) (by decide) (by decide), hpix 2 (by decide) (by decide) (by decide),
    hpix 3 (by decide) (by decide) (by decide), hpix 4 (by decide) (by decide) (by decide)⟩

/-! ## A validated prefix-code table that the traversal leaves -/

set_option maxRecDepth 100000 in
/-- C1, evaluation at the failing input: the build loop reads a 133-byte
table from `escapeStream`, the validation pass accepts it, and on the data
bits 1, 1 the cursor goes from entry 0 to index 2 (the operand byte `lo = 128`
of the long branch at index 1, which the validation skipped), is read there
as a long branch and moves to index 65286, beyond the table; `readTile` then
reads the table out of bounds, at every scale factor. -/
theorem huffman_cursor_leaves_validated_table (fuel : Nat) (junk : Nat → Int) (q : QCT)
    (tx ty s : Nat) :
    huffBuild 133 ⟨escapeStream, 1, false⟩ [] 0 0
      = Res.ok (⟨escapeStream, 134, false⟩, escapeTable, 66) ∧
    escapeTable.length = 133 ∧
    huffValid escapeTable = true ∧
    (huffStep escapeTable ⟨⟨escapeStream, 135, false⟩, 3, 8, 0, []⟩).bind (huffStep escapeTable)
      = some ⟨⟨escapeStream, 135, false⟩, 0, 6, 65286, []⟩ ∧
    huffStep escapeTable ⟨⟨escapeStream, 135, false⟩, 0, 6, 65286, []⟩ = none ∧
    q.readTile (fuel + 134) junk ⟨escapeStream, 0, false⟩ tx ty (s + 1) = Res.fault := by
  refine ⟨rfl, rfl, by decide, rfl, rfl, rfl⟩

/-! ## The number of bits of a sub-palette index -/

/-- C11: for every `k` in 1..128 `bits_per_pixel(k)` is the least `b >= 1`
with `2^b >= k`, which is `ceil(log2 k)` raised to 1 at `k = 1`. -/
theorem bits_per_pixel_least (k : Nat) (hk : 1 ≤ k ∧ k ≤ 128) :
    ∃ b, bits_per_pixel (k : Int) = some b ∧ 1 ≤ b ∧ k ≤ 2 ^ b ∧
      (∀ c, 1 ≤ c → k ≤ 2 ^ c → b ≤ c) ∧ b = max 1 (Nat.clog 2 k) := by
  by_cases h1 : k = 1
  · subst h1
    refine ⟨1, rfl, le_refl _, by decide, fun c hc _ => hc, ?_⟩
    rw [Nat.clog_one_right]
    rfl
  · have h2 : 2 ≤ k := by omega
    have hpos : 0 < Nat.clog 2 k :=
      (Nat.pow_lt_iff_lt_clog (by norm_num : 1 < 2)).mp (by omega)
    refine ⟨Nat.clog 2 k, bits_per_pixel_eq_clog k ⟨h2, hk.2⟩, hpos,
      Nat.le_pow_clog (by norm_num) k, ?_, ?_⟩
    · intro c _ hc
      exact (Nat.le_pow_iff_clog_le (by norm_num : 1 < 2)).mp hc
    · rw [max_eq_right hpos]

/-- C11, witness: `k = 1` gives one bit. -/
theorem bits_per_pixel_least_witness :
    ∃ b, bits_per_pixel ((1 : Nat) : Int) = some b ∧ 1 ≤ b ∧ 1 ≤ 2 ^ b ∧
      (∀ c, 1 ≤ c → 1 ≤ 2 ^ c → b ≤ c) ∧ b = max 1 (Nat.clog 2 1) :=
  bits_per_pixel_least 1 (by decide)

/-! ## Prefix-code tables that fail the validation -/

/-- A prefix-code tile whose table has more than one leaf and fails the
validation: `readTile` returns at once, the object as it was. -/
theorem readTile_of_rejected_table (fuel : Nat) (junk : Nat → Int) (q : QCT)
    (fp fp1 : FILE) (tx ty s : Nat) (huff : List Nat) (num_colours : Nat) (hs : 0 < s)
    (hp : (fgetc fp).1 = 0 ∨ (fgetc fp).1 = 255)
    (hbuild : huffBuild fuel (fgetc fp).2 [] 0 0 = Res.ok (fp1, huff, num_colours))
    (hleaves : 1 < num_colours) (hval : huffValid huff = false) :
    q.readTile fuel junk fp tx ty s = Res.ok (fp1, q) := by
  have hsel : selectMode (fgetc fp).1 = Mode.huffman := by
    unfold selectMode
    rw [if_pos hp]
  have hne : ¬ num_colours = 1 := by omega
  have hs0 : ¬ s = 0 := by omega
  simp only [QCT.readTile, hs0, if_false, decodeTile, hsel, huffBranch, hbuild, hne, hval]
  rfl

/-- C12: when the packing byte is 0 or 255, the table built from the stream
has more than one leaf and the validation pass rejects it, `readTile` returns
with the image unchanged, at every scale factor; an image that was all zero
stays all zero. -/
theorem readTile_rejected_table_keeps_image (fuel : Nat) (junk : Nat → Int) (q : QCT)
    (fp fp1 : FILE) (tx ty s : Nat) (huff : List Nat) (num_colours : Nat) (hs : 0 < s)
    (hp : (fgetc fp).1 = 0 ∨ (fgetc fp).1 = 255)
    (hbuild : huffBuild fuel (fgetc fp).2 [] 0 0 = Res.ok (fp1, huff, num_colours))
    (hleaves : 1 < num_colours) (hval : huffValid huff = false) :
    q.readTile fuel junk fp tx ty s = Res.ok (fp1, q) ∧
      ((∀ i, q.image_data i = 0) →
        ∃ q1, q.readTile fuel junk fp tx ty s = Res.ok (fp1, q1) ∧ ∀ i, q1.image_data i = 0) := by
  have hrun := readTile_of_rejected_table fuel junk q fp fp1 tx ty s huff num_colours hs hp
    hbuild hleaves hval
  exact ⟨hrun, fun h0 => ⟨q, hrun, h0⟩⟩

/-- C12, witness: the tile stream `FF D5 23 14` (table `[213, 35, 20]`, two
leaves, short branch with target 44) at scale factor 2. -/
theorem readTile_rejected_table_keeps_image_witness :
    QCT.readTile 3 (fun _ => 0) ⟨1, 1, fun _ _ => 0, fun _ => 0⟩
        ⟨[255, 213, 35, 20], 0, false⟩ 0 0 2
      = Res.ok (⟨[255, 213, 35, 20], 4, false⟩, ⟨1, 1, fun _ _ => 0, fun _ => 0⟩) ∧
      ((∀ i, (⟨1, 1, fun _ _ => 0, fun _ => 0⟩ : QCT).image_data i = 0) →
        ∃ q1, QCT.readTile 3 (fun _ => 0) ⟨1, 1, fun _ _ => 0, fun _ => 0⟩
            ⟨[255, 213, 35, 20], 0, false⟩ 0 0 2
          = Res.ok (⟨[255, 213, 35, 20], 4, false⟩, q1) ∧ ∀ i, q1.image_data i = 0) :=
  readTile_rejected_table_keeps_image 3 (fun _ => 0) ⟨1, 1, fun _ _ => 0, fun _ => 0⟩
    ⟨[255, 213, 35, 20], 0, false⟩ ⟨[255, 213, 35, 20], 4, false⟩ 0 0 2 [213, 35, 20] 2
    (by decide) (by decide) (by rfl) (by decide) (by decide)

/-! ## Tiles whose index entry is zero -/

theorem huffBuild_done (fuel : Nat) (fp : FILE) (huff : List Nat) (num_colours num_branches : Nat)
    (h : num_branches < num_colours) :
    huffBuild fuel fp huff num_colours num_branches = Res.ok (fp, huff, num_colours) := by
  have hn : ¬ num_colours ≤ num_branches := by omega
  cases fuel <;> simp only [huffBuild, hn, if_false]

theorem huffBuild_short (fuel : Nat) (fp : FILE) (huff : List Nat) (num_colours num_branches : Nat)
    (b : Fin 256) (h : num_colours ≤ num_branches) (hget : fp.data[fp.pos]? = some b)
    (hb : 128 < b.val) :
    huffBuild (fuel + 1) fp huff num_colours num_branches
      = huffBuild fuel { fp with pos := fp.pos + 1 } (huff ++ [b.val]) num_colours
          (num_branches + 1) := by
  have h1 : ¬ b.val = 128 := by omega
  simp only [huffBuild, h, if_true, fgetc_of_get fp b hget, toUChar_byte, h1, if_false]
  rw [if_pos hb]

theorem huffBuild_leaf (fuel : Nat) (fp : FILE) (huff : List Nat) (num_colours num_branches : Nat)
    (b : Fin 256) (h : num_colours ≤ num_branches) (hget : fp.data[fp.pos]? = some b)
    (hb : b.val < 128) :
    huffBuild (fuel + 1) fp huff num_colours num_branches
      = huffBuild fuel { fp with pos := fp.pos + 1 } (huff ++ [b.val]) (num_colours + 1)
          num_branches := by
  have h1 : ¬ b.val = 128 := by omega
  have h2 : ¬ b.val > 128 := by omega
  simp only [huffBuild, h, if_true, fgetc_of_get fp b hget, toUChar_byte, h1, h2, if_false]

/-- The build loop on a stream that continues with the bytes `D5 23 14`:
the table `[213, 35, 20]` with two leaves. -/
theorem huffBuild_magic_tail (fuel : Nat) (data : List (Fin 256)) (rest : List (Fin 256))
    (hdata : data = 255 :: 213 :: 35 :: 20 :: rest) :
    huffBuild (fuel + 3) ⟨data, 1, false⟩ [] 0 0 = Res.ok (⟨data, 4, false⟩, [213, 35, 20], 2) := by
  have e : fuel + 3 = fuel + 1 + 1 + 1 := rfl
  rw [e, huffBuild_short _ ⟨data, 1, false⟩ [] 0 0 213 (le_refl _) (by subst hdata; simp)
      (by decide),
    huffBuild_leaf _ ⟨data, 2, false⟩ _ 0 1 35 (by decide) (by subst hdata; simp) (by decide),
    huffBuild_leaf _ ⟨data, 3, false⟩ _ 1 1 20 (by decide) (by subst hdata; simp) (by decide),
    huffBuild_done _ _ _ _ _ (by decide)]
  rfl

/-- The body of the tile loop for a tile whose index entry is 0, on a file
that begins with the magic bytes: the stream ends after the four bytes and
the image is as it was. -/
theorem loadTile_at_magic (fuel : Nat) (junk : Nat → Int) (q : QCTObject)
    (image_index : Nat → Int) (fp : FILE) (image : Nat → Nat) (xx yy : Nat)
    (rest : List (Fin 256)) (hs : 0 < q.scalefactor) (hfuel : 3 ≤ fuel)
    (hindex : q.metadata.image_index = some image_index)
    (hentry : image_index (yy * q.width.toNat + xx) = 0)
    (hdata : fp.data = 255 :: 213 :: 35 :: 20 :: rest) :
    loadTile fuel junk q fp image xx yy = Res.ok ({ fp with pos := 4, eof := false }, image) := by
  obtain ⟨n, rfl⟩ : ∃ n, fuel = n + 3 := ⟨fuel - 3, by omega⟩
  obtain ⟨data, pos, eof⟩ := fp
  simp only at hdata
  have hseek : fseek ⟨data, pos, eof⟩ 0 = ⟨data, 0, false⟩ := rfl
  have hget : fgetc ⟨data, 0, false⟩ = (255, ⟨data, 1, false⟩) :=
    fgetc_of_get ⟨data, 0, false⟩ 255 (by subst hdata; simp)
  have hrun := readTile_of_rejected_table (n + 3) junk (q.tileView image)
    ⟨data, 0, false⟩ ⟨data, 4, false⟩ xx yy q.scalefactor [213, 35, 20] 2 hs
    (by rw [hget]; exact Or.inr rfl)
    (by rw [hget]; exact huffBuild_magic_tail n data rest hdata) (by decide) (by decide)
  simp only [loadTile, hindex, hentry, hseek, hrun, Res.map]
  rfl

/-- C13: when the file begins with the magic bytes `FF D5 23 14` and the
image-index entry of tile `(xx, yy)` is 0, the body of the tile loop of
`loadImage` (seek to offset 0, `readTile`) reads the four magic bytes as a
prefix-code tile with the table `[213, 35, 20]`, which fails the validation:
the image is left exactly as it was, at every scale factor, so a tile region
that was palette index 0 stays palette index 0. -/
theorem loadTile_offset_zero_keeps_image (fuel : Nat) (junk : Nat → Int) (q : QCTObject)
    (image_index : Nat → Int) (fp : FILE) (image : Nat → Nat) (xx yy : Nat)
    (rest : List (Fin 256)) (hs : 0 < q.scalefactor) (hfuel : 3 ≤ fuel)
    (hindex : q.metadata.image_index = some image_index)
    (hentry : image_index (yy * q.width.toNat + xx) = 0)
    (hdata : fp.data = 255 :: 213 :: 35 :: 20 :: rest) :
    loadTile fuel junk q fp image xx yy = Res.ok ({ fp with pos := 4, eof := false }, image) :=
  loadTile_at_magic fuel junk q image_index fp image xx yy rest hs hfuel hindex hentry hdata

/-- C13, witness: a one-tile map whose file consists of the magic bytes,
loaded at scale factor 4. -/
theorem loadTile_offset_zero_keeps_image_witness :
    loadTile 3 (fun _ => 0) magicOnlyObject ⟨[255, 213, 35, 20], 0, false⟩ (fun _ => 0) 0 0
      = Res.ok (⟨[255, 213, 35, 20], 4, false⟩, fun _ => 0) :=
  loadTile_offset_zero_keeps_image 3 (fun _ => 0) magicOnlyObject (fun _ => 0)
    ⟨[255, 213, 35, 20], 0, false⟩ (fun _ => 0) 0 0 [] (by decide) (by decide) rfl rfl rfl

/-! ## Placement at any scale factor -/

theorem interpRun_eq_foldl (interp : Nat → Nat → Nat) (tile : List Nat) :
    ∀ (n src pix : Nat),
      interpRun interp tile n src pix
        = (List.range n).foldl (fun p k => interp p (tileAt tile (src + k))) pix := by
  intro n
  induction n with
  | zero => intro src pix; rfl
  | succ n ih =>
    intro src pix
    rw [interpRun, ih, List.range_succ_eq_map, List.foldl_cons, List.foldl_map]
    simp only [Nat.add_zero, Nat.succ_eq_add_one]
    congr 1
    funext p k
    rw [Nat.add_assoc, Nat.add_comm 1 k]

/-- The inner loops of the down-sampling branch compute the fold of the
specification on row `src / 64` of the buffer. -/
theorem interpRun_eq_interpFold (interp : Nat → Nat → Nat) (tile : List Nat) (s src x : Nat) :
    interpRun interp tile (s - 1) (src + x * s + 1) (tileAt tile (src + x * s))
      = interpFold interp (fun j => tileAt tile (src + j)) s x := by
  rw [interpRun_eq_foldl, interpFold]
  congr 1
  funext p k
  rw [show src + x * s + 1 + k = src + (x * s + (k + 1)) by omega]

theorem scaleRow_outside (interp : Nat → Nat → Nat) (tile : List Nat) (s dest src : Nat)
    (image : Nat → Nat) :
    ∀ (n i : Nat), ¬ (dest ≤ i ∧ i < dest + n) →
      scaleRow interp tile s dest src n image i = image i := by
  intro n
  induction n with
  | zero => intro i _; rfl
  | succ n ih =>
    intro i h
    have hne : i ≠ dest + n := by omega
    simp only [scaleRow, Function.update, hne, dite_false]
    exact ih i (by omega)

theorem scaleRow_apply (interp : Nat → Nat → Nat) (tile : List Nat) (s dest src : Nat)
    (image : Nat → Nat) :
    ∀ (n x : Nat), x < n →
      scaleRow interp tile s dest src n image (dest + x)
        = interpRun interp tile (s - 1) (src + x * s + 1) (tileAt tile (src + x * s)) := by
  intro n
  induction n with
  | zero => intro x h; omega
  | succ n ih =>
    intro x h
    by_cases hx : x = n
    · subst hx
      simp [scaleRow, Function.update]
    · have hne : dest + x ≠ dest + n := by omega
      simp only [scaleRow, Function.update, hne, dite_false]
      exact ih x (by omega)

theorem scaleRows_apply (interp : Nat → Nat → Nat) (row_ptr : Nat → Nat) (tile : List Nat)
    (s : Nat) (image : Nat → Nat) :
    ∀ (m : Nat),
      (∀ a b, a < m → b < m → a ≠ b →
        row_ptr (a * s) + 64 / s ≤ row_ptr (b * s) ∨ row_ptr (b * s) + 64 / s ≤ row_ptr (a * s)) →
      ∀ yy x, yy < m → x < 64 / s →
        scaleRows interp row_ptr tile s m image (row_ptr (yy * s) + x)
          = interpRun interp tile (s - 1) (yy * 64 + x * s + 1) (tileAt tile (yy * 64 + x * s)) := by
  intro m
  induction m with
  | zero => intro _ yy x h; omega
  | succ m ih =>
    intro hdis yy x hyy hx
    rw [scaleRows]
    by_cases hm : yy = m
    · subst hm
      exact scaleRow_apply _ _ _ _ _ _ _ _ hx
    · have hd := hdis yy m (by omega) (by omega) hm
      rw [scaleRow_outside _ _ _ _ _ _ _ _ (by omega)]
      exact ih (fun a b ha hb hab => hdis a b (by omega) (by omega) hab) yy x (by omega) hx

theorem scaleRows_const (interp : Nat → Nat → Nat) (row_ptr : Nat → Nat) (tile : List Nat)
    (s v : Nat) (image : Nat → Nat)
    (hv : ∀ yy x, yy < 64 / s → x < 64 / s →
      interpRun interp tile (s - 1) (yy * 64 + x * s + 1) (tileAt tile (yy * 64 + x * s)) = v) :
    ∀ (m : Nat), m ≤ 64 / s → ∀ yy x, yy < m → x < 64 / s →
      scaleRows interp row_ptr tile s m image (row_ptr (yy * s) + x) = v := by
  intro m
  induction m with
  | zero => intro _ yy x h; omega
  | succ m ih =>
    intro hm yy x hyy hx
    rw [scaleRows]
    by_cases hin : row_ptr (m * s) ≤ row_ptr (yy * s) + x ∧
        row_ptr (yy * s) + x < row_ptr (m * s) + 64 / s
    · obtain ⟨x2, hx2⟩ : ∃ x2, row_ptr (yy * s) + x = row_ptr (m * s) + x2 :=
        ⟨row_ptr (yy * s) + x - row_ptr (m * s), by omega⟩
      rw [hx2, scaleRow_apply _ _ _ _ _ _ _ _ (by omega)]
      exact hv m x2 (by omega) (by omega)
    · rw [scaleRow_outside _ _ _ _ _ _ _ _ hin]
      have hne : yy ≠ m := by
        intro h
        subst h
        exact hin ⟨by omega, by omega⟩
      exact ih (by omega) yy x (by omega) hx

theorem mul64_div (a s n : Nat) (h : s * n = 64) : a * 64 / s = a * n := by
  have hs : 0 < s := by
    rcases Nat.eq_zero_or_pos s with h0 | h0
    · rw [h0] at h; omega
    · exact h0
  rw [← h, ← Nat.mul_assoc, Nat.mul_comm (a * s) n, ← Nat.mul_assoc, Nat.mul_div_cancel _ hs,
    Nat.mul_comm]

theorem scale_cases (s : Nat) (hs : s ∈ [1, 2, 4, 8, 16, 32, 64]) : s * (64 / s) = 64 := by
  simp only [List.mem_cons, List.mem_singleton, List.not_mem_nil, or_false] at hs
  rcases hs with h | h | h | h | h | h | h <;> subst h <;> rfl

theorem rowPtr_scaled (width tx ty s row : Nat) (hs : s ∈ [1, 2, 4, 8, 16, 32, 64]) :
    rowPtr width tx ty s row
      = (ty * (64 / s) + rowSeq row) * (width * (64 / s)) + tx * (64 / s) := by
  have h64 := scale_cases s hs
  by_cases h1 : s = 1
  · subst h1
    rw [rowPtr_one]
  · simp only [rowPtr, h1, if_false, mul64_div _ s (64 / s) h64]
    ring

theorem rowPtr_scaled_disjoint (width tx ty s : Nat) (hs : s ∈ [1, 2, 4, 8, 16, 32, 64])
    (htx : tx < width) (a b : Nat) (ha : a < 64 / s) (hb : b < 64 / s) (hab : a ≠ b) :
    rowPtr width tx ty s (a * s) + 64 / s ≤ rowPtr width tx ty s (b * s) ∨
      rowPtr width tx ty s (b * s) + 64 / s ≤ rowPtr width tx ty s (a * s) := by
  have h64 := scale_cases s hs
  have hs0 : 0 < s := by
    rcases Nat.eq_zero_or_pos s with h0 | h0
    · rw [h0] at h64; omega
    · exact h0
  have hn : 0 < 64 / s := by omega
  have hale : a * s < 64 := by
    have : a * s < 64 / s * s := Nat.mul_lt_mul_of_pos_right ha hs0
    rw [Nat.mul_comm (64 / s) s, h64] at this
    exact this
  have hble : b * s < 64 := by
    have : b * s < 64 / s * s := Nat.mul_lt_mul_of_pos_right hb hs0
    rw [Nat.mul_comm (64 / s) s, h64] at this
    exact this
  have hne : rowSeq (a * s) ≠ rowSeq (b * s) := by
    intro h
    have := rowSeq_injective _ _ hale hble h
    exact hab (Nat.eq_of_mul_eq_mul_right hs0 this)
  rw [rowPtr_scaled _ _ _ _ _ hs, rowPtr_scaled _ _ _ _ _ hs]
  have hw : 64 / s ≤ width * (64 / s) := Nat.le_mul_of_pos_left _ (by omega)
  have key : ∀ x y : Nat, x < y →
      (ty * (64 / s) + x) * (width * (64 / s)) + tx * (64 / s) + 64 / s
        ≤ (ty * (64 / s) + y) * (width * (64 / s)) + tx * (64 / s) := by
    intro x y hxy
    have h1 : (ty * (64 / s) + x + 1) * (width * (64 / s))
        ≤ (ty * (64 / s) + y) * (width * (64 / s)) := Nat.mul_le_mul_right _ (by omega)
    have h2 : (ty * (64 / s) + x + 1) * (width * (64 / s))
        = (ty * (64 / s) + x) * (width * (64 / s)) + width * (64 / s) := by ring
    omega
  rcases Nat.lt_or_gt_of_ne hne with h | h
  · exact Or.inl (key _ _ h)
  · exact Or.inr (key _ _ h)

theorem placeTile_apply (q : QCT) (tx ty s : Nat) (tile : List Nat)
    (hs : s ∈ [1, 2, 4, 8, 16, 32, 64]) (htx : tx < q.width) (yy x : Nat) (hyy : yy < 64 / s)
    (hx : x < 64 / s) :
    (placeTile q tx ty s tile).image_data (rowPtr q.width tx ty s (yy * s) + x)
      = interpFold q.pal_interp (fun j => tileAt tile (yy * 64 + j)) s x := by
  by_cases h1 : s = 1
  · subst h1
    simp only [placeTile, if_true]
    have h := copyRows_apply (rowPtr q.width tx ty 1) tile q.image_data 64
      (fun a b ha hb hab => rowPtr_one_disjoint q.width tx ty (by omega) a b ha hb hab) yy x
      (by simpa using hyy) (by simpa using hx)
    rw [Nat.mul_one, h]
    simp [interpFold]
  · simp only [placeTile, h1, if_false]
    rw [scaleRows_apply _ _ _ _ _ _
      (fun a b ha hb hab => rowPtr_scaled_disjoint q.width tx ty s hs htx a b ha hb hab) yy x hyy hx]
    exact interpRun_eq_interpFold _ _ _ _ _

/-! ## The region of a tile -/

/-- When the cells of the buffer that a run reads and the entries of the
interpolation matrix are below 128, both indices of every lookup of the run
are below 128: the lookups stay inside `pal_interp[128][128]`. -/
theorem interpLookups_in_range (pal_interp : Nat → Nat → Nat) (tile : List Nat)
    (hcells : ∀ n, n < 4096 → tileAt tile n < 128)
    (hinterp : ∀ i j, i < 128 → j < 128 → pal_interp i j < 128) :
    ∀ (n src pix : Nat), pix < 128 → src + n ≤ 4096 →
      ∀ ij, ij ∈ interpLookups pal_interp tile n src pix → ij.1 < 128 ∧ ij.2 < 128 := by
  intro n
  induction n with
  | zero =>
    intro src pix _ _ ij hij
    simp [interpLookups] at hij
  | succ n ih =>
    intro src pix hpix hsrc ij hij
    rw [interpLookups, List.mem_cons] at hij
    have hc : tileAt tile src < 128 := hcells src (by omega)
    rcases hij with h | h
    · subst h
      exact ⟨hpix, hc⟩
    · exact ih (src + 1) _ (hinterp _ _ hpix hc) (by omega) ij h

/-- Under the same conditions every lookup of the placement part of
`readTile` stays inside `pal_interp[128][128]`. -/
theorem placeLookups_in_range (q : QCT) (s : Nat) (tile : List Nat)
    (hs : s ∈ [1, 2, 4, 8, 16, 32, 64])
    (hcells : ∀ n, n < 4096 → tileAt tile n < 128)
    (hinterp : ∀ i j, i < 128 → j < 128 → q.pal_interp i j < 128) :
    ∀ ij, ij ∈ placeLookups q s tile → ij.1 < 128 ∧ ij.2 < 128 := by
  intro ij hij
  have h64 := scale_cases s hs
  unfold placeLookups at hij
  split_ifs at hij with h1
  · simp at hij
  · simp only [List.mem_flatMap, List.mem_range] at hij
    obtain ⟨yy, hyy, xx, hxx, hmem⟩ := hij
    have hs0 : 0 < s := by
      rcases Nat.eq_zero_or_pos s with h0 | h0
      · rw [h0] at h64; omega
      · exact h0
    have hy64 : yy < 64 := by
      have : 64 / s ≤ 64 := Nat.div_le_self _ _
      omega
    have hcol : xx * s + s ≤ 64 := by
      have : (xx + 1) * s ≤ 64 / s * s := Nat.mul_le_mul_right _ hxx
      rw [Nat.add_mul, Nat.one_mul, Nat.mul_comm (64 / s) s, h64] at this
      exact this
    unfold pixelLookups at hmem
    exact interpLookups_in_range q.pal_interp tile hcells hinterp (s - 1)
      (yy * 64 + xx * s + 1) _ (hcells _ (by omega)) (by omega) ij hmem

theorem tileAt_of_take (tile : List Nat) (v i : Nat) (hi : i < 4096)
    (h : tile.take 4096 = List.replicate 4096 v) : tileAt tile i = v := by
  have h1 : (tile.take 4096)[i]? = tile[i]? := by rw [List.getElem?_take, if_pos hi]
  unfold tileAt
  rw [List.getD_eq_getElem?_getD, ← h1, h, List.getElem?_replicate, if_pos hi]
  rfl

theorem tileAt_replicate (v i : Nat) (hi : i < 4096) : tileAt (List.replicate 4096 v) i = v := by
  unfold tileAt
  rw [List.getD_eq_getElem?_getD, List.getElem?_replicate, if_pos hi]
  rfl

theorem tileAt_nil (i : Nat) : tileAt [] i = 0 := rfl

/-! ## The reserved mode and down-sampling -/

theorem skipEight_of_room (fp : FILE) (h : fp.pos + 8 ≤ fp.data.length) :
    skipEight fp = { fp with pos := fp.pos + 8 } := by
  obtain ⟨data, pos, eof⟩ := fp
  simp only at h
  simp only [skipEight, fgetc_mk data pos eof (by omega), fgetc_mk data (pos + 1) eof (by omega),
    fgetc_mk data (pos + 1 + 1) eof (by omega), fgetc_mk data (pos + 1 + 1 + 1) eof (by omega),
    fgetc_mk data (pos + 1 + 1 + 1 + 1) eof (by omega),
    fgetc_mk data (pos + 1 + 1 + 1 + 1 + 1) eof (by omega),
    fgetc_mk data (pos + 1 + 1 + 1 + 1 + 1 + 1) eof (by omega),
    fgetc_mk data (pos + 1 + 1 + 1 + 1 + 1 + 1 + 1) eof (by omega)]

theorem interpRun_blank (interp : Nat → Nat → Nat) :
    ∀ (n src pix : Nat), interpRun interp [] n src pix = (fun p => interp p 0)^[n] pix := by
  intro n
  induction n with
  | zero => intro src pix; rfl
  | succ n ih =>
    intro src pix
    rw [interpRun, ih, Function.iterate_succ_apply]
    rfl

/-- The placement of a buffer that was never written: every pixel stored is
the result of `s - 1` lookups `pix = pal_interp[pix][0]` starting from 0. -/
theorem placeTile_blank (q : QCT) (tx ty s : Nat) (hs : s ∈ [1, 2, 4, 8, 16, 32, 64])
    (yy x : Nat) (hyy : yy < 64 / s) (hx : x < 64 / s) :
    (placeTile q tx ty s []).image_data (rowPtr q.width tx ty s (yy * s) + x)
      = (fun p => q.pal_interp p 0)^[s - 1] 0 := by
  by_cases h1 : s = 1
  · subst h1
    simp only [placeTile, if_true]
    have h := copyRows_const (rowPtr q.width tx ty 1) [] q.image_data 0 (fun _ _ => rfl) 64
      (le_refl _) (rowPtr q.width tx ty 1 (yy * 1) + x) (yy * 1) (by omega) (by omega) (by omega)
    rw [h]
    rfl
  · simp only [placeTile, h1, if_false]
    apply scaleRows_const q.pal_interp _ [] s _ q.image_data _ (64 / s) (le_refl _) yy x hyy hx
    intro a b _ _
    rw [interpRun_blank]
    rfl

/-- C14 (amended): on a map whose interpolation matrix holds only entries
below 128, for a tile whose first byte is 128 and which is followed by at
least eight more bytes, `readTile` consumes exactly these eight bytes, every
lookup it makes stays inside `pal_interp[128][128]`, and at every scale factor
`s` in {1,2,4,8,16,32,64} every pixel it writes into the tile's region is the
result of `s - 1` lookups `pix = pal_interp[pix][0]` starting from palette
index 0: palette index 0 at scale factor 1, and at the other scale factors
whenever `pal_interp[0][0] = 0`. -/
theorem readTile_reserved_mode (fuel : Nat) (junk : Nat → Int) (q : QCT) (fp : FILE)
    (tx ty s : Nat) (hs : s ∈ [1, 2, 4, 8, 16, 32, 64]) (hp : fp.data[fp.pos]? = some 128)
    (hlen : fp.pos + 9 ≤ fp.data.length)
    (hinterp : ∀ i j, i < 128 → j < 128 → q.pal_interp i j < 128) :
    ∃ q1, q.readTile fuel junk fp tx ty s = Res.ok ({ fp with pos := fp.pos + 9 }, q1) ∧
      (∀ ij, ij ∈ placeLookups q s [] → ij.1 < 128 ∧ ij.2 < 128) ∧
      (∀ yy x, yy < 64 / s → x < 64 / s →
        q1.image_data ((ty * 64 / s + rowSeq (yy * s)) * (q.width * 64 / s) + tx * 64 / s + x)
          = (fun p => q.pal_interp p 0)^[s - 1] 0) ∧
      ((s = 1 ∨ q.pal_interp 0 0 = 0) → ∀ yy x, yy < 64 / s → x < 64 / s →
        q1.image_data ((ty * 64 / s + rowSeq (yy * s)) * (q.width * 64 / s) + tx * 64 / s + x)
          = 0) := by
  have h64 := scale_cases s hs
  have hs0 : ¬ s = 0 := by
    intro h0
    rw [h0] at h64
    omega
  have hsel : selectMode ((128 : Fin 256).val : Int) = Mode.unknown := by decide
  have hskip := skipEight_of_room { fp with pos := fp.pos + 1 }
    (by show fp.pos + 1 + 8 ≤ fp.data.length; omega)
  have hrun : q.readTile fuel junk fp tx ty s
      = Res.ok ({ fp with pos := fp.pos + 9 }, placeTile q tx ty s []) := by
    simp only [QCT.readTile, hs0, if_false, fgetc_of_get fp 128 hp, decodeTile, hsel, hskip]
  have hpix : ∀ yy x, yy < 64 / s → x < 64 / s →
      (placeTile q tx ty s []).image_data
          ((ty * 64 / s + rowSeq (yy * s)) * (q.width * 64 / s) + tx * 64 / s + x)
        = (fun p => q.pal_interp p 0)^[s - 1] 0 := by
    intro yy x hyy hx
    have h := placeTile_blank q tx ty s hs yy x hyy hx
    rw [rowPtr_scaled _ _ _ _ _ hs] at h
    simp only [mul64_div _ s (64 / s) h64]
    exact h
  refine ⟨placeTile q tx ty s [], hrun,
    placeLookups_in_range q s [] hs (fun _ _ => by rw [tileAt_nil]; decide) hinterp, hpix, ?_⟩
  intro hz yy x hyy hx
  rw [hpix yy x hyy hx]
  rcases hz with h1 | h0
  · subst h1
    rfl
  · have hit : ∀ n : Nat, (fun p => q.pal_interp p 0)^[n] 0 = 0 := by
      intro n
      induction n with
      | zero => rfl
      | succ n ih => rw [Function.iterate_succ_apply, h0, ih]
    exact hit _

/-- C14, witness: the tile `80 00 .. 00` on a one-tile map with a zero
interpolation matrix, at scale factor 2. -/
theorem readTile_reserved_mode_witness :
    ∃ q1, QCT.readTile 0 (fun _ => 0) ⟨1, 1, fun _ _ => 0, fun _ => 0⟩ reservedTile 0 0 2
        = Res.ok ({ reservedTile with pos := reservedTile.pos + 9 }, q1) ∧
      (∀ ij, ij ∈ placeLookups ⟨1, 1, fun _ _ => 0, fun _ => 0⟩ 2 [] → ij.1 < 128 ∧ ij.2 < 128) ∧
      (∀ yy x, yy < 64 / 2 → x < 64 / 2 →
        q1.image_data ((0 * 64 / 2 + rowSeq (yy * 2)) * (1 * 64 / 2) + 0 * 64 / 2 + x)
          = (fun p => (fun _ _ => 0 : Nat → Nat → Nat) p 0)^[2 - 1] 0) ∧
      ((2 = 1 ∨ (fun _ _ => 0 : Nat → Nat → Nat) 0 0 = 0) → ∀ yy x, yy < 64 / 2 → x < 64 / 2 →
        q1.image_data ((0 * 64 / 2 + rowSeq (yy * 2)) * (1 * 64 / 2) + 0 * 64 / 2 + x) = 0) :=
  readTile_reserved_mode 0 (fun _ => 0) ⟨1, 1, fun _ _ => 0, fun _ => 0⟩ reservedTile 0 0 2
    (by decide) (by decide) (by decide) (fun _ _ _ _ => by show (0 : Nat) < 128; decide)

/-- C14, counterexample: with an interpolation matrix whose entry `[0][0]`
is 5, the tile `80 00 .. 00` decoded at scale factor 2 writes palette index
5, not 0, at the first pixel of the tile's region. -/
theorem readTile_reserved_mode_not_blank :
    ∃ q1, constInterpMap.readTile 0 (fun _ => 0) reservedTile 0 0 2
        = Res.ok ({ reservedTile with pos := 9 }, q1) ∧
      q1.image_data ((0 * 64 / 2 + rowSeq (0 * 2)) * (1 * 64 / 2) + 0 * 64 / 2 + 0) = 5 ∧
      q1.image_data ((0 * 64 / 2 + rowSeq (0 * 2)) * (1 * 64 / 2) + 0 * 64 / 2 + 0) ≠ 0 := by
  have hrun : constInterpMap.readTile 0 (fun _ => 0) reservedTile 0 0 2
      = Res.ok ({ reservedTile with pos := 9 }, placeTile constInterpMap 0 0 2 []) := rfl
  have h := placeTile_blank constInterpMap 0 0 2 (by decide) 0 0 (by decide) (by decide)
  have hv : (placeTile constInterpMap 0 0 2 []).image_data
      ((0 * 64 / 2 + rowSeq (0 * 2)) * (1 * 64 / 2) + 0 * 64 / 2 + 0) = 5 := h
  exact ⟨_, hrun, hv, by rw [hv]; decide⟩

/-- C17 (amended): when the cells of the decoded buffer and the entries of
the interpolation matrix are below 128, at a scale factor `s > 1` that divides
64 every lookup of `readTile` stays inside `pal_interp[128][128]`, and for
every `y` and `x_out` in `0 .. 64/s - 1` the pixel that `readTile` writes at
row `row_seq[y*s]` and column `x_out` of the tile's region is obtained from
row `y` of the decoded buffer, `pix = buf[y][x_out*s]` and then
`pix = interp[pix][buf[y][x_out*s + n]]` for `n = 1 .. s-1`; row `y` of the
buffer is row `row_seq[y] = s * row_seq[y*s]` of the tile. -/
theorem readTile_downsamples_rows (fuel : Nat) (junk : Nat → Int) (q : QCT) (fp fp1 : FILE)
    (tx ty s : Nat) (tile : List Nat) (hs : s ∈ [2, 4, 8, 16, 32, 64]) (htx : tx < q.width)
    (hdec : decodeTile fuel junk (fgetc fp).1 (fgetc fp).2 = Res.ok (fp1, some tile))
    (hcells : ∀ n, n < 4096 → tileAt tile n < 128)
    (hinterp : ∀ i j, i < 128 → j < 128 → q.pal_interp i j < 128) :
    ∃ q1, q.readTile fuel junk fp tx ty s = Res.ok (fp1, q1) ∧
      (∀ ij, ij ∈ placeLookups q s tile → ij.1 < 128 ∧ ij.2 < 128) ∧
      ∀ y x_out, y < 64 / s → x_out < 64 / s →
        q1.image_data
            ((ty * 64 / s + rowSeq (y * s)) * (q.width * 64 / s) + tx * 64 / s + x_out)
          = interpFold q.pal_interp (fun j => tileAt tile (y * 64 + j)) s x_out ∧
        rowSeq y = s * rowSeq (y * s) := by
  have hs1 : s ∈ [1, 2, 4, 8, 16, 32, 64] := List.mem_cons_of_mem _ hs
  have h64 := scale_cases s hs1
  have hs0 : ¬ s = 0 := by
    intro h0
    rw [h0] at h64
    omega
  refine ⟨placeTile q tx ty s tile, ?_, placeLookups_in_range q s tile hs1 hcells hinterp, ?_⟩
  · simp only [QCT.readTile, hs0, if_false, hdec]
  · intro y x_out hy hx
    constructor
    · have h := placeTile_apply q tx ty s tile hs1 htx y x_out hy hx
      rw [rowPtr_scaled _ _ _ _ _ hs1] at h
      simp only [mul64_div _ s (64 / s) h64]
      exact h
    · simp only [List.mem_cons, List.mem_singleton, List.not_mem_nil, or_false] at hs
      rcases hs with h | h | h | h | h | h <;> subst h <;> revert y <;> decide

/-- C17, witness: the solid tile `00 2A` decoded at scale factor 2. -/
theorem readTile_downsamples_rows_witness :
    ∃ q1, QCT.readTile 1 (fun _ => 0) ⟨1, 1, fun _ _ => 0, fun _ => 0⟩ ⟨[0, 42], 0, false⟩ 0 0 2
        = Res.ok (⟨[0, 42], 2, false⟩, q1) ∧
      (∀ ij, ij ∈ placeLookups ⟨1, 1, fun _ _ => 0, fun _ => 0⟩ 2 (List.replicate 4096 42) →
        ij.1 < 128 ∧ ij.2 < 128) ∧
      ∀ y x_out, y < 64 / 2 → x_out < 64 / 2 →
        q1.image_data ((0 * 64 / 2 + rowSeq (y * 2)) * (1 * 64 / 2) + 0 * 64 / 2 + x_out)
          = interpFold (fun _ _ => 0) (fun j => tileAt (List.replicate 4096 42) (y * 64 + j)) 2
              x_out ∧
        rowSeq y = 2 * rowSeq (y * 2) :=
  readTile_downsamples_rows 1 (fun _ => 0) ⟨1, 1, fun _ _ => 0, fun _ => 0⟩ ⟨[0, 42], 0, false⟩
    ⟨[0, 42], 2, false⟩ 0 0 2 (List.replicate 4096 42) (by decide) (by decide) (by rfl)
    (fun n hn => by rw [tileAt_replicate 42 n hn]; decide)
    (fun _ _ _ _ => by show (0 : Nat) < 128; decide)

/-- C17, counterexample: at scale factor 2, with a buffer whose row 1 is
palette index 7 and whose other rows are 0, the pixel written at output row
16, column 0 of the tile's region is 7 (it comes from buffer row 1), while
row `16 * 2 = 32` of the decoded buffer gives 0. -/
theorem readTile_downsample_not_row_times_s :
    (placeTile leftInterpMap 0 0 2 secondRowTile).image_data
        ((0 * 64 / 2 + 16) * (1 * 64 / 2) + 0 * 64 / 2 + 0) = 7 ∧
      interpFold leftInterpMap.pal_interp (fun j => tileAt secondRowTile (16 * 2 * 64 + j)) 2 0
        = 0 ∧
      ¬ (∀ y_out x_out, y_out < 64 / 2 → x_out < 64 / 2 →
          (placeTile leftInterpMap 0 0 2 secondRowTile).image_data
              ((0 * 64 / 2 + y_out) * (1 * 64 / 2) + 0 * 64 / 2 + x_out)
            = interpFold leftInterpMap.pal_interp
                (fun j => tileAt secondRowTile (y_out * 2 * 64 + j)) 2 x_out) := by
  have h := placeTile_apply leftInterpMap 0 0 2 secondRowTile (by decide) (by decide) 1 0
    (by decide) (by decide)
  have hv : (placeTile leftInterpMap 0 0 2 secondRowTile).image_data
      ((0 * 64 / 2 + 16) * (1 * 64 / 2) + 0 * 64 / 2 + 0) = 7 := by
    have e : rowPtr leftInterpMap.width 0 0 2 (1 * 2) + 0
        = (0 * 64 / 2 + 16) * (1 * 64 / 2) + 0 * 64 / 2 + 0 := by decide
    rw [e] at h
    rw [h]
    decide
  have hc : interpFold leftInterpMap.pal_interp
      (fun j => tileAt secondRowTile (16 * 2 * 64 + j)) 2 0 = 0 := by decide
  refine ⟨hv, hc, ?_⟩
  intro hall
  have := hall 16 0 (by decide) (by decide)
  rw [hv, hc] at this
  exact absurd this (by decide)

/-! ## The magic check -/

theorem fgetc_eof (data : List (Fin 256)) (pos : Nat) (eof : Bool) (h : data.length ≤ pos) :
    fgetc ⟨data, pos, eof⟩ = (-1, ⟨data, pos, true⟩) := by
  have hnone : data[pos]? = none := List.getElem?_eq_none h
  simp only [fgetc, hnone]

theorem fgetc_eof_flag (fp : FILE) (h : fp.eof = true) : (fgetc fp).2.eof = true := by
  unfold fgetc
  cases fp.data[fp.pos]? <;> simp [h]

/-- A call of `readInt` with fewer than four bytes left returns -1. -/
theorem readInt_short (fp : FILE) (h : fp.data.length < fp.pos + 4) : (readInt fp).1 = -1 := by
  have key : (fgetc (fgetc (fgetc (fgetc fp).2).2).2).2.eof = true := by
    obtain ⟨data, pos, eof⟩ := fp
    simp only at h
    by_cases h0 : data.length ≤ pos
    · rw [fgetc_eof data pos eof h0]
      exact fgetc_eof_flag _ (fgetc_eof_flag _ (fgetc_eof_flag _ rfl))
    · rw [fgetc_mk data pos eof (by omega)]
      by_cases h1 : data.length ≤ pos + 1
      · rw [fgetc_eof data (pos + 1) eof h1]
        exact fgetc_eof_flag _ (fgetc_eof_flag _ rfl)
      · rw [fgetc_mk data (pos + 1) eof (by omega)]
        by_cases h2 : data.length ≤ pos + 1 + 1
        · rw [fgetc_eof data (pos + 1 + 1) eof h2]
          exact fgetc_eof_flag _ rfl
        · rw [fgetc_mk data (pos + 1 + 1) eof (by omega),
            fgetc_eof data (pos + 1 + 1 + 1) eof (by omega)]
  simp only [readInt, key, if_true]

theorem toInt32_eq_magic (u : Nat) (hu : u < 4294967296) :
    toInt32 u = QCT_MAGIC ↔ u = 337892863 := by
  unfold toInt32 QCT_MAGIC
  rw [Nat.mod_eq_of_lt hu]
  split_ifs with h <;> omega

/-- The magic check of `loadMetadata` on a fresh stream succeeds exactly
when the file begins with `FF D5 23 14`. -/
theorem readInt_magic_iff (data : List (Fin 256)) :
    (readInt ⟨data, 0, false⟩).1 = QCT_MAGIC ↔ ∃ rest, data = 255 :: 213 :: 35 :: 20 :: rest := by
  by_cases hlen : 4 ≤ data.length
  · rw [readInt_of_four ⟨data, 0, false⟩ rfl (by simpa using hlen)]
    simp only [toInt32_eq_magic _ (leWordAt_lt _ _)]
    match data, hlen with
    | a :: b :: c :: d :: rest, _ =>
      have ha := a.isLt
      have hb := b.isLt
      have hc := c.isLt
      have hd := d.isLt
      simp only [leWordAt, List.getD_cons_zero, List.getD_cons_succ, Nat.zero_add]
      constructor
      · intro h
        have e1 : a = 255 := Fin.ext (by show a.val = 255; omega)
        have e2 : b = 213 := Fin.ext (by show b.val = 213; omega)
        have e3 : c = 35 := Fin.ext (by show c.val = 35; omega)
        have e4 : d = 20 := Fin.ext (by show d.val = 20; omega)
        exact ⟨rest, by rw [e1, e2, e3, e4]⟩
      · rintro ⟨rest2, h⟩
        simp only [List.cons.injEq] at h
        obtain ⟨e1, e2, e3, e4, _⟩ := h
        subst e1 e2 e3 e4
        rfl
  · have hs : (readInt ⟨data, 0, false⟩).1 = -1 :=
      readInt_short ⟨data, 0, false⟩ (by simp only [Nat.zero_add]; omega)
    rw [hs]
    constructor
    · intro h
      exact absurd h (by decide)
    · rintro ⟨rest, h⟩
      rw [h] at hlen
      simp at hlen

/-- C18: on a fresh stream `loadMetadata` passes the magic check (and goes
on to qct.cpp 650) if and only if the file begins with the four bytes
`FF D5 23 14`; for any other first four bytes, and for a file shorter than
four bytes, it returns false and the object is what it was: width, height,
palette and every metadata field are unchanged. -/
theorem loadMetadata_magic_check (fuel avail : Nat) (q : QCTObject) (data : List (Fin 256)) :
    ((readInt ⟨data, 0, false⟩).1 = QCT_MAGIC ↔
      ∃ rest, data = 255 :: 213 :: 35 :: 20 :: rest) ∧
    ((∃ rest, data = 255 :: 213 :: 35 :: 20 :: rest) →
      q.loadMetadata fuel avail ⟨data, 0, false⟩ = loadBody fuel avail q ⟨data, 4, false⟩) ∧
    ((¬ ∃ rest, data = 255 :: 213 :: 35 :: 20 :: rest) →
      ∃ fp1, q.loadMetadata fuel avail ⟨data, 0, false⟩ = Res.ok (false, q, fp1)) := by
  refine ⟨readInt_magic_iff data, ?_, ?_⟩
  · intro h
    have hm := (readInt_magic_iff data).mpr h
    obtain ⟨rest, hrest⟩ := h
    have hlen : 4 ≤ data.length := by
      rw [hrest]
      simp
    have hpos : (readInt ⟨data, 0, false⟩).2 = ⟨data, 4, false⟩ := by
      rw [readInt_of_four ⟨data, 0, false⟩ rfl (by simpa using hlen)]
    simp only [QCTObject.loadMetadata, hm, ne_eq, not_true_eq_false, if_false, hpos]
  · intro h
    have hm : (readInt ⟨data, 0, false⟩).1 ≠ QCT_MAGIC := fun e => h ((readInt_magic_iff data).mp e)
    exact ⟨(readInt ⟨data, 0, false⟩).2, by
      unfold QCTObject.loadMetadata
      rw [if_pos hm]⟩

/-! ## Stream frames of the readers -/

theorem fgetc_data (fp : FILE) : (fgetc fp).2.data = fp.data := by
  unfold fgetc
  cases fp.data[fp.pos]? <;> rfl

theorem readInt_data (fp : FILE) : (readInt fp).2.data = fp.data := by
  have h : (readInt fp).2 = (fgetc (fgetc (fgetc (fgetc fp).2).2).2).2 := by
    simp only [readInt]
    split_ifs <;> rfl
  rw [h, fgetc_data, fgetc_data, fgetc_data, fgetc_data]

theorem readInt_room (data : List (Fin 256)) (pos : Nat) (eof : Bool)
    (h : pos + 4 ≤ data.length) : (readInt ⟨data, pos, eof⟩).2 = ⟨data, pos + 4, eof⟩ := by
  have hr : (readInt ⟨data, pos, eof⟩).2
      = (fgetc (fgetc (fgetc (fgetc ⟨data, pos, eof⟩).2).2).2).2 := by
    simp only [readInt]
    split_ifs <;> rfl
  rw [hr, fgetc_mk data pos eof (by omega), fgetc_mk data (pos + 1) eof (by omega),
    fgetc_mk data (pos + 1 + 1) eof (by omega), fgetc_mk data (pos + 1 + 1 + 1) eof (by omega)]

theorem readInt_at (data : List (Fin 256)) (pos : Nat) (h : pos + 4 ≤ data.length) :
    readInt ⟨data, pos, false⟩ = (toInt32 (leWordAt data pos), ⟨data, pos + 4, false⟩) :=
  readInt_of_four ⟨data, pos, false⟩ rfl h

theorem readInt_zero_eof (fp : FILE) (h : (readInt fp).1 = 0) : (readInt fp).2.eof = false := by
  simp only [readInt] at h ⊢
  split_ifs at h ⊢ with he
  · simp at h
  · simpa using he

theorem fseek_data (fp : FILE) (off : Int) : (fseek fp off).data = fp.data := by
  unfold fseek
  split_ifs <;> rfl

theorem fseek_ftell (fp fp2 : FILE) :
    fseek fp (ftell fp2) = ⟨fp.data, fp2.pos, false⟩ := by
  unfold fseek ftell
  rw [if_neg (by omega)]
  simp

theorem fseek_natCast (fp : FILE) (off : Nat) : fseek fp (off : Int) = ⟨fp.data, off, false⟩ := by
  unfold fseek
  rw [if_neg (by omega)]
  simp

theorem readBytes_data : ∀ (n : Nat) (fp : FILE), (readBytes n fp).2.data = fp.data := by
  intro n
  induction n with
  | zero => intro fp; rfl
  | succ n ih =>
    intro fp
    rw [readBytes]
    simp only
    rw [ih, fgetc_data]

theorem readBytes_room : ∀ (n : Nat) (data : List (Fin 256)) (pos : Nat) (eof : Bool),
    pos + n ≤ data.length → (readBytes n ⟨data, pos, eof⟩).2 = ⟨data, pos + n, eof⟩ := by
  intro n
  induction n with
  | zero => intro data pos eof _; rfl
  | succ n ih =>
    intro data pos eof h
    rw [readBytes]
    simp only
    rw [fgetc_mk data pos eof (by omega), ih data (pos + 1) eof (by omega)]
    simp only [FILE.mk.injEq, true_and, and_true]
    omega

theorem readDouble_room (data : List (Fin 256)) (pos : Nat) (eof : Bool)
    (h : pos + 8 ≤ data.length) : (readDouble ⟨data, pos, eof⟩).2 = ⟨data, pos + 8, eof⟩ :=
  readBytes_room 8 data pos eof h

theorem readDouble_data (fp : FILE) : (readDouble fp).2.data = fp.data := readBytes_data 8 fp

theorem readStringLoop_data : ∀ (fuel : Nat) (fp : FILE) (acc : List Nat) (buf_length : Nat)
    (r : List Nat × FILE),
    readStringLoop fuel fp acc buf_length = Res.ok r → r.2.data = fp.data := by
  intro fuel
  induction fuel with
  | zero => intro fp acc buf_length r h; cases h
  | succ fuel ih =>
    intro fp acc buf_length r h
    rw [readStringLoop] at h
    split_ifs at h
    · simp only [Res.ok.injEq] at h
      rw [← h]
      exact fgetc_data fp
    · rw [ih _ _ _ _ h, fgetc_data]
    · rw [ih _ _ _ _ h, fgetc_data]

theorem bind_eq_ok {α β : Type} (x : Res α) (f : α → Res β) (r : β)
    (h : x.bind f = Res.ok r) : ∃ a, x = Res.ok a ∧ f a = Res.ok r := by
  cases x with
  | ok a => exact ⟨a, rfl, h⟩
  | fault => cases h
  | outOfFuel => cases h

theorem map_eq_ok {α β : Type} (f : α → β) (x : Res α) (b : β) (h : x.map f = Res.ok b) :
    ∃ a, x = Res.ok a ∧ f a = b := by
  cases x with
  | ok a => exact ⟨a, rfl, by simpa [Res.map] using h⟩
  | fault => cases h
  | outOfFuel => cases h

/-- A finished `readString` leaves the stream at the position reached after
the four bytes of the string pointer, with the end-of-file indicator
clear. -/
theorem readString_frame (fuel : Nat) (fp : FILE) (r : List Nat × FILE)
    (h : readString fuel fp = Res.ok r) :
    r.2 = ⟨fp.data, (readInt fp).2.pos, false⟩ := by
  unfold readString at h
  split_ifs at h with h0
  · simp only [Res.ok.injEq] at h
    rw [← h]
    have e := readInt_zero_eof fp h0
    have d := readInt_data fp
    cases hr : (readInt fp).2 with
    | mk data pos eof =>
      rw [hr] at e d
      simp only at e d
      rw [e, d]
  · obtain ⟨a, ha, hf⟩ := bind_eq_ok _ _ _ h
    simp only [Res.ok.injEq] at hf
    rw [← hf, fseek_ftell]
    have := readStringLoop_data _ _ _ _ _ ha
    rw [fseek_data, readInt_data] at this
    simp only [this]

theorem readString_frame_at (fuel : Nat) (data : List (Fin 256)) (pos : Nat) (eof : Bool)
    (r : List Nat × FILE) (hroom : pos + 4 ≤ data.length)
    (h : readString fuel ⟨data, pos, eof⟩ = Res.ok r) : r.2 = ⟨data, pos + 4, false⟩ := by
  rw [readString_frame fuel _ r h, readInt_room data pos eof hroom]

/-- Decomposition of a `readString` call followed by the rest of a block. -/
theorem readString_bind_ok {β : Type} (fuel : Nat) (data : List (Fin 256)) (pos : Nat)
    (eof : Bool) (f : List Nat × FILE → Res β) (r : β) (hroom : pos + 4 ≤ data.length)
    (h : (readString fuel ⟨data, pos, eof⟩).bind f = Res.ok r) :
    ∃ s, readString fuel ⟨data, pos, eof⟩ = Res.ok (s, ⟨data, pos + 4, false⟩) ∧
      f (s, ⟨data, pos + 4, false⟩) = Res.ok r := by
  obtain ⟨a, ha, hf⟩ := bind_eq_ok _ _ _ h
  have hfr := readString_frame_at fuel data pos eof a hroom ha
  obtain ⟨s, fp2⟩ := a
  simp only at hfr
  subst hfr
  exact ⟨s, ha, hf⟩

/-! ## The fixed header -/

/-- A finished header part read from offset 4 ends at offset 84: width and
height are the words at 8 and 12, the twelve strings are read at 16 .. 60,
the flags are the word at 64 and the file name is read at 68. -/
theorem loadHeader_ok (fuel : Nat) (q : QCTObject) (data : List (Fin 256))
    (r : QCTObject × FILE) (hroom : 84 ≤ data.length)
    (h : loadHeader fuel q ⟨data, 4, false⟩ = Res.ok r) :
    r.2 = ⟨data, 84, false⟩ ∧
    r.1.width = toInt32 (leWordAt data 8) ∧
    r.1.height = toInt32 (leWordAt data 12) ∧
    r.1.metadata.flags = toInt32 (leWordAt data 64) ∧
    (∃ s, readString fuel ⟨data, 68, false⟩ = Res.ok (s, ⟨data, 72, false⟩) ∧
      r.1.metadata.origfilename = some s) ∧
    (∃ s, readString fuel ⟨data, 16, false⟩ = Res.ok (s, ⟨data, 20, false⟩) ∧
      r.1.metadata.title = some s) ∧
    (∃ s, readString fuel ⟨data, 60, false⟩ = Res.ok (s, ⟨data, 64, false⟩) ∧
      r.1.metadata.projection = some s) := by
  simp only [loadHeader, readInt_at data 4 (by omega), readInt_at data 8 (by omega),
    readInt_at data 12 (by omega), bind, pure, Nat.reduceAdd] at h
  obtain ⟨s1, hs1, h⟩ := readString_bind_ok fuel data 16 false _ r (by omega) h
  simp only [Nat.reduceAdd] at h
  obtain ⟨s2, _, h⟩ := readString_bind_ok fuel data 20 false _ r (by omega) h
  simp only [Nat.reduceAdd] at h
  obtain ⟨s3, _, h⟩ := readString_bind_ok fuel data 24 false _ r (by omega) h
  simp only [Nat.reduceAdd] at h
  obtain ⟨s4, _, h⟩ := readString_bind_ok fuel data 28 false _ r (by omega) h
  simp only [Nat.reduceAdd] at h
  obtain ⟨s5, _, h⟩ := readString_bind_ok fuel data 32 false _ r (by omega) h
  simp only [Nat.reduceAdd] at h
  obtain ⟨s6, _, h⟩ := readString_bind_ok fuel data 36 false _ r (by omega) h
  simp only [Nat.reduceAdd] at h
  obtain ⟨s7, _, h⟩ := readString_bind_ok fuel data 40 false _ r (by omega) h
  simp only [Nat.reduceAdd] at h
  obtain ⟨s8, _, h⟩ := readString_bind_ok fuel data 44 false _ r (by omega) h
  simp only [Nat.reduceAdd] at h
  obtain ⟨s9, _, h⟩ := readString_bind_ok fuel data 48 false _ r (by omega) h
  simp only [Nat.reduceAdd] at h
  obtain ⟨s10, _, h⟩ := readString_bind_ok fuel data 52 false _ r (by omega) h
  simp only [Nat.reduceAdd] at h
  obtain ⟨s11, _, h⟩ := readString_bind_ok fuel data 56 false _ r (by omega) h
  simp only [Nat.reduceAdd] at h
  obtain ⟨s12, hs12, h⟩ := readString_bind_ok fuel data 60 false _ r (by omega) h
  simp only [Nat.reduceAdd, readInt_at data 64 (by omega)] at h
  obtain ⟨s13, hs, h⟩ := readString_bind_ok fuel data 68 false _ r (by omega) h
  simp only [Nat.reduceAdd, readInt_at data 72 (by omega), readInt_at data 76 (by omega),
    readInt_at data 80 (by omega), Res.ok.injEq] at h
  subst h
  exact ⟨rfl, rfl, rfl, rfl, ⟨s13, hs, rfl⟩, ⟨s1, hs1, rfl⟩, ⟨s12, hs12, rfl⟩⟩

/-! ## The extended metadata -/

theorem readString_data (fuel : Nat) (fp : FILE) (r : List Nat × FILE)
    (h : readString fuel fp = Res.ok r) : r.2.data = fp.data := by
  rw [readString_frame fuel fp r h]

theorem loadSerial_data (q : QCTObject) (fp : FILE) : (loadSerial q fp).2.data = fp.data := by
  unfold loadSerial
  simp only
  split_ifs
  · rw [fseek_data, readInt_data, fseek_data, readInt_data]
  · rw [readInt_data]

theorem loadSerial_obj (q : QCTObject) (fp : FILE) :
    ∃ ls, (loadSerial q fp).1 = { q with metadata := { q.metadata with license_serial := ls } } := by
  unfold loadSerial
  simp only
  split_ifs
  · exact ⟨_, rfl⟩
  · exact ⟨q.metadata.license_serial, rfl⟩

theorem loadLicense_ok (fuel : Nat) (q : QCTObject) (fp : FILE) (r : QCTObject × FILE)
    (h : loadLicense fuel q fp = Res.ok r) :
    r.2.data = fp.data ∧
    ∃ li ld ls, r.1 = { q with metadata := { q.metadata with
      license_identifier := li, license_description := ld, license_serial := ls } } := by
  unfold loadLicense at h
  simp only [bind, pure] at h
  split_ifs at h with h0
  · obtain ⟨a, ha, hf⟩ := bind_eq_ok _ _ _ h
    have hd := readString_data fuel _ a ha
    simp only [Res.ok.injEq] at hf
    subst hf
    refine ⟨?_, ?_⟩
    · simp only [fseek_data, readInt_data, loadSerial_data, hd]
    · obtain ⟨ls, hls⟩ := loadSerial_obj
        { q with metadata := { q.metadata with
            license_identifier := (readInt (fseek (readInt fp).2 (readInt fp).1)).1,
            license_description := some a.1 } } a.2
      exact ⟨_, _, ls, hls⟩
  · simp only [Res.ok.injEq] at h
    subst h
    exact ⟨readInt_data fp, q.metadata.license_identifier, q.metadata.license_description,
      q.metadata.license_serial, rfl⟩

theorem loadExtended_ok (fuel : Nat) (q : QCTObject) (data : List (Fin 256))
    (r : QCTObject × FILE) (hroom : 88 ≤ data.length)
    (h : loadExtended fuel q ⟨data, 84, false⟩ = Res.ok r) :
    r.2 = ⟨data, 88, false⟩ ∧
    ∃ s fp1, readString fuel (fseek ⟨data, 88, false⟩ (toInt32 (leWordAt data 84)))
        = Res.ok (s, fp1) ∧
      ∃ n e dn u2 u3 li ld ls ad u6, r.1 = { q with
        datum_shift_north := n, datum_shift_east := e,
        metadata := { q.metadata with
          maptype := some s, diskname := dn, unknown2 := u2, unknown3 := u3,
          license_identifier := li, license_description := ld, license_serial := ls,
          associateddata := ad, unknown6 := u6 } } := by
  unfold loadExtended at h
  simp only [bind, pure, readInt_at data 84 (by omega), Nat.reduceAdd] at h
  obtain ⟨a1, ha1, h⟩ := bind_eq_ok _ _ _ h
  have hd1 := readString_data fuel _ a1 ha1
  obtain ⟨a2, ha2, h⟩ := bind_eq_ok _ _ _ h
  have hd2 := readString_data fuel _ a2 ha2
  obtain ⟨a3, ha3, h⟩ := bind_eq_ok _ _ _ h
  obtain ⟨hd3, li, ld, ls, ho3⟩ := loadLicense_ok fuel _ _ a3 ha3
  obtain ⟨a4, ha4, h⟩ := bind_eq_ok _ _ _ h
  have hd4 := readString_data fuel _ a4 ha4
  simp only [Res.ok.injEq] at h
  subst h
  refine ⟨?_, a1.1, a1.2, ha1, ?_⟩
  · rw [fseek_ftell]
    simp only [readInt_data, hd4, hd3, hd2, fseek_data, readDouble_data, hd1]
  · simp only
    rw [ho3]
    exact ⟨_, _, _, _, _, _, _, _, _, _, rfl⟩

/-! ## The outline and the tables -/

theorem readOutline_data : ∀ (n outline : Nat) (fp : FILE) (lat lon : Nat → RawDouble),
    (readOutline n outline fp lat lon).1.data = fp.data := by
  intro n
  induction n with
  | zero => intro outline fp lat lon; rfl
  | succ n ih =>
    intro outline fp lat lon
    rw [readOutline, ih, readDouble_data, readDouble_data]

theorem calloc_isSome (avail : Nat) (nmemb size : Int) (h : calloc avail nmemb size ≠ none) :
    calloc avail nmemb size
      = some ((nmemb % 18446744073709551616).toNat * (size % 18446744073709551616).toNat) := by
  unfold calloc at h ⊢
  split_ifs at h ⊢ with hc
  · rfl
  · exact absurd rfl h

/-- A finished outline part leaves the stream at offset 96: the number of
points is the word at 88 and the points are read at the offset stored in the
word at 92. -/
theorem loadOutline_ok (avail : Nat) (q : QCTObject) (data : List (Fin 256))
    (hroom : 96 ≤ data.length) (h : (loadOutline avail q ⟨data, 88, false⟩).1 = true) :
    (loadOutline avail q ⟨data, 88, false⟩).2.2 = ⟨data, 96, false⟩ ∧
    (loadOutline avail q ⟨data, 88, false⟩).2.1 = { q with metadata := { q.metadata with
      num_outline := toInt32 (leWordAt data 88),
      outline_lat := some (readOutline (toInt32 (leWordAt data 88)).toNat 0
        (fseek ⟨data, 96, false⟩ (toInt32 (leWordAt data 92)))
        (fun _ => [0, 0, 0, 0, 0, 0, 0, 0]) (fun _ => [0, 0, 0, 0, 0, 0, 0, 0])).2.1,
      outline_lon := some (readOutline (toInt32 (leWordAt data 88)).toNat 0
        (fseek ⟨data, 96, false⟩ (toInt32 (leWordAt data 92)))
        (fun _ => [0, 0, 0, 0, 0, 0, 0, 0]) (fun _ => [0, 0, 0, 0, 0, 0, 0, 0])).2.2 } } := by
  unfold loadOutline at h ⊢
  simp only [readInt_at data 88 (by omega), readInt_at data 92 (by omega), Nat.reduceAdd]
    at h ⊢
  split_ifs at h ⊢ with hc
  refine ⟨?_, rfl⟩
  simp only
  rw [fseek_ftell]
  simp only [readOutline_data, fseek_data]

/-- The forty coefficients occupy the 320 bytes after the start of the
block. -/
theorem readGeoref_room (data : List (Fin 256)) (pos : Nat) (eof : Bool)
    (h : pos + 320 ≤ data.length) :
    (readGeoref ⟨data, pos, eof⟩).2 = ⟨data, pos + 320, eof⟩ := by
  unfold readGeoref
  dsimp only
  simp (disch := omega) only [readDouble_room, Nat.add_assoc, Nat.reduceAdd]

theorem readInts_eq : ∀ (n ii : Nat) (data : List (Fin 256)) (pos : Nat) (a : Nat → Int),
    pos + 4 * n ≤ data.length →
    readInts n ii ⟨data, pos, false⟩ a
      = (⟨data, pos + 4 * n, false⟩,
         fun i => if ii ≤ i ∧ i < ii + n then toInt32 (leWordAt data (pos + 4 * (i - ii)))
                  else a i) := by
  intro n
  induction n with
  | zero =>
    intro ii data pos a _
    rw [readInts]
    congr 1
    funext i
    rw [if_neg (by omega)]
  | succ n ih =>
    intro ii data pos a h
    rw [readInts, readInt_at data pos (by omega), ih (ii + 1) data (pos + 4) _ (by omega)]
    congr 1
    · congr 1
      omega
    · funext i
      by_cases h1 : ii + 1 ≤ i ∧ i < ii + 1 + n
      · rw [if_pos h1, if_pos (by omega)]
        congr 2
        omega
      · rw [if_neg h1]
        by_cases h2 : i = ii
        · subst h2
          rw [Function.update_same, if_pos (by omega)]
          simp
        · rw [Function.update_noteq h2, if_neg (by omega)]

theorem readInterpRow_eq (ii : Nat) : ∀ (n jj : Nat) (data : List (Fin 256)) (pos : Nat)
    (m : Nat → Nat → Nat), pos + n ≤ data.length →
    readInterpRow ii n jj ⟨data, pos, false⟩ m
      = (⟨data, pos + n, false⟩,
         fun a b => if a = ii ∧ jj ≤ b ∧ b < jj + n then (data.getD (pos + (b - jj)) 0).val
                    else m a b) := by
  intro n
  induction n with
  | zero =>
    intro jj data pos m _
    rw [readInterpRow]
    congr 1
    funext a b
    rw [if_neg (by omega)]
  | succ n ih =>
    intro jj data pos m h
    rw [readInterpRow, fgetc_mk data pos false (by omega), ih (jj + 1) data (pos + 1) _ (by omega)]
    congr 1
    · congr 1
      omega
    · funext a b
      simp only [toUChar_byte]
      by_cases h1 : a = ii ∧ jj + 1 ≤ b ∧ b < jj + 1 + n
      · rw [if_pos h1, if_pos (by omega)]
        congr 2
        omega
      · rw [if_neg h1]
        by_cases h2 : a = ii ∧ b = jj
        · rw [if_pos h2, if_pos (by omega)]
          obtain ⟨_, h3⟩ := h2
          subst h3
          simp
        · rw [if_neg h2, if_neg (by omega)]

theorem readInterp_eq : ∀ (n ii : Nat) (data : List (Fin 256)) (pos : Nat)
    (m : Nat → Nat → Nat), pos + 128 * n ≤ data.length →
    readInterp n ii ⟨data, pos, false⟩ m
      = (⟨data, pos + 128 * n, false⟩,
         fun a b => if ii ≤ a ∧ a < ii + n ∧ b < 128
                    then (data.getD (pos + 128 * (a - ii) + b) 0).val else m a b) := by
  intro n
  induction n with
  | zero =>
    intro ii data pos m _
    rw [readInterp]
    congr 1
    funext a b
    rw [if_neg (by omega)]
  | succ n ih =>
    intro ii data pos m h
    rw [readInterp, readInterpRow_eq ii 128 0 data pos m (by omega)]
    simp only
    rw [ih (ii + 1) data (pos + 128) _ (by omega)]
    congr 1
    · congr 1
      omega
    · funext a b
      by_cases h1 : ii + 1 ≤ a ∧ a < ii + 1 + n ∧ b < 128
      · rw [if_pos h1, if_pos (by omega)]
        congr 2
        omega
      · rw [if_neg h1]
        by_cases h2 : a = ii ∧ b < 128
        · rw [if_pos (by omega), if_pos (by omega)]
          congr 2
          omega
        · rw [if_neg (by omega), if_neg (by omega)]

/-- A finished table part: the palette is the 256 words from offset
`pos + 320`, the interpolation matrix the 16384 bytes from `pos + 1344`, the
tile index the words from `pos + 17728`. -/
theorem loadTables_ok (avail : Nat) (q : QCTObject) (data : List (Fin 256)) (pos : Nat)
    (hroom : pos + 17728 + 4 * (q.width * q.height).toNat ≤ data.length)
    (h : (loadTables avail q ⟨data, pos, false⟩).1 = true) :
    (loadTables avail q ⟨data, pos, false⟩).2.1 = { q with
      georef := (readGeoref ⟨data, pos, false⟩).1,
      palette := fun i => if 0 ≤ i ∧ i < 0 + 256
        then toInt32 (leWordAt data (pos + 320 + 4 * (i - 0))) else q.palette i,
      pal_interp := fun a b => if 0 ≤ a ∧ a < 0 + 128 ∧ b < 128
        then (data.getD (pos + 320 + 4 * 256 + 128 * (a - 0) + b) 0).val else q.pal_interp a b,
      metadata := { q.metadata with
        image_index := some (fun j => if 0 ≤ j ∧ j < 0 + (q.width * q.height).toNat
          then toInt32 (leWordAt data (pos + 320 + 4 * 256 + 128 * 128 + 4 * (j - 0)))
          else 0) } } := by
  unfold loadTables at h ⊢
  simp only [readGeoref_room data pos false (by omega),
    readInts_eq 256 0 data (pos + 320) q.palette (by omega),
    readInterp_eq 128 0 data (pos + 320 + 4 * 256) q.pal_interp (by omega)] at h ⊢
  cases hc : calloc avail (q.width * q.height) 8 with
  | none =>
    rw [hc] at h
    simp at h
  | some size =>
    simp only
    rw [readInts_eq _ 0 data _ _ (by omega)]

/-- A successful `loadMetadata` on a file of at least 96 bytes is the
sequence of its four parts, entered at the offsets 4, 84, 88 and 96. -/
theorem loadMetadata_parts (fuel avail : Nat) (q q4 : QCTObject) (data : List (Fin 256))
    (fp4 : FILE) (hroom : 96 ≤ data.length)
    (h : q.loadMetadata fuel avail ⟨data, 0, false⟩ = Res.ok (true, q4, fp4)) :
    toInt32 (leWordAt data 0) = QCT_MAGIC ∧
    ∃ q1 q2 q3,
      loadHeader fuel q ⟨data, 4, false⟩ = Res.ok (q1, ⟨data, 84, false⟩) ∧
      loadExtended fuel q1 ⟨data, 84, false⟩ = Res.ok (q2, ⟨data, 88, false⟩) ∧
      loadOutline avail q2 ⟨data, 88, false⟩ = (true, q3, ⟨data, 96, false⟩) ∧
      loadTables avail q3 ⟨data, 96, false⟩ = (true, q4, fp4) := by
  unfold QCTObject.loadMetadata at h
  rw [readInt_at data 0 (by omega)] at h
  simp only [Nat.reduceAdd] at h
  split_ifs at h with hm
  · simp at h
  · refine ⟨not_not.mp hm, ?_⟩
    unfold loadBody at h
    simp only [bind, pure] at h
    obtain ⟨a1, ha1, h⟩ := bind_eq_ok _ _ _ h
    obtain ⟨hf1, -⟩ := loadHeader_ok fuel q data a1 (by omega) ha1
    obtain ⟨q1, f1⟩ := a1
    simp only at hf1 h
    subst hf1
    obtain ⟨a2, ha2, h⟩ := bind_eq_ok _ _ _ h
    obtain ⟨hf2, -⟩ := loadExtended_ok fuel q1 data a2 (by omega) ha2
    obtain ⟨q2, f2⟩ := a2
    simp only at hf2 h
    subst hf2
    refine ⟨q1, q2, (loadOutline avail q2 ⟨data, 88, false⟩).2.1, ha1, ha2, ?_⟩
    split_ifs at h with ho
    · simp only [Res.ok.injEq] at h
      rw [h] at ho
      simp at ho
    · have ho1 : (loadOutline avail q2 ⟨data, 88, false⟩).1 = true := by simpa using ho
      have hf3 := (loadOutline_ok avail q2 data hroom ho1).1
      simp only [Res.ok.injEq] at h
      rw [hf3] at h
      refine ⟨?_, h⟩
      rw [← hf3, ← ho1]

/-! ## The concrete map file -/

theorem sampleFile_length : sampleFile.length = 17828 := by
  simp [sampleFile]

theorem sampleFile_getD (i : Nat) (h : i < 17828) : sampleFile.getD i 0 = sampleByte i := by
  unfold sampleFile
  rw [List.getD_eq_getElem _ _ (by simpa using h)]
  simp

theorem sampleFile_word (p : Nat) (h : p + 4 ≤ 17828) :
    leWordAt sampleFile p = (sampleByte p).val + 256 * (sampleByte (p + 1)).val
      + 65536 * (sampleByte (p + 2)).val + 16777216 * (sampleByte (p + 3)).val := by
  unfold leWordAt
  rw [sampleFile_getD p (by omega), sampleFile_getD (p + 1) (by omega),
    sampleFile_getD (p + 2) (by omega), sampleFile_getD (p + 3) (by omega)]

theorem sampleFile_word_zero (p : Nat) (h : p + 4 ≤ 17828)
    (hp : (13 ≤ p ∧ p ≤ 80) ∨ (85 ≤ p ∧ p ≤ 412)) : toInt32 (leWordAt sampleFile p) = 0 := by
  rw [sampleFile_word p h]
  have e : ∀ i, (13 ≤ i ∧ i ≤ 83) ∨ (85 ≤ i ∧ i ≤ 415) → sampleByte i = 0 := by
    intro i hi
    unfold sampleByte
    repeat rw [if_neg (by omega)]
  rw [e p (by omega), e (p + 1) (by omega), e (p + 2) (by omega), e (p + 3) (by omega)]
  rfl

theorem readString_null (fuel : Nat) (data : List (Fin 256)) (pos : Nat)
    (hroom : pos + 4 ≤ data.length) (h0 : toInt32 (leWordAt data pos) = 0) :
    readString fuel ⟨data, pos, false⟩ = Res.ok ([], ⟨data, pos + 4, false⟩) := by
  unfold readString
  rw [readInt_at data pos hroom, if_pos h0]

theorem sampleFile_string (fuel p : Nat) (h : p + 4 ≤ 17828)
    (hp : (13 ≤ p ∧ p ≤ 80) ∨ (85 ≤ p ∧ p ≤ 412)) :
    readString fuel ⟨sampleFile, p, false⟩ = Res.ok ([], ⟨sampleFile, p + 4, false⟩) :=
  readString_null fuel sampleFile p (by rw [sampleFile_length]; exact h)
    (sampleFile_word_zero p h hp)

theorem sampleFile_int (p : Nat) (h : p + 4 ≤ 17828)
    (hp : (13 ≤ p ∧ p ≤ 80) ∨ (85 ≤ p ∧ p ≤ 412)) :
    readInt ⟨sampleFile, p, false⟩ = (0, ⟨sampleFile, p + 4, false⟩) := by
  rw [readInt_at sampleFile p (by rw [sampleFile_length]; exact h), sampleFile_word_zero p h hp]

theorem sampleFile_int_at (p : Nat) (h : p + 4 ≤ 17828) :
    readInt ⟨sampleFile, p, false⟩
      = (toInt32 (leWordAt sampleFile p), ⟨sampleFile, p + 4, false⟩) :=
  readInt_at sampleFile p (by rw [sampleFile_length]; exact h)

theorem ok_bind {α β : Type} (a : α) (f : α → Res β) : (Res.ok a).bind f = f a := rfl

theorem sampleFile_header (fuel : Nat) (q : QCTObject) :
    ∃ q1, loadHeader fuel q ⟨sampleFile, 4, false⟩ = Res.ok (q1, ⟨sampleFile, 84, false⟩) := by
  unfold loadHeader
  simp only [sampleFile_int_at 4 (by omega), sampleFile_int_at 8 (by omega),
    sampleFile_int_at 12 (by omega), bind, pure, Nat.reduceAdd]
  rw [sampleFile_string fuel 16 (by omega) (by omega), ok_bind]
  simp only [Nat.reduceAdd]
  rw [sampleFile_string fuel 20 (by omega) (by omega), ok_bind]
  simp only [Nat.reduceAdd]
  rw [sampleFile_string fuel 24 (by omega) (by omega), ok_bind]
  simp only [Nat.reduceAdd]
  rw [sampleFile_string fuel 28 (by omega) (by omega), ok_bind]
  simp only [Nat.reduceAdd]
  rw [sampleFile_string fuel 32 (by omega) (by omega), ok_bind]
  simp only [Nat.reduceAdd]
  rw [sampleFile_string fuel 36 (by omega) (by omega), ok_bind]
  simp only [Nat.reduceAdd]
  rw [sampleFile_string fuel 40 (by omega) (by omega), ok_bind]
  simp only [Nat.reduceAdd]
  rw [sampleFile_string fuel 44 (by omega) (by omega), ok_bind]
  simp only [Nat.reduceAdd]
  rw [sampleFile_string fuel 48 (by omega) (by omega), ok_bind]
  simp only [Nat.reduceAdd]
  rw [sampleFile_string fuel 52 (by omega) (by omega), ok_bind]
  simp only [Nat.reduceAdd]
  rw [sampleFile_string fuel 56 (by omega) (by omega), ok_bind]
  simp only [Nat.reduceAdd]
  rw [sampleFile_string fuel 60 (by omega) (by omega), ok_bind]
  simp only [Nat.reduceAdd, sampleFile_int 64 (by omega) (by omega)]
  rw [sampleFile_string fuel 68 (by omega) (by omega), ok_bind]
  simp only [Nat.reduceAdd, sampleFile_int 72 (by omega) (by omega),
    sampleFile_int 76 (by omega) (by omega), sampleFile_int 80 (by omega) (by omega)]
  exact ⟨_, rfl⟩

theorem sampleFile_pointer : toInt32 (leWordAt sampleFile 84) = 96 := by
  rw [sampleFile_word 84 (by omega)]
  rfl

theorem sampleFile_double (p : Nat) (eof : Bool) (h : p + 8 ≤ 17828) :
    (readDouble ⟨sampleFile, p, eof⟩).2 = ⟨sampleFile, p + 8, eof⟩ :=
  readDouble_room sampleFile p eof (by rw [sampleFile_length]; exact h)

theorem sampleFile_extended (fuel : Nat) (q : QCTObject) :
    ∃ q2, loadExtended fuel q ⟨sampleFile, 84, false⟩
      = Res.ok (q2, ⟨sampleFile, 88, false⟩) := by
  have hs96 : fseek ⟨sampleFile, 88, false⟩ 96 = ⟨sampleFile, 96, false⟩ := by
    simp [fseek]
  have hs0 : fseek ⟨sampleFile, 104, false⟩ 0 = ⟨sampleFile, 0, false⟩ := by
    simp [fseek]
  have hlic : ∀ q1, loadLicense fuel q1 ⟨sampleFile, 116, false⟩
      = Res.ok (q1, ⟨sampleFile, 120, false⟩) := by
    intro q1
    unfold loadLicense
    simp only [sampleFile_int 116 (by omega) (by omega), ne_eq, not_true_eq_false, if_false]
  unfold loadExtended
  simp only [sampleFile_int_at 84 (by omega), sampleFile_pointer, hs96, bind, pure,
    Nat.reduceAdd]
  rw [sampleFile_string fuel 96 (by omega) (by omega)]
  simp only [ok_bind, sampleFile_int 100 (by omega) (by omega), hs0, Nat.reduceAdd,
    sampleFile_double 0 false (by omega), sampleFile_double 8 false (by omega), fseek_ftell]
  rw [sampleFile_string fuel 104 (by omega) (by omega)]
  simp only [ok_bind, sampleFile_int 108 (by omega) (by omega),
    sampleFile_int 112 (by omega) (by omega), Nat.reduceAdd, hlic]
  rw [sampleFile_string fuel 120 (by omega) (by omega)]
  simp only [ok_bind, sampleFile_int 124 (by omega) (by omega), Nat.reduceAdd, fseek_ftell]
  exact ⟨_, rfl⟩

theorem loadTables_true (avail : Nat) (q : QCTObject) (fp : FILE) (size : Nat)
    (h : calloc avail (q.width * q.height) 8 = some size) : (loadTables avail q fp).1 = true := by
  unfold loadTables
  simp only [h]

theorem sampleFile_magic : toInt32 (leWordAt sampleFile 0) = QCT_MAGIC := by
  rw [sampleFile_word 0 (by omega)]
  rfl

theorem sampleFile_width : toInt32 (leWordAt sampleFile 8) = 1 := by
  rw [sampleFile_word 8 (by omega)]
  rfl

theorem sampleFile_height : toInt32 (leWordAt sampleFile 12) = 1 := by
  rw [sampleFile_word 12 (by omega)]
  rfl

theorem sampleFile_outline (avail : Nat) (q : QCTObject) :
    (loadOutline avail q ⟨sampleFile, 88, false⟩).1 = true := by
  have hc : calloc avail 0 8 = some 0 := by simp [calloc]
  unfold loadOutline
  simp only [sampleFile_int 88 (by omega) (by omega), hc]
  simp

/-- The concrete file is accepted by `loadMetadata`, with any fuel, when the
allocator grants eight bytes. -/
theorem sampleFile_loads (fuel avail : Nat) (q : QCTObject) (havail : 8 ≤ avail) :
    ∃ q4 fp4, q.loadMetadata fuel avail ⟨sampleFile, 0, false⟩ = Res.ok (true, q4, fp4) := by
  have hlen : 96 ≤ sampleFile.length := by rw [sampleFile_length]; omega
  obtain ⟨q1, h1⟩ := sampleFile_header fuel q
  obtain ⟨q2, h2⟩ := sampleFile_extended fuel q1
  obtain ⟨-, hw, hh, -⟩ := loadHeader_ok fuel q sampleFile _ (by omega) h1
  obtain ⟨-, s, fp1, -, n, e, dn, u2, u3, li, ld, ls, ad, u6, hq2⟩ :=
    loadExtended_ok fuel q1 sampleFile _ (by omega) h2
  have h3 := sampleFile_outline avail q2
  obtain ⟨hf3, hq3⟩ := loadOutline_ok avail q2 sampleFile hlen h3
  simp only at hw hh hq2
  have hw3 : (loadOutline avail q2 ⟨sampleFile, 88, false⟩).2.1.width = 1 := by
    rw [hq3, hq2]
    simp only
    rw [hw, sampleFile_width]
  have hh3 : (loadOutline avail q2 ⟨sampleFile, 88, false⟩).2.1.height = 1 := by
    rw [hq3, hq2]
    simp only
    rw [hh, sampleFile_height]
  have hc : calloc avail ((loadOutline avail q2 ⟨sampleFile, 88, false⟩).2.1.width
      * (loadOutline avail q2 ⟨sampleFile, 88, false⟩).2.1.height) 8 = some 8 := by
    rw [hw3, hh3]
    simp [calloc, havail]
  have h4 := loadTables_true avail _ (loadOutline avail q2 ⟨sampleFile, 88, false⟩).2.2 8 hc
  refine ⟨(loadTables avail (loadOutline avail q2 ⟨sampleFile, 88, false⟩).2.1
      (loadOutline avail q2 ⟨sampleFile, 88, false⟩).2.2).2.1,
    (loadTables avail (loadOutline avail q2 ⟨sampleFile, 88, false⟩).2.1
      (loadOutline avail q2 ⟨sampleFile, 88, false⟩).2.2).2.2, ?_⟩
  unfold QCTObject.loadMetadata
  rw [sampleFile_int_at 0 (by omega)]
  simp only [sampleFile_magic, ne_eq, not_true_eq_false, if_false, Nat.reduceAdd]
  unfold loadBody
  simp only [bind, pure]
  rw [h1, ok_bind]
  simp only
  rw [h2, ok_bind]
  simp only
  rw [if_neg (by rw [h3]; decide), ← h4]

/-! ## The restores inside the extended metadata -/

/-- The three tables of a successfully loaded file that holds them
completely, entry by entry. -/
theorem loadMetadata_tables_at (fuel avail : Nat) (q q4 : QCTObject)
    (data : List (Fin 256)) (fp4 : FILE)
    (hroom : 17824 + 4 * (toInt32 (leWordAt data 8) * toInt32 (leWordAt data 12)).toNat
      ≤ data.length)
    (h : q.loadMetadata fuel avail ⟨data, 0, false⟩ = Res.ok (true, q4, fp4)) :
    q4.width = toInt32 (leWordAt data 8) ∧ q4.height = toInt32 (leWordAt data 12) ∧
    (∀ i, i < 256 → q4.palette i = toInt32 (leWordAt data (416 + 4 * i))) ∧
    (∀ a b, a < 128 → b < 128 → q4.pal_interp a b = (data.getD (1440 + 128 * a + b) 0).val) ∧
    ∃ image_index, q4.metadata.image_index = some image_index ∧
      ∀ j, j < (q4.width * q4.height).toNat →
        image_index j = toInt32 (leWordAt data (17824 + 4 * j)) := by
  obtain ⟨-, q1, q2, q3, h1, h2, h3, h4⟩ :=
    loadMetadata_parts fuel avail q q4 data fp4 (by omega) h
  obtain ⟨-, hw, hh, -⟩ := loadHeader_ok fuel q data _ (by omega) h1
  obtain ⟨-, sm, fp1, -, n, e, dn, u2, u3, li, ld, ls, ad, u6, hq2⟩ :=
    loadExtended_ok fuel q1 data _ (by omega) h2
  have hq3 := (loadOutline_ok avail q2 data (by omega) (by rw [h3])).2
  rw [h3] at hq3
  simp only at hw hh hq2 hq3
  have hw3 : q3.width = toInt32 (leWordAt data 8) := by rw [hq3, hq2]; exact hw
  have hh3 : q3.height = toInt32 (leWordAt data 12) := by rw [hq3, hq2]; exact hh
  have hq4 := loadTables_ok avail q3 data 96 (by rw [hw3, hh3]; omega) (by rw [h4])
  rw [h4] at hq4
  simp only at hq4
  subst hq4
  refine ⟨hw3, hh3, ?_, ?_, _, rfl, ?_⟩
  · intro i hi
    simp only
    rw [if_pos (by omega)]
    congr 2
  · intro a b ha hb
    simp only
    rw [if_pos (by omega)]
    congr 2
  · intro j hj
    simp only at hj ⊢
    rw [if_pos (by omega)]
    congr 2


/-- C20 (amended): when `loadMetadata` succeeds on a file that holds the
complete tables, palette entry `i` (`i` in 0..255) is the little-endian word
at file offset `416 + 4*i`, the interpolation matrix entry `[a][b]` is the
byte at offset `1440 + 128*a + b`, and tile-index entry `j` (below
`width * height`, the words at offsets 8 and 12) is the word at offset
`17824 + 4*j`: the tables follow the 40 coefficients of 8 bytes that start at
offset 96. -/
theorem loadMetadata_table_offsets (fuel avail : Nat) (q q4 : QCTObject)
    (data : List (Fin 256)) (fp4 : FILE)
    (hroom : 17824 + 4 * (toInt32 (leWordAt data 8) * toInt32 (leWordAt data 12)).toNat
      ≤ data.length)
    (h : q.loadMetadata fuel avail ⟨data, 0, false⟩ = Res.ok (true, q4, fp4)) :
    q4.width = toInt32 (leWordAt data 8) ∧ q4.height = toInt32 (leWordAt data 12) ∧
    (∀ i, i < 256 → q4.palette i = toInt32 (leWordAt data (416 + 4 * i))) ∧
    (∀ a b, a < 128 → b < 128 → q4.pal_interp a b = (data.getD (1440 + 128 * a + b) 0).val) ∧
    ∃ image_index, q4.metadata.image_index = some image_index ∧
      ∀ j, j < (q4.width * q4.height).toNat →
        image_index j = toInt32 (leWordAt data (17824 + 4 * j)) :=
  loadMetadata_tables_at fuel avail q q4 data fp4 hroom h

/-- C20, witness: the concrete one-tile file, whose tables are complete. -/
theorem loadMetadata_table_offsets_witness :
    ∃ q4 fp4,
      (blankObject 0 0).loadMetadata 0 8 ⟨sampleFile, 0, false⟩ = Res.ok (true, q4, fp4) ∧
      q4.width = toInt32 (leWordAt sampleFile 8) ∧
      q4.height = toInt32 (leWordAt sampleFile 12) ∧
      (∀ i, i < 256 → q4.palette i = toInt32 (leWordAt sampleFile (416 + 4 * i))) ∧
      (∀ a b, a < 128 → b < 128 →
        q4.pal_interp a b = (sampleFile.getD (1440 + 128 * a + b) 0).val) ∧
      ∃ image_index, q4.metadata.image_index = some image_index ∧
        ∀ j, j < (q4.width * q4.height).toNat →
          image_index j = toInt32 (leWordAt sampleFile (17824 + 4 * j)) := by
  obtain ⟨q4, fp4, h⟩ := sampleFile_loads 0 8 (blankObject 0 0) (le_refl _)
  exact ⟨q4, fp4, h, loadMetadata_table_offsets 0 8 (blankObject 0 0) q4 sampleFile fp4
    (by rw [sampleFile_length, sampleFile_width, sampleFile_height]; decide) h⟩

/-- C20, counterexample: on the concrete file the first palette entry is 7,
the word at offset 416, while the word at offset 256 is 0; the first entry
of the interpolation matrix is 9, the byte at offset 1440, while the byte at
offset 1280 is 0; the first tile-index entry is 17828, the word at offset
17824, while the word at offset 17664 is 0. -/
theorem loadMetadata_tables_not_at_256 :
    ∃ q4 fp4,
      (blankObject 0 0).loadMetadata 0 8 ⟨sampleFile, 0, false⟩ = Res.ok (true, q4, fp4) ∧
      q4.palette 0 = 7 ∧ toInt32 (leWordAt sampleFile (256 + 4 * 0)) = 0 ∧
      q4.pal_interp 0 0 = 9 ∧ (sampleFile.getD (1280 + 128 * 0 + 0) 0).val = 0 ∧
      ∃ image_index, q4.metadata.image_index = some image_index ∧
        image_index 0 = 17828 ∧ toInt32 (leWordAt sampleFile (17664 + 4 * 0)) = 0 := by
  obtain ⟨q4, fp4, h⟩ := sampleFile_loads 0 8 (blankObject 0 0) (le_refl _)
  obtain ⟨hw, hh, hpal, hint, idx, hidx, hj⟩ :=
    loadMetadata_tables_at 0 8 (blankObject 0 0) q4 sampleFile fp4
      (by rw [sampleFile_length, sampleFile_width, sampleFile_height]; decide) h
  refine ⟨q4, fp4, h, ?_, ?_, ?_, ?_, idx, hidx, ?_, ?_⟩
  · rw [hpal 0 (by decide), sampleFile_word _ (by decide)]
    rfl
  · rw [sampleFile_word _ (by decide)]
    rfl
  · rw [hint 0 0 (by decide) (by decide), sampleFile_getD _ (by decide)]
    rfl
  · rw [sampleFile_getD _ (by decide)]
    rfl
  · rw [hj 0 (by rw [hw, hh, sampleFile_width, sampleFile_height]; decide),
      sampleFile_word _ (by decide)]
    rfl
  · rw [sampleFile_word _ (by decide)]
    rfl

/-! ## The size of the image buffer -/

/-- The request of `loadImage` is `width*64 * height*64` bytes, whatever the
scale factor. -/
theorem allocImage_eq (avail : Nat) (q : QCTObject) (w h : Nat) (hw : q.width = (w : Int))
    (hh : q.height = (h : Int)) (hwr : w * 64 < 2147483648) (hhr : h * 64 < 2147483648)
    (hroom : w * 64 * (h * 64) ≤ avail) :
    allocImage avail q = some (w * 64 * (h * 64)) := by
  have e1 : ((h : Int) * 64 % 18446744073709551616).toNat = h * 64 := by omega
  have e2 : ((w : Int) * 64 % 18446744073709551616).toNat = w * 64 := by omega
  unfold allocImage calloc
  rw [hw, hh, e1, e2, Nat.mul_comm (h * 64) (w * 64), if_pos hroom]

theorem map_map {α β γ : Type} (f : α → β) (g : β → γ) (x : Res α) :
    (x.map f).map g = x.map (fun a => g (f a)) := by
  cases x <;> rfl

/-- The outcome of `loadImage` on an open file whose allocation succeeds with
`size` bytes is the outcome of the tile loops. -/
theorem loadImage_of_alloc (fuel : Nat) (junk : Nat → Int) (avail : Nat) (q : QCTObject)
    (scale : Nat) (fp : FILE) (size : Nat) (hfp : q.qctfp = some fp)
    (halloc : allocImage avail q = some size) :
    (q.loadImage fuel junk avail scale).map (fun r => (r.1, r.2.image_size, r.2.scalefactor))
      = (loadTileRows fuel junk { q with scalefactor := scale } q.height.toNat 0 fp
          (fun _ => 0)).map (fun _ => (true, some size, scale)) := by
  unfold QCTObject.loadImage
  simp only [hfp, halloc]
  rw [map_map]

/-- The tile loops on the one-tile map whose file is the magic bytes. -/
theorem magicFileObject_rows (scale : Nat) (hs : 0 < scale) :
    loadTileRows 3 (fun _ => 0) { magicFileObject with scalefactor := scale } 1 0
        ⟨[255, 213, 35, 20], 0, false⟩ (fun _ => 0)
      = Res.ok (⟨[255, 213, 35, 20], 4, false⟩, fun _ => 0) := by
  have ht := loadTile_at_magic 3 (fun _ => 0) { magicFileObject with scalefactor := scale }
    (fun _ => 0) ⟨[255, 213, 35, 20], 0, false⟩ (fun _ => 0) 0 0 [] hs (le_refl _) rfl rfl rfl
  have hwidth : ({ magicFileObject with scalefactor := scale } : QCTObject).width.toNat = 1 :=
    rfl
  rw [loadTileRows, hwidth, loadTileRow, ht, ok_bind, loadTileRow, ok_bind, loadTileRows]

/-- C15 (amended): for every scale factor and every map of `w` by `h` tiles
(with `w*64` and `h*64` in the range of `int`) on an open file, when the
allocator grants `w*64 * h*64` bytes, `loadImage` requests exactly
`w*64 * h*64` bytes, the full-size buffer, whatever the scale factor; its
outcome is that of the tile loops, with `true`, this buffer size and the
scale factor stored. -/
theorem loadImage_allocates_full_size (fuel : Nat) (junk : Nat → Int) (avail : Nat)
    (q : QCTObject) (scale : Nat) (fp : FILE) (w h : Nat) (hfp : q.qctfp = some fp)
    (hw : q.width = (w : Int)) (hh : q.height = (h : Int)) (hwr : w * 64 < 2147483648)
    (hhr : h * 64 < 2147483648) (hroom : w * 64 * (h * 64) ≤ avail) :
    allocImage avail q = some (w * 64 * (h * 64)) ∧
    (q.loadImage fuel junk avail scale).map (fun r => (r.1, r.2.image_size, r.2.scalefactor))
      = (loadTileRows fuel junk { q with scalefactor := scale } q.height.toNat 0 fp
          (fun _ => 0)).map (fun _ => (true, some (w * 64 * (h * 64)), scale)) :=
  ⟨allocImage_eq avail q w h hw hh hwr hhr hroom,
   loadImage_of_alloc fuel junk avail q scale fp _ hfp
     (allocImage_eq avail q w h hw hh hwr hhr hroom)⟩

/-- C15, witness: the one-tile map at scale factor 1, where the buffer has
the 4096 bytes of the claim. -/
theorem loadImage_allocates_full_size_witness :
    allocImage 4096 magicFileObject = some (1 * 64 * (1 * 64)) ∧
    (magicFileObject.loadImage 3 (fun _ => 0) 4096 1).map
        (fun r => (r.1, r.2.image_size, r.2.scalefactor))
      = (loadTileRows 3 (fun _ => 0) { magicFileObject with scalefactor := 1 }
          magicFileObject.height.toNat 0 ⟨[255, 213, 35, 20], 0, false⟩
          (fun _ => 0)).map (fun _ => (true, some (1 * 64 * (1 * 64)), 1)) :=
  loadImage_allocates_full_size 3 (fun _ => 0) 4096 magicFileObject 1
    ⟨[255, 213, 35, 20], 0, false⟩ 1 1 rfl rfl rfl (by decide) (by decide) (by decide)

/-- C15, counterexample: at scale factor 2 `loadImage` on the one-tile map
returns `true` with a buffer of 4096 bytes, not the `(64/2) * (64/2) = 1024`
bytes of the claim. -/
theorem loadImage_size_not_scaled :
    (magicFileObject.loadImage 3 (fun _ => 0) 4096 2).map
        (fun r => (r.1, r.2.image_size, r.2.scalefactor))
      = Res.ok (true, some 4096, 2) ∧
    4096 ≠ (1 * 64 / 2) * (1 * 64 / 2) := by
  refine ⟨?_, by decide⟩
  rw [loadImage_of_alloc 3 (fun _ => 0) 4096 magicFileObject 2 ⟨[255, 213, 35, 20], 0, false⟩
    4096 rfl (allocImage_eq 4096 magicFileObject 1 1 rfl rfl (by decide) (by decide)
      (by decide))]
  have hh : magicFileObject.height.toNat = 1 := rfl
  rw [hh, magicFileObject_rows 2 (by decide)]
  rfl

/-! ## Truncated files -/

/-- The outline part returns `false` exactly when the allocation of
`num_outline` doubles fails; the object keeps its size and has the number of
outline points just read. -/
theorem loadOutline_result (avail : Nat) (q : QCTObject) (fp : FILE) :
    ((loadOutline avail q fp).1 = false ↔ calloc avail (readInt fp).1 8 = none) ∧
    (loadOutline avail q fp).2.1.metadata.num_outline = (readInt fp).1 ∧
    (loadOutline avail q fp).2.1.width = q.width ∧
    (loadOutline avail q fp).2.1.height = q.height := by
  unfold loadOutline
  simp only [or_self]
  split_ifs with hc
  · exact ⟨⟨fun _ => hc, fun _ => rfl⟩, rfl, rfl, rfl⟩
  · exact ⟨⟨fun h => by simp at h, fun h => absurd h hc⟩, rfl, rfl, rfl⟩

/-- The table part returns `false` exactly when the allocation of the tile
index fails; the object keeps its size and its number of outline points. -/
theorem loadTables_result (avail : Nat) (q : QCTObject) (fp : FILE) :
    ((loadTables avail q fp).1 = false ↔ calloc avail (q.width * q.height) 8 = none) ∧
    (loadTables avail q fp).2.1.metadata.num_outline = q.metadata.num_outline ∧
    (loadTables avail q fp).2.1.width = q.width ∧
    (loadTables avail q fp).2.1.height = q.height := by
  unfold loadTables
  simp only
  cases hc : calloc avail (q.width * q.height) 8 with
  | none => exact ⟨⟨fun _ => rfl, fun _ => rfl⟩, rfl, rfl, rfl⟩
  | some size => exact ⟨⟨fun h => by simp at h, fun h => by simp at h⟩, rfl, rfl, rfl⟩

set_option maxRecDepth 100000 in
/-- The truncated file is accepted: `loadMetadata` returns `true` with the
size 1 by 1. -/
theorem truncatedFile_outcome :
    ((blankObject 0 0).loadMetadata 0 8 ⟨truncatedFile, 0, false⟩).map
        (fun r => (r.1, r.2.1.width, r.2.1.height))
      = Res.ok (true, 1, 1) := by
  rfl

theorem truncatedFile_loads :
    ∃ q4 fp4, (blankObject 0 0).loadMetadata 0 8 ⟨truncatedFile, 0, false⟩
      = Res.ok (true, q4, fp4) := by
  obtain ⟨⟨b, q4, fp4⟩, h, hb⟩ := map_eq_ok _ _ _ truncatedFile_outcome
  simp only [Prod.mk.injEq] at hb
  obtain ⟨hb, -⟩ := hb
  subst hb
  exact ⟨q4, fp4, h⟩

/-- C21 (amended): `loadMetadata` does not look at the end of the file.  For
every file that starts with the valid magic, complete or truncated, a finished
`loadMetadata` returns `false` exactly when one of its allocations fails (the
outline arrays of `num_outline` doubles, the tile index of `width * height`
pointers), and `true` otherwise. -/
theorem loadMetadata_false_only_on_allocation (fuel avail : Nat) (q q4 : QCTObject)
    (fp fp4 : FILE) (b : Bool) (hmagic : (readInt fp).1 = QCT_MAGIC)
    (h : q.loadMetadata fuel avail fp = Res.ok (b, q4, fp4)) :
    b = false ↔ (calloc avail q4.metadata.num_outline 8 = none ∨
      calloc avail (q4.width * q4.height) 8 = none) := by
  unfold QCTObject.loadMetadata at h
  rw [if_neg (not_not.mpr hmagic)] at h
  unfold loadBody at h
  simp only [bind, pure] at h
  obtain ⟨a1, -, h⟩ := bind_eq_ok _ _ _ h
  obtain ⟨a2, -, h⟩ := bind_eq_ok _ _ _ h
  obtain ⟨ho, hn, hw, hh⟩ := loadOutline_result avail a2.1 a2.2
  split_ifs at h with hf
  · simp only [Res.ok.injEq] at h
    have hb : b = false := by rw [← hf, h]
    have hq : q4 = (loadOutline avail a2.1 a2.2).2.1 := by rw [h]
    rw [hq, hn]
    exact ⟨fun _ => Or.inl (ho.mp hf), fun _ => hb⟩
  · obtain ⟨hf4, hn4, hw4, hh4⟩ := loadTables_result avail (loadOutline avail a2.1 a2.2).2.1
      (loadOutline avail a2.1 a2.2).2.2
    simp only [Res.ok.injEq] at h
    have hb : b = (loadTables avail (loadOutline avail a2.1 a2.2).2.1
        (loadOutline avail a2.1 a2.2).2.2).1 := by rw [h]
    have hq : q4 = (loadTables avail (loadOutline avail a2.1 a2.2).2.1
        (loadOutline avail a2.1 a2.2).2.2).2.1 := by rw [h]
    rw [hq, hn4, hw4, hh4, hn, hb, hf4]
    constructor
    · exact fun h1 => Or.inr h1
    · rintro (h1 | h1)
      · exact absurd (ho.mpr h1) hf
      · exact h1

set_option maxRecDepth 100000 in
/-- C21, witness: the truncated file of 96 bytes. -/
theorem loadMetadata_false_only_on_allocation_witness :
    ∃ q4 fp4,
      (readInt ⟨truncatedFile, 0, false⟩).1 = QCT_MAGIC ∧
      (blankObject 0 0).loadMetadata 0 8 ⟨truncatedFile, 0, false⟩ = Res.ok (true, q4, fp4) ∧
      (true = false ↔ (calloc 8 q4.metadata.num_outline 8 = none ∨
        calloc 8 (q4.width * q4.height) 8 = none)) := by
  obtain ⟨q4, fp4, h⟩ := truncatedFile_loads
  exact ⟨q4, fp4, by rfl, h, loadMetadata_false_only_on_allocation 0 8 (blankObject 0 0) q4
    ⟨truncatedFile, 0, false⟩ fp4 true (by rfl) h⟩

set_option maxRecDepth 100000 in
/-- C21, counterexample: the file of 96 bytes starts with the valid magic and
ends before the coefficients, the palette, the interpolation matrix and the
tile index; `loadMetadata` returns `true`. -/
theorem loadMetadata_accepts_truncated_file :
    truncatedFile.length = 96 ∧
    (readInt ⟨truncatedFile, 0, false⟩).1 = QCT_MAGIC ∧
    ((blankObject 0 0).loadMetadata 0 8 ⟨truncatedFile, 0, false⟩).map
        (fun r => (r.1, r.2.1.width, r.2.1.height))
      = Res.ok (true, 1, 1) ∧
    ((blankObject 0 0).loadMetadata 0 8 ⟨truncatedFile, 0, false⟩).map (fun r => r.1)
      ≠ Res.ok false := by
  refine ⟨by rfl, by rfl, truncatedFile_outcome, ?_⟩
  obtain ⟨q4, fp4, h⟩ := truncatedFile_loads
  rw [h]
  simp [Res.map]

/-! ## The failure result of `readInt` -/

theorem toInt32_eq_neg_one (u : Nat) (hu : u < 4294967296) :
    toInt32 u = -1 ↔ u = 4294967295 := by
  unfold toInt32
  rw [Nat.mod_eq_of_lt hu]
  split_ifs with h
  · constructor
    · intro h1
      exact h1.elim
    · intro h1
      omega
  · constructor <;> intro h1 <;> omega

/-- C22 (amended): on a stream whose end-of-file indicator is clear,
`readInt` returns its failure result -1 whenever fewer than four bytes remain;
when at least four bytes `b0 b1 b2 b3` remain it consumes them and returns the
32-bit value `b0 + 2^8*b1 + 2^16*b2 + 2^24*b3` read as a two's-complement
`int`, which is the failure result -1 exactly when all four bytes are 255. -/
theorem readInt_truncation (fp : FILE) (heof : fp.eof = false) :
    (fp.data.length < fp.pos + 4 → (readInt fp).1 = -1) ∧
    (fp.pos + 4 ≤ fp.data.length →
      (readInt fp).1 = toInt32 ((fp.data.getD fp.pos 0).val
        + 2 ^ 8 * (fp.data.getD (fp.pos + 1) 0).val
        + 2 ^ 16 * (fp.data.getD (fp.pos + 2) 0).val
        + 2 ^ 24 * (fp.data.getD (fp.pos + 3) 0).val) ∧
      (readInt fp).2 = { fp with pos := fp.pos + 4 } ∧
      ((readInt fp).1 = -1 ↔
        (fp.data.getD fp.pos 0).val = 255 ∧ (fp.data.getD (fp.pos + 1) 0).val = 255 ∧
        (fp.data.getD (fp.pos + 2) 0).val = 255 ∧ (fp.data.getD (fp.pos + 3) 0).val = 255)) := by
  refine ⟨readInt_short fp, fun h => ?_⟩
  have h0 := (fp.data.getD fp.pos 0).isLt
  have h1 := (fp.data.getD (fp.pos + 1) 0).isLt
  have h2 := (fp.data.getD (fp.pos + 2) 0).isLt
  have h3 := (fp.data.getD (fp.pos + 3) 0).isLt
  rw [readInt_of_four fp heof h]
  refine ⟨rfl, rfl, ?_⟩
  simp only
  rw [toInt32_eq_neg_one _ (leWordAt_lt _ _)]
  unfold leWordAt
  omega

/-- C22, witness: the stream `01 02 03 04`. -/
theorem readInt_truncation_witness :
    (([1, 2, 3, 4] : List (Fin 256)).length < 0 + 4 →
      (readInt ⟨[1, 2, 3, 4], 0, false⟩).1 = -1) ∧
    (0 + 4 ≤ ([1, 2, 3, 4] : List (Fin 256)).length →
      (readInt ⟨[1, 2, 3, 4], 0, false⟩).1
        = toInt32 ((([1, 2, 3, 4] : List (Fin 256)).getD 0 0).val
          + 2 ^ 8 * (([1, 2, 3, 4] : List (Fin 256)).getD (0 + 1) 0).val
          + 2 ^ 16 * (([1, 2, 3, 4] : List (Fin 256)).getD (0 + 2) 0).val
          + 2 ^ 24 * (([1, 2, 3, 4] : List (Fin 256)).getD (0 + 3) 0).val) ∧
      (readInt ⟨[1, 2, 3, 4], 0, false⟩).2 = ⟨[1, 2, 3, 4], 0 + 4, false⟩ ∧
      ((readInt ⟨[1, 2, 3, 4], 0, false⟩).1 = -1 ↔
        (([1, 2, 3, 4] : List (Fin 256)).getD 0 0).val = 255 ∧
        (([1, 2, 3, 4] : List (Fin 256)).getD (0 + 1) 0).val = 255 ∧
        (([1, 2, 3, 4] : List (Fin 256)).getD (0 + 2) 0).val = 255 ∧
        (([1, 2, 3, 4] : List (Fin 256)).getD (0 + 3) 0).val = 255)) :=
  readInt_truncation ⟨[1, 2, 3, 4], 0, false⟩ rfl

/-- C22, counterexample: with the four bytes `FF FF FF FF` remaining,
`readInt` returns -1, its failure result, although nothing is truncated. -/
theorem readInt_four_bytes_give_failure_result :
    0 + 4 ≤ ([255, 255, 255, 255] : List (Fin 256)).length ∧
    readInt ⟨[255, 255, 255, 255], 0, false⟩ = (-1, ⟨[255, 255, 255, 255], 4, false⟩) := by
  refine ⟨by decide, ?_⟩
  rfl

/-! ## Strings -/

/-- The string loop on a block of 1024 bytes, started at `pos` with the bytes
`acc` stored: when the next zero byte is `n` bytes ahead and the string stays
shorter than 1024 bytes, the loop ends with the bytes before the zero
appended, one byte past the zero. -/
theorem readStringLoop_spec (data : List (Fin 256)) (eof : Bool) :
    ∀ (n fuel pos : Nat) (acc : List Nat), acc.length + n < 1024 → n < fuel →
      (∀ k, k < n → data.getD (pos + k) 0 ≠ 0) → pos + n < data.length →
      data.getD (pos + n) 0 = 0 →
      readStringLoop fuel ⟨data, pos, eof⟩ acc 1024
        = Res.ok (acc ++ (List.range n).map (fun k => (data.getD (pos + k) 0).val),
            ⟨data, pos + n + 1, eof⟩) := by
  intro n
  induction n with
  | zero =>
    intro fuel pos acc hlen hfuel _ hroom hz
    obtain ⟨f, rfl⟩ : ∃ f, fuel = f + 1 := ⟨fuel - 1, by omega⟩
    rw [readStringLoop, if_neg (by omega), fgetc_mk data pos eof (by omega)]
    simp only [Nat.add_zero] at hz
    rw [hz]
    simp
  | succ n ih =>
    intro fuel pos acc hlen hfuel hne hroom hz
    obtain ⟨f, rfl⟩ : ∃ f, fuel = f + 1 := ⟨fuel - 1, by omega⟩
    have hb : data.getD pos 0 ≠ 0 := by
      have := hne 0 (by omega)
      simpa using this
    have hbi : ¬ (((data.getD pos 0).val : Int) = 0) := by
      intro h0
      apply hb
      apply Fin.ext
      have : (data.getD pos 0).val = 0 := by exact_mod_cast h0
      simpa using this
    rw [readStringLoop, if_neg (by omega), fgetc_mk data pos eof (by omega)]
    simp only [toUChar_byte]
    rw [if_neg hbi, if_neg (by simp only [List.length_append, List.length_singleton]; omega),
      ih f (pos + 1) (acc ++ [(data.getD pos 0).val])
        (by simp only [List.length_append, List.length_singleton]; omega) (by omega)
        (fun k hk => by
          have := hne (k + 1) (by omega)
          rwa [show pos + (k + 1) = pos + 1 + k by omega] at this)
        (by omega) (by rwa [show pos + (n + 1) = pos + 1 + n by omega] at hz)]
    congr 1
    congr 1
    · rw [List.range_succ_eq_map, List.map_cons, List.map_map, List.append_assoc]
      congr 1
      simp only [List.singleton_append, Nat.add_zero]
      congr 1
      apply List.map_congr_left
      intro k _
      simp only [Function.comp, Nat.succ_eq_add_one]
      rw [show pos + (k + 1) = pos + 1 + k by omega]
    · congr 1
      omega

/-- The string loop on a block of 1024 bytes, with `acc` stored and `m` more
bytes to go until 1024 are stored, none of them a zero: the loop stores the
next byte at index 1024, beyond the block, before the block is grown. -/
theorem readStringLoop_overrun (data : List (Fin 256)) (eof : Bool) :
    ∀ (m fuel pos : Nat) (acc : List Nat), acc.length + m = 1024 → m < fuel →
      (∀ k, k < m → data.getD (pos + k) 0 ≠ 0) → pos + m ≤ data.length →
      readStringLoop fuel ⟨data, pos, eof⟩ acc 1024 = Res.fault := by
  intro m
  induction m with
  | zero =>
    intro fuel pos acc hlen hfuel _ _
    obtain ⟨f, rfl⟩ : ∃ f, fuel = f + 1 := ⟨fuel - 1, by omega⟩
    rw [readStringLoop, if_pos (by omega)]
  | succ m ih =>
    intro fuel pos acc hlen hfuel hne hroom
    obtain ⟨f, rfl⟩ : ∃ f, fuel = f + 1 := ⟨fuel - 1, by omega⟩
    have hb : data.getD pos 0 ≠ 0 := by
      have := hne 0 (by omega)
      simpa using this
    have hbi : ¬ (((data.getD pos 0).val : Int) = 0) := by
      intro h0
      apply hb
      apply Fin.ext
      have : (data.getD pos 0).val = 0 := by exact_mod_cast h0
      simpa using this
    rw [readStringLoop, if_neg (by omega), fgetc_mk data pos eof (by omega)]
    simp only [toUChar_byte]
    rw [if_neg hbi, if_neg (by simp only [List.length_append, List.length_singleton]; omega),
      ih f (pos + 1) (acc ++ [(data.getD pos 0).val])
        (by simp only [List.length_append, List.length_singleton]; omega) (by omega)
        (fun k hk => by
          have := hne (k + 1) (by omega)
          rwa [show pos + (k + 1) = pos + 1 + k by omega] at this)
        (by omega)]

theorem toInt32_of_lt (u : Nat) (h : u < 2147483648) : toInt32 u = (u : Int) := by
  unfold toInt32
  rw [Nat.mod_eq_of_lt (by omega), if_pos h]

/-- The strings that fit the block: `readString`, started with a clear
end-of-file indicator at a position `P` of a file that holds the four bytes of
the offset `off` at `P`: if `off` is zero it returns the empty string;
otherwise, when `off` is below 2^31 (the file is smaller than 2 GiB) and a
zero byte occurs `n < 1024` bytes after the offset, with none before it, it
returns (with fuel above `n`) exactly the `n` bytes from the offset up to the
zero.  In both cases the stream is at `P + 4` afterwards, with the end-of-file
indicator clear. -/
theorem readString_returns_bytes_to_nul (fuel : Nat) (data : List (Fin 256)) (P off n : Nat)
    (hroom : P + 4 ≤ data.length) (hoff : leWordAt data P = off) :
    (off = 0 → readString fuel ⟨data, P, false⟩ = Res.ok ([], ⟨data, P + 4, false⟩)) ∧
    (0 < off → off < 2147483648 → n < 1024 → n < fuel → off + n < data.length →
      (∀ k, k < n → data.getD (off + k) 0 ≠ 0) → data.getD (off + n) 0 = 0 →
      readString fuel ⟨data, P, false⟩
        = Res.ok ((List.range n).map (fun k => (data.getD (off + k) 0).val),
            ⟨data, P + 4, false⟩)) := by
  constructor
  · intro h0
    apply readString_null fuel data P hroom
    rw [hoff, h0]
    rfl
  · intro hpos hlt hn hfuel hlen hne hz
    have hne0 : ¬ ((off : Int) = 0) := by omega
    unfold readString
    rw [readInt_at data P hroom, hoff, toInt32_of_lt off hlt]
    simp only
    rw [if_neg hne0, fseek_natCast,
      readStringLoop_spec data false n fuel off [] (by simpa using hn) hfuel hne hlen hz,
      ok_bind]
    simp only [List.nil_append]
    rw [fseek_ftell]

/-- The pointer 4 at position 0 of `greetingFile` leads to the string `Hi`. -/
theorem readString_returns_bytes_to_nul_witness :
    0 + 4 ≤ greetingFile.length ∧ leWordAt greetingFile 0 = 4 ∧
    ((4 = 0 → readString 3 ⟨greetingFile, 0, false⟩
        = Res.ok ([], ⟨greetingFile, 0 + 4, false⟩)) ∧
    (0 < 4 → 4 < 2147483648 → 2 < 1024 → 2 < 3 → 4 + 2 < greetingFile.length →
      (∀ k, k < 2 → greetingFile.getD (4 + k) 0 ≠ 0) → greetingFile.getD (4 + 2) 0 = 0 →
      readString 3 ⟨greetingFile, 0, false⟩
        = Res.ok ((List.range 2).map (fun k => (greetingFile.getD (4 + k) 0).val),
            ⟨greetingFile, 0 + 4, false⟩))) :=
  ⟨by decide, by decide,
    readString_returns_bytes_to_nul 3 greetingFile 0 4 2 (by decide) (by decide)⟩

/-- The bytes of `stringFile n`: the pointer 4, then `n` bytes `A` from
offset 4 and a zero at offset `4 + n`. -/
theorem stringFile_bytes (n : Nat) :
    (stringFile n).length = n + 5 ∧ leWordAt (stringFile n) 0 = 4 ∧
    (∀ k, k < n → (stringFile n).getD (4 + k) 0 = 65) ∧ (stringFile n).getD (4 + n) 0 = 0 := by
  have hget : ∀ k, (stringFile n)[4 + k]? = (List.replicate n (65 : Fin 256) ++ [0])[k]? := by
    intro k
    unfold stringFile
    rw [List.getElem?_append_right (by simp)]
    simp
  refine ⟨?_, ?_, ?_, ?_⟩
  · simp only [stringFile, List.length_append, List.length_replicate, List.length_cons,
      List.length_nil]
    omega
  · simp [leWordAt, stringFile]
    rfl
  · intro k hk
    rw [List.getD_eq_getElem?_getD, hget k,
      List.getElem?_append_left (by rw [List.length_replicate]; exact hk),
      List.getElem?_replicate, if_pos hk]
    rfl
  · rw [List.getD_eq_getElem?_getD, hget n,
      List.getElem?_append_right (by rw [List.length_replicate])]
    simp

/-- C23, at the failing input: in the file `longStringFile` the pointer at
offset 0 is 4, the 1024 bytes from offset 4 are not zero and the byte at
offset 1028 is the terminating zero, so the claim promises these 1024 bytes;
`readString` stores them in its block of 1024 bytes and then stores the
terminating zero at index 1024, beyond the block, because the block is only
grown when `string_length > buf_length`. -/
theorem readString_overruns_block (fuel : Nat) :
    leWordAt longStringFile 0 = 4 ∧
    (∀ k, k < 1024 → longStringFile.getD (4 + k) 0 ≠ 0) ∧
    longStringFile.getD (4 + 1024) 0 = 0 ∧
    readString (fuel + 1025) ⟨longStringFile, 0, false⟩ = Res.fault := by
  obtain ⟨hlen, hw, hbytes, hz⟩ := stringFile_bytes 1024
  have hne : ∀ k, k < 1024 → longStringFile.getD (4 + k) 0 ≠ 0 := by
    intro k hk
    show (stringFile 1024).getD (4 + k) 0 ≠ 0
    rw [hbytes k hk]
    decide
  refine ⟨hw, hne, hz, ?_⟩
  have hloop := readStringLoop_overrun longStringFile false 1024 (fuel + 1025) 4 [] rfl
    (by omega) hne (by show 4 + 1024 ≤ (stringFile 1024).length; rw [hlen]; omega)
  unfold readString
  rw [readInt_at longStringFile 0 (by show 0 + 4 ≤ (stringFile 1024).length; rw [hlen]; omega)]
  have hw2 : leWordAt longStringFile 0 = 4 := hw
  rw [hw2]
  have h4 : toInt32 4 = ((4 : Nat) : Int) := rfl
  rw [h4]
  simp only
  rw [if_neg (by decide), fseek_natCast, hloop]
  rfl

/-! ## The palette getter -/

theorem cAnd_255 (x : Int) : cAnd x 255 = x % 256 := by
  have h := cAnd_lowMask x 8
  have e : lowMask 8 = 255 := by decide
  rw [e] at h
  rw [h]
  rfl

theorem PAL_RED_eq (c : Int) : PAL_RED c = c / 65536 % 256 := by
  unfold PAL_RED
  rw [cAnd_255, Int.shiftRight_eq_div_pow]
  rfl

theorem PAL_GREEN_eq (c : Int) : PAL_GREEN c = c / 256 % 256 := by
  unfold PAL_GREEN
  rw [cAnd_255, Int.shiftRight_eq_div_pow]
  rfl

theorem PAL_BLUE_eq (c : Int) : PAL_BLUE c = c % 256 := by
  unfold PAL_BLUE
  rw [cAnd_255]

/-- C24 (amended): for every palette index `i` in 0..127 `getColour(i)`
succeeds and returns `R = (palette[i] >> 16) & 255`,
`G = (palette[i] >> 8) & 255`, `B = palette[i] & 255`, which are the three
low bytes of the entry (floor division, each in 0..255); for `i` in 128..255
it returns false. -/
theorem getColour_returns_rgb (q : QCTObject) (i : Nat) (R G B : Int) :
    (i ≤ 127 →
      q.getColour (i : Int) R G B
        = (true, PAL_RED (q.palette i), PAL_GREEN (q.palette i), PAL_BLUE (q.palette i)) ∧
      PAL_RED (q.palette i) = q.palette i / 65536 % 256 ∧
      PAL_GREEN (q.palette i) = q.palette i / 256 % 256 ∧
      PAL_BLUE (q.palette i) = q.palette i % 256 ∧
      0 ≤ PAL_RED (q.palette i) ∧ PAL_RED (q.palette i) ≤ 255 ∧
      0 ≤ PAL_GREEN (q.palette i) ∧ PAL_GREEN (q.palette i) ≤ 255 ∧
      0 ≤ PAL_BLUE (q.palette i) ∧ PAL_BLUE (q.palette i) ≤ 255) ∧
    (128 ≤ i → (q.getColour (i : Int) R G B).1 = false) := by
  constructor
  · intro hi
    have hr := PAL_RED_eq (q.palette i)
    have hg := PAL_GREEN_eq (q.palette i)
    have hb := PAL_BLUE_eq (q.palette i)
    refine ⟨?_, hr, hg, hb, ?_⟩
    · unfold QCTObject.getColour
      rw [if_neg (by omega), Int.toNat_natCast]
    · rw [hr, hg, hb]
      omega
  · intro hi
    unfold QCTObject.getColour
    rw [if_pos (by omega)]

/-- C24, counterexample: palette index 200 is in 0..255, but `getColour`
fails there and leaves `R`, `G`, `B` (here -1) as they were, while the entry
has the red component 200. -/
theorem getColour_fails_above_127 :
    rampObject.getColour 200 (-1) (-1) (-1) = (false, -1, -1, -1) ∧
    PAL_RED (rampObject.palette 200) = 200 := by
  refine ⟨rfl, ?_⟩
  rw [PAL_RED_eq]
  rfl

/-- C25: `getColour(index)` returns true exactly when `0 <= index <= 127`;
for every index below 0 or above 127 it returns false and leaves `R`, `G` and
`B` as they were. -/
theorem getColour_range_check (q : QCTObject) (index R G B : Int) :
    ((q.getColour index R G B).1 = true ↔ 0 ≤ index ∧ index ≤ 127) ∧
    ((index < 0 ∨ index > 127) → q.getColour index R G B = (false, R, G, B)) := by
  unfold QCTObject.getColour
  by_cases h : index < 0 ∨ index > 127
  · rw [if_pos h]
    refine ⟨⟨fun h1 => by simp at h1, fun h1 => ?_⟩, fun _ => rfl⟩
    omega
  · rw [if_neg h]
    exact ⟨⟨fun _ => by omega, fun _ => rfl⟩, fun h1 => absurd h1 h⟩

/-! ## Clipping of the pixel coordinates -/

theorem wrapInt_of_range (z : Int) (h1 : -2147483648 ≤ z) (h2 : z ≤ 2147483647) :
    wrapInt z = z := by
  unfold wrapInt toInt32
  have e : ((z % 4294967296).toNat : Int) = z % 4294967296 :=
    Int.toNat_of_nonneg (Int.emod_nonneg _ (by decide))
  have hm : (z % 4294967296).toNat % 4294967296 = (z % 4294967296).toNat := by
    apply Nat.mod_eq_of_lt
    have := Int.emod_lt_of_pos z (show (0 : Int) < 4294967296 by decide)
    omega
  rw [hm]
  split_ifs with h <;> omega

/-- The clipped variables of `xy_to_latlon` when the products and the pixel
sizes are in the range of `int`: the products `x*s`, `y*s`, clipped to
`[0, width*64 - 1]` and `[0, height*64]`. -/
theorem clipPixel_eq (q : QCTObject) (x y : Int)
    (hx : -2147483648 ≤ x * (q.scalefactor : Int) ∧ x * (q.scalefactor : Int) ≤ 2147483647)
    (hy : -2147483648 ≤ y * (q.scalefactor : Int) ∧ y * (q.scalefactor : Int) ≤ 2147483647)
    (hw : 0 ≤ q.width ∧ q.width * 64 ≤ 2147483647)
    (hh : 0 ≤ q.height ∧ q.height * 64 ≤ 2147483647) :
    clipPixel q x y
      = (min (max (x * (q.scalefactor : Int)) 0) (q.width * 64 - 1),
         min (max (y * (q.scalefactor : Int)) 0) (q.height * 64)) := by
  unfold clipPixel
  simp only
  rw [wrapInt_of_range _ hx.1 hx.2, wrapInt_of_range _ hy.1 hy.2,
    wrapInt_of_range (q.width * 64) (by omega) hw.2,
    wrapInt_of_range (q.height * 64) (by omega) hh.2,
    wrapInt_of_range (q.width * 64 - 1) (by omega) (by omega)]
  congr 1
  · split_ifs <;> omega
  · split_ifs <;> omega

/-- C26 (amended): `xy_to_latlon` multiplies `x` and `y` by the scale factor
`s` first and clips the products afterwards, `x*s` to `[0, width*64 - 1]` and
`y*s` to `[0, height*64]`: for all `x`, `y` and `s` whose products are in the
range of `int`, on a map whose pixel sizes `width*64`, `height*64` are in that
range, the values substituted into the polynomials are
`clamp(x*s, 0, width*64 - 1)` and `clamp(y*s, 0, height*64)`. -/
theorem xy_to_latlon_scales_then_clips (q : QCTObject) (c : Coefficients) (x y : Int)
    (hx : -2147483648 ≤ x * (q.scalefactor : Int) ∧ x * (q.scalefactor : Int) ≤ 2147483647)
    (hy : -2147483648 ≤ y * (q.scalefactor : Int) ∧ y * (q.scalefactor : Int) ≤ 2147483647)
    (hw : 0 ≤ q.width ∧ q.width * 64 ≤ 2147483647)
    (hh : 0 ≤ q.height ∧ q.height * 64 ≤ 2147483647) :
    clipPixel q x y
      = (min (max (x * (q.scalefactor : Int)) 0) (q.width * 64 - 1),
         min (max (y * (q.scalefactor : Int)) 0) (q.height * 64)) ∧
    q.xy_to_latlon c x y
      = forwardPolynomials c (min (max (x * (q.scalefactor : Int)) 0) (q.width * 64 - 1))
          (min (max (y * (q.scalefactor : Int)) 0) (q.height * 64)) := by
  have h := clipPixel_eq q x y hx hy hw hh
  refine ⟨h, ?_⟩
  unfold QCTObject.xy_to_latlon
  rw [h]

/-- C26, witness: the pixel (40, 0) of a one-tile map at scale factor 2. -/
theorem xy_to_latlon_scales_then_clips_witness :
    clipPixel halfScaleObject 40 0
      = (min (max (40 * (halfScaleObject.scalefactor : Int)) 0) (halfScaleObject.width * 64 - 1),
         min (max (0 * (halfScaleObject.scalefactor : Int)) 0) (halfScaleObject.height * 64)) ∧
    halfScaleObject.xy_to_latlon lonXCoefficients 40 0
      = forwardPolynomials lonXCoefficients
          (min (max (40 * (halfScaleObject.scalefactor : Int)) 0)
            (halfScaleObject.width * 64 - 1))
          (min (max (0 * (halfScaleObject.scalefactor : Int)) 0)
            (halfScaleObject.height * 64)) :=
  xy_to_latlon_scales_then_clips halfScaleObject lonXCoefficients 40 0 (by decide) (by decide)
    (by decide) (by decide)

theorem forwardPolynomials_lonX (x y : Int) :
    forwardPolynomials lonXCoefficients x y = (0, (x : ℚ)) := by
  simp [forwardPolynomials, lonXCoefficients, zeroCoefficients]

/-- C26, counterexample: for the pixel (40, 0) of a one-tile map at scale
factor 2 the code substitutes `x = 63` (80 clipped to 63), so with `lonX = 1`
the longitude is 63; the claim substitutes `2 * clamp(40, 0, 127) = 80`. -/
theorem xy_to_latlon_clips_the_product :
    clipPixel halfScaleObject 40 0 = (63, 0) ∧
    halfScaleObject.xy_to_latlon lonXCoefficients 40 0 = (0, 63) ∧
    forwardPolynomials lonXCoefficients (2 * min (max 40 0) (1 * 64 * 2 - 1))
        (2 * min (max 0 0) (1 * 64 * 2)) = (0, 80) := by
  have hclip : clipPixel halfScaleObject 40 0 = (63, 0) := by decide
  refine ⟨hclip, ?_, ?_⟩
  · unfold QCTObject.xy_to_latlon
    rw [hclip, forwardPolynomials_lonX]
    norm_num
  · rw [forwardPolynomials_lonX]
    norm_num

/-! ## The forward polynomials -/

/-- Where the squares and cubes of the clipped coordinates are in the range
of `int`, the code evaluates the polynomials of the specification. -/
theorem forwardPolynomials_exact (c : Coefficients) (x y : Int)
    (hx2 : -2147483648 ≤ x * x ∧ x * x ≤ 2147483647)
    (hx3 : -2147483648 ≤ x * x * x ∧ x * x * x ≤ 2147483647)
    (hy2 : -2147483648 ≤ y * y ∧ y * y ≤ 2147483647)
    (hy3 : -2147483648 ≤ y * y * y ∧ y * y * y ≤ 2147483647) :
    forwardPolynomials c x y = (exactLatitude c x y, exactLongitude c x y) := by
  unfold forwardPolynomials exactLatitude exactLongitude cubicPolynomial
  simp only
  rw [wrapInt_of_range (x * x) hx2.1 hx2.2, wrapInt_of_range (x * x * x) hx3.1 hx3.2,
    wrapInt_of_range (y * y) hy2.1 hy2.2, wrapInt_of_range (y * y * y) hy3.1 hy3.2]
  push_cast
  congr 1 <;> ring

/-- C27, at the failing input: on a map of 32 by 1 tiles at scale factor 1
with `lonXXX = 1` and every other coefficient zero, the pixel (2000, 0) is not
clipped; the `int` variable `x3 = x2 * x` wraps to -589934592, and so does the
longitude returned, while the polynomial of the claim is 8000000000. -/
theorem xy_to_latlon_cube_wraps :
    clipPixel (blankObject 32 1) 2000 0 = (2000, 0) ∧
    (blankObject 32 1).xy_to_latlon lonCubeCoefficients 2000 0 = (0, -589934592) ∧
    exactLongitude lonCubeCoefficients 2000 0 = 8000000000 := by
  have hclip : clipPixel (blankObject 32 1) 2000 0 = (2000, 0) := by decide
  have h2 : wrapInt (2000 * 2000) = 4000000 := by decide
  have h3 : wrapInt (4000000 * 2000) = -589934592 := by decide
  have h0 : wrapInt (0 * 0) = 0 := by decide
  refine ⟨hclip, ?_, ?_⟩
  · unfold QCTObject.xy_to_latlon
    rw [hclip]
    unfold forwardPolynomials
    simp only [h2, h3, h0]
    norm_num [lonCubeCoefficients, zeroCoefficients]
  · norm_num [exactLongitude, cubicPolynomial, lonCubeCoefficients, zeroCoefficients]

/-! ## The inverse transform -/

theorem NINT_intCast (n : Int) : NINT (n : ℚ) = n := by
  unfold NINT
  split_ifs with h
  · rw [Int.floor_eq_iff]
    constructor
    · linarith
    · linarith
  · rw [Int.ceil_eq_iff]
    constructor
    · linarith
    · linarith

/-- C28, at the failing input: with `easXX = 1`, the datum shift 1 to the
east and every other coefficient zero, at scale factor 1, the longitude 2 and
latitude 0 give `pixel_x = 4`, the square of the longitude before the shift
is removed; the polynomial of the claim on the shifted inputs is
`(2 - 1)^2 = 1`. -/
theorem latlon_to_xy_squares_before_shift :
    (blankObject 1 1).latlon_to_xy eastSquareCoefficients 0 2 = (4, 0) ∧
    (Int.tdiv (NINT (cubicPolynomial eastSquareCoefficients.eas eastSquareCoefficients.easX
        eastSquareCoefficients.easY eastSquareCoefficients.easXX eastSquareCoefficients.easXY
        eastSquareCoefficients.easYY eastSquareCoefficients.easXXX
        eastSquareCoefficients.easXXY eastSquareCoefficients.easXYY
        eastSquareCoefficients.easYYY (2 - eastSquareCoefficients.datum_shift_east)
        (0 - eastSquareCoefficients.datum_shift_north))) 1, (0 : Int)) = (1, 0) := by
  have h4 : NINT (4 : ℚ) = 4 := NINT_intCast 4
  have h1 : NINT (1 : ℚ) = 1 := NINT_intCast 1
  have h0 : NINT (0 : ℚ) = 0 := NINT_intCast 0
  constructor
  · unfold QCTObject.latlon_to_xy
    norm_num [eastSquareCoefficients, zeroCoefficients, blankObject, h4, h0]
  · norm_num [cubicPolynomial, eastSquareCoefficients, zeroCoefficients, h1]

/-! ## The round trip of a linear geo-reference -/

theorem forwardPolynomials_linear (x y : Int) :
    forwardPolynomials linearCoefficients x y
      = (-(y : ℚ) / 1000000, (x : ℚ) / 1000000) := by
  simp only [forwardPolynomials, linearCoefficients, zeroCoefficients]
  congr 1 <;> ring

/-- The inverse polynomials of the linear geo-reference on a longitude in
`[0, 360]` and a latitude in `[-90, 0]` that are millionths of integers. -/
theorem latlon_to_xy_linear (q : QCTObject) (X Y : Int) (hX : 0 ≤ X ∧ X ≤ 360000000)
    (hY : 0 ≤ Y ∧ Y ≤ 90000000) :
    q.latlon_to_xy linearCoefficients (-(Y : ℚ) / 1000000) ((X : ℚ) / 1000000)
      = (Int.tdiv X (q.scalefactor : Int), Int.tdiv Y (q.scalefactor : Int)) := by
  have hX0 : (0 : ℚ) ≤ (X : ℚ) := by exact_mod_cast hX.1
  have hX1 : (X : ℚ) ≤ 360000000 := by exact_mod_cast hX.2
  have hY0 : (0 : ℚ) ≤ (Y : ℚ) := by exact_mod_cast hY.1
  have hY1 : (Y : ℚ) ≤ 90000000 := by exact_mod_cast hY.2
  have c1 : ¬ (-(Y : ℚ) / 1000000 < -90) := by
    rw [not_lt, le_div_iff₀ (by norm_num)]
    linarith
  have c2 : ¬ (-(Y : ℚ) / 1000000 > 90) := by
    rw [gt_iff_lt, not_lt, div_le_iff₀ (by norm_num)]
    linarith
  have c3 : ¬ ((X : ℚ) / 1000000 < -360) := by
    rw [not_lt, le_div_iff₀ (by norm_num)]
    linarith
  have c4 : ¬ ((X : ℚ) / 1000000 > 360) := by
    rw [gt_iff_lt, not_lt, div_le_iff₀ (by norm_num)]
    linarith
  have ex : (0 : ℚ) + 1000000 * ((X : ℚ) / 1000000 - 0) + 0 * (-(Y : ℚ) / 1000000 - 0)
      + 0 * ((X : ℚ) / 1000000 * ((X : ℚ) / 1000000))
      + 0 * ((X : ℚ) / 1000000 - 0) * (-(Y : ℚ) / 1000000 - 0)
      + 0 * (-(Y : ℚ) / 1000000 * (-(Y : ℚ) / 1000000))
      + 0 * ((X : ℚ) / 1000000 * ((X : ℚ) / 1000000) * ((X : ℚ) / 1000000))
      + 0 * ((X : ℚ) / 1000000 * ((X : ℚ) / 1000000)) * (-(Y : ℚ) / 1000000 - 0)
      + 0 * ((X : ℚ) / 1000000 - 0) * (-(Y : ℚ) / 1000000 * (-(Y : ℚ) / 1000000))
      + 0 * (-(Y : ℚ) / 1000000 * (-(Y : ℚ) / 1000000) * (-(Y : ℚ) / 1000000)) = (X : ℚ) := by
    ring
  have ey : (0 : ℚ) + 0 * ((X : ℚ) / 1000000 - 0) + -1000000 * (-(Y : ℚ) / 1000000 - 0)
      + 0 * ((X : ℚ) / 1000000 * ((X : ℚ) / 1000000))
      + 0 * ((X : ℚ) / 1000000 - 0) * (-(Y : ℚ) / 1000000 - 0)
      + 0 * (-(Y : ℚ) / 1000000 * (-(Y : ℚ) / 1000000))
      + 0 * ((X : ℚ) / 1000000 * ((X : ℚ) / 1000000) * ((X : ℚ) / 1000000))
      + 0 * ((X : ℚ) / 1000000 * ((X : ℚ) / 1000000)) * (-(Y : ℚ) / 1000000 - 0)
      + 0 * ((X : ℚ) / 1000000 - 0) * (-(Y : ℚ) / 1000000 * (-(Y : ℚ) / 1000000))
      + 0 * (-(Y : ℚ) / 1000000 * (-(Y : ℚ) / 1000000) * (-(Y : ℚ) / 1000000)) = (Y : ℚ) := by
    ring
  simp only [QCTObject.latlon_to_xy, linearCoefficients, zeroCoefficients, if_neg c1, if_neg c2,
    if_neg c3, if_neg c4]
  rw [ex, ey, NINT_intCast, NINT_intCast]

/-- C29: round trip for the linear geo-reference of scenario S6, in exact
arithmetic, on a map whose pixel sizes `width*64`, `height*64` are in the
range of `int`: for every scale factor `s >= 1` and every pixel `(x, y)` with
`0 <= x*s <= width*64 - 1`, `0 <= y*s <= height*64 - 1`, `x*s <= 360000000`
and `y*s <= 90000000`, `xy_to_latlon(x, y)` is
`lat = -y*s/10^6, lon = x*s/10^6` and `latlon_to_xy` of that pair is
`(x, y)`. -/
theorem latlon_xy_round_trip (q : QCTObject) (x y : Int) (hs : 1 ≤ q.scalefactor)
    (hx : 0 ≤ x * (q.scalefactor : Int) ∧ x * (q.scalefactor : Int) ≤ q.width * 64 - 1)
    (hy : 0 ≤ y * (q.scalefactor : Int) ∧ y * (q.scalefactor : Int) ≤ q.height * 64 - 1)
    (hx360 : x * (q.scalefactor : Int) ≤ 360000000)
    (hy90 : y * (q.scalefactor : Int) ≤ 90000000)
    (hw : q.width * 64 ≤ 2147483647) (hh : q.height * 64 ≤ 2147483647) :
    q.xy_to_latlon linearCoefficients x y
      = (-((y * (q.scalefactor : Int) : Int) : ℚ) / 1000000,
         ((x * (q.scalefactor : Int) : Int) : ℚ) / 1000000) ∧
    q.latlon_to_xy linearCoefficients (q.xy_to_latlon linearCoefficients x y).1
      (q.xy_to_latlon linearCoefficients x y).2 = (x, y) := by
  have hclip : clipPixel q x y = (x * (q.scalefactor : Int), y * (q.scalefactor : Int)) := by
    rw [clipPixel_eq q x y ⟨by omega, by omega⟩ ⟨by omega, by omega⟩ ⟨by omega, hw⟩
      ⟨by omega, hh⟩]
    congr 1 <;> omega
  have hfwd : q.xy_to_latlon linearCoefficients x y
      = (-((y * (q.scalefactor : Int) : Int) : ℚ) / 1000000,
         ((x * (q.scalefactor : Int) : Int) : ℚ) / 1000000) := by
    unfold QCTObject.xy_to_latlon
    rw [hclip, forwardPolynomials_linear]
  have hs0 : ((q.scalefactor : Nat) : Int) ≠ 0 := by omega
  refine ⟨hfwd, ?_⟩
  rw [hfwd]
  simp only
  rw [latlon_to_xy_linear q _ _ ⟨hx.1, hx360⟩ ⟨hy.1, hy90⟩, Int.mul_tdiv_cancel x hs0,
    Int.mul_tdiv_cancel y hs0]

/-- C29, witness: on a map of 16 by 8 tiles at scale factor 1 the pixel
(1000, 500) maps to `lat = -5e-4`, `lon = 1e-3` and back to (1000, 500). -/
theorem latlon_xy_round_trip_witness :
    sixteenByEightObject.xy_to_latlon linearCoefficients 1000 500
      = (-((500 * (sixteenByEightObject.scalefactor : Int) : Int) : ℚ) / 1000000,
         ((1000 * (sixteenByEightObject.scalefactor : Int) : Int) : ℚ) / 1000000) ∧
    sixteenByEightObject.latlon_to_xy linearCoefficients
      (sixteenByEightObject.xy_to_latlon linearCoefficients 1000 500).1
      (sixteenByEightObject.xy_to_latlon linearCoefficients 1000 500).2 = (1000, 500) :=
  latlon_xy_round_trip sixteenByEightObject 1000 500 (by decide) (by decide) (by decide)
    (by decide) (by decide) (by decide) (by decide)

/-! ## Degrees per pixel -/

/-- C30, at the failing input: on a map of 1 by 2 tiles (64 by 128 pixels) at
scale factor 1, with `lonXY = 1` and every other coefficient zero, the code
evaluates the longitude at row `height/2 = 1`, half the number of tiles, and
returns `63/64`; the mid-image row of the claim is `h/2 = 64`, which gives
`|lon(63, 64) - lon(0, 64)| / 64 = 63`. -/
theorem getDegreesPerPixel_uses_tile_count :
    oneByTwoObject.getImageWidth = 64 ∧ oneByTwoObject.getImageHeight = 128 ∧
    oneByTwoObject.getDegreesPerPixel lonCrossCoefficients = 63 / 64 ∧
    |(oneByTwoObject.xy_to_latlon lonCrossCoefficients (64 - 1) (Int.tdiv 128 2)).2
        - (oneByTwoObject.xy_to_latlon lonCrossCoefficients 0 (Int.tdiv 128 2)).2|
      / ((64 : Int) : ℚ) = 63 := by
  have hpoly : ∀ x y : Int, forwardPolynomials lonCrossCoefficients x y
      = (0, (x : ℚ) * (y : ℚ)) := by
    intro x y
    simp [forwardPolynomials, lonCrossCoefficients, zeroCoefficients]
  have c1 : clipPixel oneByTwoObject 0 1 = (0, 1) := by decide
  have c2 : clipPixel oneByTwoObject 63 1 = (63, 1) := by decide
  have c3 : clipPixel oneByTwoObject 0 64 = (0, 64) := by decide
  have c4 : clipPixel oneByTwoObject 63 64 = (63, 64) := by decide
  have hw : Int.tdiv (wrapInt (oneByTwoObject.width * 64)) (oneByTwoObject.scalefactor : Int)
      = 64 := by decide
  have hy : Int.tdiv oneByTwoObject.height 2 = 1 := by decide
  have hw1 : wrapInt (64 - 1) = 63 := by decide
  have hm : Int.tdiv 128 2 = 64 := by decide
  have hm1 : (64 : Int) - 1 = 63 := by decide
  refine ⟨by decide, by decide, ?_, ?_⟩
  · unfold QCTObject.getDegreesPerPixel
    rw [if_neg (by decide)]
    simp only [hw, hy, hw1, QCTObject.xy_to_latlon, c1, c2, hpoly]
    norm_num
  · simp only [hm, hm1, QCTObject.xy_to_latlon, c3, c4, hpoly]
    norm_num

/-! ## `QCT::coordInsideMap` -/

/-- C31: when the outline has fewer than three vertices `coordInsideMap`
returns `false` for every latitude and longitude, whatever the polygon
primitive is, also one that never returns a result: the primitive is not
called. -/
theorem coordInsideMap_needs_three_vertices (q : QCTObject) (value : RawDouble → ℚ)
    (inpoly : List (Nat × Nat) → Int → Nat → Nat → Res Int) (lat lon : ℚ)
    (h : q.metadata.num_outline < 3) :
    q.coordInsideMap value inpoly lat lon = Res.ok false := by
  unfold QCTObject.coordInsideMap
  rw [if_pos h]

/-- C31, witness: an outline of two vertices and a primitive that never
returns a result. -/
theorem coordInsideMap_needs_three_vertices_witness :
    twoVertexObject.metadata.num_outline < 3 ∧
      twoVertexObject.coordInsideMap (fun _ => 0) failingInpoly 51 0 = Res.ok false :=
  ⟨by decide, coordInsideMap_needs_three_vertices twoVertexObject (fun _ => 0) failingInpoly 51 0
    (by decide)⟩

/-- With three or more vertices and both outline arrays present,
`coordInsideMap` is the result of the polygon primitive on the converted
vertices and point. -/
theorem coordInsideMap_calls_inpoly (q : QCTObject) (value : RawDouble → ℚ)
    (inpoly : List (Nat × Nat) → Int → Nat → Nat → Res Int) (lat lon : ℚ)
    (outline_lat outline_lon : Nat → RawDouble) (h : 3 ≤ q.metadata.num_outline)
    (hlat : q.metadata.outline_lat = some outline_lat)
    (hlon : q.metadata.outline_lon = some outline_lon) :
    q.coordInsideMap value inpoly lat lon
      = (inpoly ((List.range q.metadata.num_outline.toNat).map
            (fun ii => (LON_TO_INT (value (outline_lon ii)), LAT_TO_INT (value (outline_lat ii)))))
          q.metadata.num_outline (LON_TO_INT lon) (LAT_TO_INT lat)).map
          (fun rc => decide (rc ≠ 0)) := by
  unfold QCTObject.coordInsideMap
  rw [if_neg (by omega), hlat, hlon]

/-! ## Loops at the end of the stream -/

theorem fgetc_at_end (fp : FILE) (h : fp.data.length ≤ fp.pos) :
    fgetc fp = (-1, { fp with eof := true }) := by
  have hnone : fp.data[fp.pos]? = none := List.getElem?_eq_none h
  simp only [fgetc, hnone]

/-- The string loop never finishes normally once the stream is at the end of
the file: every further byte is the EOF value, which is not 0. -/
theorem readStringLoop_at_end :
    ∀ (fuel : Nat) (fp : FILE) (acc : List Nat) (buf_length : Nat) (r : List Nat × FILE),
      fp.data.length ≤ fp.pos → readStringLoop fuel fp acc buf_length ≠ Res.ok r := by
  intro fuel
  induction fuel with
  | zero =>
    intro fp acc buf_length r _ h
    rw [readStringLoop] at h
    cases h
  | succ n ih =>
    intro fp acc buf_length r hend h
    rw [readStringLoop, fgetc_at_end fp hend] at h
    simp only at h
    by_cases h1 : buf_length ≤ acc.length
    · rw [if_pos h1] at h
      cases h
    · rw [if_neg h1, if_neg (by decide)] at h
      exact ih ⟨fp.data, fp.pos, true⟩ _ _ r hend h

/-- The run loop of the RLE mode makes no progress at the end of the stream:
the EOF value -1 shifted right is -1, a run that is not positive. -/
theorem rleLoop_at_end (num_low_bits : Nat) (pal_mask : Int) (palette_index : Nat → Int) :
    ∀ (fuel : Nat) (fp : FILE) (tile : List Nat), fp.data.length ≤ fp.pos →
      tile.length < 4096 →
      rleLoop num_low_bits pal_mask palette_index fuel fp tile = Res.outOfFuel := by
  intro fuel
  induction fuel with
  | zero =>
    intro fp tile _ hlen
    rw [rleLoop, if_pos hlen]
  | succ n ih =>
    intro fp tile hend hlen
    have hrun : ((-1 : Int) >>> num_low_bits).toNat = 0 := by
      rw [Int.shiftRight_eq_div_pow]
      have hp : (0 : Int) < ((2 ^ num_low_bits : Nat) : Int) := by positivity
      have : (-1 : Int) / ((2 ^ num_low_bits : Nat) : Int) < 0 :=
        Int.ediv_neg' (by decide) hp
      omega
    rw [rleLoop, if_pos hlen, fgetc_at_end fp hend]
    simp only [hrun, List.replicate_zero, List.append_nil]
    exact ih ⟨fp.data, fp.pos, true⟩ tile hend hlen

/-- The table-build loop never ends at the end of the stream: the EOF value
is stored as the byte 255, a short branch. -/
theorem huffBuild_at_end :
    ∀ (fuel : Nat) (fp : FILE) (huff : List Nat) (num_colours num_branches : Nat),
      fp.data.length ≤ fp.pos → num_colours ≤ num_branches →
      huffBuild fuel fp huff num_colours num_branches = Res.outOfFuel := by
  intro fuel
  induction fuel with
  | zero =>
    intro fp huff nc nb _ h
    rw [huffBuild, if_pos h]
  | succ n ih =>
    intro fp huff nc nb hend h
    have e : toUChar (-1) = 255 := by decide
    rw [huffBuild, if_pos h, fgetc_at_end fp hend]
    simp only [e]
    rw [if_neg (by decide), if_pos (by decide)]
    exact ih ⟨fp.data, fp.pos, true⟩ _ _ _ hend (by omega)

/-! ## The shape of a built table -/

theorem tableCounts_append (huff extra : List Nat) :
    tableCounts (huff ++ extra) = extra.foldl countEntry (tableCounts huff) := by
  unfold tableCounts
  rw [List.foldl_append]

/-- The invariant of the table-build loop: when the table read so far is made
of whole entries, `num_colours` of them leaves and `num_branches` of them
branches, with at most one leaf more than branches, and its length is
`leaves + short branches + 3 * long branches`, then the same holds of the
table the loop ends with, which has exactly one leaf more than branches. -/
theorem huffBuild_counts :
    ∀ (fuel : Nat) (fp : FILE) (huff : List Nat) (num_colours num_branches : Nat)
      (fp1 : FILE) (huff1 : List Nat) (n : Nat),
      huffBuild fuel fp huff num_colours num_branches = Res.ok (fp1, huff1, n) →
      (tableCounts huff).pending = 0 → (tableCounts huff).leaves = num_colours →
      (tableCounts huff).shorts + (tableCounts huff).longs = num_branches →
      huff.length = (tableCounts huff).leaves + (tableCounts huff).shorts
        + 3 * (tableCounts huff).longs →
      num_colours ≤ num_branches + 1 →
      (tableCounts huff1).pending = 0 ∧ (tableCounts huff1).leaves = n ∧
      (tableCounts huff1).leaves = (tableCounts huff1).shorts + (tableCounts huff1).longs + 1 ∧
      huff1.length = (tableCounts huff1).leaves + (tableCounts huff1).shorts
        + 3 * (tableCounts huff1).longs := by
  intro fuel
  induction fuel with
  | zero =>
    intro fp huff nc nb fp1 huff1 n h hp hl hb hlen hle
    rw [huffBuild] at h
    split_ifs at h with hc
    simp only [Res.ok.injEq, Prod.mk.injEq] at h
    obtain ⟨_, rfl, rfl⟩ := h
    exact ⟨hp, hl, by omega, hlen⟩
  | succ k ih =>
    intro fp huff nc nb fp1 huff1 n h hp hl hb hlen hle
    rw [huffBuild] at h
    simp only at h
    split_ifs at h with hc h128 hgt
    · -- long branch
      refine ih _ _ _ _ fp1 huff1 n h ?_ ?_ ?_ ?_ (by omega)
      all_goals
        rw [tableCounts_append]
        simp only [List.foldl_cons, List.foldl_nil, countEntry, hp, h128, Nat.lt_irrefl,
          if_false, if_true, List.length_append, List.length_cons, List.length_nil,
          show ¬ (128 < 128) from by decide, show (0 < 2) from by decide,
          show (0 < 2 - 1) from by decide] <;> omega
    · -- short branch
      refine ih _ _ _ _ fp1 huff1 n h ?_ ?_ ?_ ?_ (by omega)
      all_goals
        rw [tableCounts_append]
        have hnl : ¬ toUChar (fgetc fp).1 < 128 := by omega
        simp only [List.foldl_cons, List.foldl_nil, countEntry, hp, h128, hnl, Nat.lt_irrefl,
          if_false, List.length_append, List.length_cons, List.length_nil] <;> omega
    · -- leaf
      refine ih _ _ _ _ fp1 huff1 n h ?_ ?_ ?_ ?_ (by omega)
      all_goals
        rw [tableCounts_append]
        have hl128 : toUChar (fgetc fp).1 < 128 := by omega
        simp only [List.foldl_cons, List.foldl_nil, countEntry, hp, hl128, Nat.lt_irrefl,
          if_false, if_true, List.length_append, List.length_cons, List.length_nil] <;> omega
    · simp only [Res.ok.injEq, Prod.mk.injEq] at h
      obtain ⟨_, rfl, rfl⟩ := h
      exact ⟨hp, hl, by omega, hlen⟩

/-- C32: whenever the table-build loop of the prefix-code mode ends, started
as `readTile` starts it (empty table, no leaf, no branch), the table is made
of whole entries, the number of leaves (bytes below 128) is the leaf count
the loop returns and equals the number of branches (short branches, bytes
above 128, and long branches, byte 128 with its two operand bytes) plus one,
and the table length is `leaves + short branches + 3 * long branches`. -/
theorem huffBuild_full_tree (fuel : Nat) (fp fp1 : FILE) (huff : List Nat) (n : Nat)
    (h : huffBuild fuel fp [] 0 0 = Res.ok (fp1, huff, n)) :
    (tableCounts huff).pending = 0 ∧ (tableCounts huff).leaves = n ∧
    (tableCounts huff).leaves = (tableCounts huff).shorts + (tableCounts huff).longs + 1 ∧
    huff.length = (tableCounts huff).leaves + (tableCounts huff).shorts
      + 3 * (tableCounts huff).longs :=
  huffBuild_counts fuel fp [] 0 0 fp1 huff n h rfl rfl rfl rfl (by decide)

/-- C32, witness: the table `80 FD FF 05 06` of a long branch and two
leaves. -/
theorem huffBuild_full_tree_witness :
    huffBuild 3 ⟨longBranchTile.data, 1, false⟩ [] 0 0
        = Res.ok (⟨longBranchTile.data, 6, false⟩, [128, 253, 255, 5, 6], 2) ∧
      ((tableCounts [128, 253, 255, 5, 6]).pending = 0 ∧
      (tableCounts [128, 253, 255, 5, 6]).leaves = 2 ∧
      (tableCounts [128, 253, 255, 5, 6]).leaves
        = (tableCounts [128, 253, 255, 5, 6]).shorts + (tableCounts [128, 253, 255, 5, 6]).longs
          + 1 ∧
      ([128, 253, 255, 5, 6] : List Nat).length
        = (tableCounts [128, 253, 255, 5, 6]).leaves + (tableCounts [128, 253, 255, 5, 6]).shorts
          + 3 * (tableCounts [128, 253, 255, 5, 6]).longs) :=
  ⟨rfl, huffBuild_full_tree 3 ⟨longBranchTile.data, 1, false⟩ ⟨longBranchTile.data, 6, false⟩
    [128, 253, 255, 5, 6] 2 rfl⟩

/-! ## Bit order of the prefix-code mode -/

theorem nthByte_succ (fp : FILE) (k : Nat) : nthByte fp (k + 1) = nthByte (fgetc fp).2 k := by
  unfold nthByte
  rw [Function.iterate_succ_apply]

theorem nthByte_of_lt : ∀ (k : Nat) (fp : FILE), fp.pos + k < fp.data.length →
    nthByte fp k = ((fp.data.getD (fp.pos + k) 0).val : Int) := by
  intro k
  induction k with
  | zero =>
    intro fp h
    obtain ⟨data, pos, eof⟩ := fp
    simp only at h
    show (fgetc ⟨data, pos, eof⟩).1 = _
    rw [fgetc_mk data pos eof (by omega)]
    rfl
  | succ k ih =>
    intro fp h
    obtain ⟨data, pos, eof⟩ := fp
    simp only at h
    rw [nthByte_succ, fgetc_mk data pos eof (by omega), ih _ (by simp only; omega)]
    simp only
    rw [show pos + 1 + k = pos + (k + 1) by omega]

theorem nthByte_at_end : ∀ (k : Nat) (fp : FILE), fp.data.length ≤ fp.pos + k →
    nthByte fp k = -1 := by
  intro k
  induction k with
  | zero =>
    intro fp h
    show (fgetc fp).1 = _
    rw [fgetc_at_end fp (by omega)]
  | succ k ih =>
    intro fp h
    obtain ⟨data, pos, eof⟩ := fp
    simp only at h
    rw [nthByte_succ]
    by_cases hp : pos < data.length
    · rw [fgetc_mk data pos eof hp]
      exact ih _ (by simp only; omega)
    · rw [fgetc_eof data pos eof (by omega)]
      exact ih _ (by simp only; omega)

theorem cAnd_one (x : Int) : cAnd x 1 = x % 2 := by
  have h := cAnd_lowMask x 1
  have e : lowMask 1 = 1 := by decide
  rw [e] at h
  rw [h]
  rfl

/-- The pixel of the two-leaf table in the words of the specification. -/
theorem twoLeafPixel_eq (fp : FILE) (a b n : Nat) :
    twoLeafPixel fp a b n = if streamBit fp n = 0 then a else b := by
  unfold twoLeafPixel streamBit
  rw [cAnd_one, Int.shiftRight_eq_div_pow]
  push_cast
  rfl

/-- The cursor after one more bit: the byte is shifted, or after the eighth
bit the next byte is read. -/
theorem twoLeafState_advance (fp : FILE) (a b n : Nat) :
    (if (twoLeafState fp a b n).bits_left - 1 = 0 then (fgetc (twoLeafState fp a b n).fp).2
      else (twoLeafState fp a b n).fp) = (twoLeafState fp a b (n + 1)).fp ∧
    (if (twoLeafState fp a b n).bits_left - 1 = 0 then (fgetc (twoLeafState fp a b n).fp).1
      else (twoLeafState fp a b n).ii >>> (1 : Nat)) = (twoLeafState fp a b (n + 1)).ii ∧
    (if (twoLeafState fp a b n).bits_left - 1 = 0 then 8
      else (twoLeafState fp a b n).bits_left - 1) = (twoLeafState fp a b (n + 1)).bits_left := by
  have hdiv : (n % 8 = 7 ∧ (n + 1) / 8 = n / 8 + 1 ∧ (n + 1) % 8 = 0) ∨
      (n % 8 < 7 ∧ (n + 1) / 8 = n / 8 ∧ (n + 1) % 8 = n % 8 + 1) := by omega
  rcases hdiv with ⟨h7, hd, hr⟩ | ⟨h7, hd, hr⟩
  · have hb : 8 - n % 8 - 1 = 0 := by omega
    simp only [twoLeafState, hd, hr, hb, if_true]
    refine ⟨?_, ?_, trivial⟩
    · rw [Function.iterate_succ_apply' _ (n / 8 + 1)]
    · rw [Int.shiftRight_eq_div_pow, Nat.pow_zero, Nat.cast_one, Int.ediv_one]
      rfl
  · have hb : ¬ (8 - n % 8 - 1 = 0) := by omega
    simp only [twoLeafState, hd, hr, hb, if_false]
    refine ⟨trivial, ?_, by omega⟩
    rw [Int.shiftRight_add]

/-- One pixel of the traversal on the table `[255, a, b]`: two rounds of the
loop, the first takes the branch on the lowest bit and refills the byte after
the eighth bit, the second stores the leaf. -/
theorem huffDecode_two_leaf_step (fp : FILE) (a b n fuel : Nat) (ha : a < 128) (hb : b < 128)
    (hn : n < 4096) :
    huffDecode [255, a, b] (fuel + 2) (twoLeafState fp a b n)
      = huffDecode [255, a, b] fuel (twoLeafState fp a b (n + 1)) := by
  have hlen : (twoLeafState fp a b n).tile.length < 4096 := by
    simp only [twoLeafState, List.length_map, List.length_range]
    exact hn
  obtain ⟨hfp, hii, hbits⟩ := twoLeafState_advance fp a b n
  have h0 : ([255, a, b] : List Nat)[(twoLeafState fp a b n).huff_ptr]? = some 255 := rfl
  have step1 : huffStep [255, a, b] (twoLeafState fp a b n)
      = some { fp := (twoLeafState fp a b (n + 1)).fp, ii := (twoLeafState fp a b (n + 1)).ii,
               bits_left := (twoLeafState fp a b (n + 1)).bits_left,
               tile := (twoLeafState fp a b n).tile,
               huff_ptr := if cAnd (nthByte fp (n / 8) >>> (n % 8)) 1 = 0 then 1 else 2 } := by
    unfold huffStep
    rw [h0]
    simp only [show ¬ (255 < 128) by decide, if_false, show ¬ (255 = 128) by decide,
      show (255 > 128) by decide, if_true]
    rw [hfp, hii, hbits]
    have hi : (twoLeafState fp a b n).ii = nthByte fp (n / 8) >>> (n % 8) := rfl
    have hp : (twoLeafState fp a b n).huff_ptr = 0 := rfl
    rw [hi, hp]
    split_ifs <;> rfl
  have step2 : huffStep [255, a, b]
      { fp := (twoLeafState fp a b (n + 1)).fp, ii := (twoLeafState fp a b (n + 1)).ii,
        bits_left := (twoLeafState fp a b (n + 1)).bits_left,
        tile := (twoLeafState fp a b n).tile,
        huff_ptr := if cAnd (nthByte fp (n / 8) >>> (n % 8)) 1 = 0 then 1 else 2 }
      = some (twoLeafState fp a b (n + 1)) := by
    have hS : twoLeafState fp a b (n + 1)
        = { fp := (twoLeafState fp a b (n + 1)).fp, ii := (twoLeafState fp a b (n + 1)).ii,
            bits_left := (twoLeafState fp a b (n + 1)).bits_left, huff_ptr := 0,
            tile := (twoLeafState fp a b n).tile ++ [twoLeafPixel fp a b n] } := by
      simp only [twoLeafState, List.range_succ, List.map_append, List.map_cons, List.map_nil]
    unfold huffStep
    by_cases hbit : cAnd (nthByte fp (n / 8) >>> (n % 8)) 1 = 0
    · have h1 : ([255, a, b] : List Nat)[1]? = some a := rfl
      have hpx : twoLeafPixel fp a b n = a := by
        unfold twoLeafPixel
        rw [if_pos hbit]
      simp only [hbit, if_true, h1, ha]
      rw [hS, hpx]
    · have h1 : ([255, a, b] : List Nat)[2]? = some b := rfl
      have hpx : twoLeafPixel fp a b n = b := by
        unfold twoLeafPixel
        rw [if_neg hbit]
      simp only [hbit, if_false, h1, hb, if_true]
      rw [hS, hpx]
  rw [huffDecode, if_pos hlen, step1]
  simp only
  rw [huffDecode, if_pos hlen, step2]

/-- The traversal on the table `[255, a, b]` from the state with `n` pixels
stored: with two rounds of fuel for each missing pixel it ends in the state
with 4096 pixels. -/
theorem huffDecode_two_leaf (fp : FILE) (a b : Nat) (ha : a < 128) (hb : b < 128) :
    ∀ (m n fuel : Nat), n + m = 4096 → 2 * m ≤ fuel →
      huffDecode [255, a, b] fuel (twoLeafState fp a b n)
        = Res.ok (twoLeafState fp a b 4096) := by
  intro m
  induction m with
  | zero =>
    intro n fuel hn _
    have h4096 : n = 4096 := by omega
    subst h4096
    have hlen : ¬ (twoLeafState fp a b 4096).tile.length < 4096 := by
      simp only [twoLeafState, List.length_map, List.length_range]
      omega
    cases fuel <;> rw [huffDecode, if_neg hlen]
  | succ m ih =>
    intro n fuel hn hfuel
    obtain ⟨f, rfl⟩ : ∃ f, fuel = f + 2 := ⟨fuel - 2, by omega⟩
    rw [huffDecode_two_leaf_step fp a b n f ha hb (by omega)]
    exact ih (n + 1) f (by omega) (by omega)

theorem huffValid_two_leaf (a b : Nat) (ha : a < 128) (hb : b < 128) :
    huffValid [255, a, b] = true := by
  simp [huffValid, huffValidFrom, ha, hb]

/-- The build loop on a stream that continues with `FF a b`, `a` and `b`
below 128: the table `[255, a, b]` with two leaves. -/
theorem huffBuild_two_leaf (fuel : Nat) (fp : FILE) (a b : Fin 256) (rest : List (Fin 256))
    (ha : a.val < 128) (hb : b.val < 128) (hfile : fp.data.drop fp.pos = 255 :: a :: b :: rest) :
    huffBuild (fuel + 3) fp [] 0 0
      = Res.ok (⟨fp.data, fp.pos + 3, fp.eof⟩, [255, a.val, b.val], 2) := by
  obtain ⟨g0, d1⟩ := get_of_drop_eq_cons fp 255 (a :: b :: rest) hfile
  obtain ⟨g1, d2⟩ := get_of_drop_eq_cons { fp with pos := fp.pos + 1 } a (b :: rest) d1
  obtain ⟨g2, _⟩ := get_of_drop_eq_cons { fp with pos := fp.pos + 1 + 1 } b rest d2
  have e : fuel + 3 = fuel + 1 + 1 + 1 := rfl
  rw [e, huffBuild_short _ fp [] 0 0 255 (le_refl _) g0 (by decide),
    huffBuild_leaf _ { fp with pos := fp.pos + 1 } _ 0 1 a (by decide) g1 ha,
    huffBuild_leaf _ { fp with pos := fp.pos + 1 + 1 } _ 1 1 b (by decide) g2 hb,
    huffBuild_done _ _ _ _ _ (by decide)]
  rfl

/-- C33: for the table `[255, a, b]` with `a, b < 128`, read from a stream
that continues with any data bytes, the table passes the validation, the
decoder finishes (8192 rounds of fuel suffice) with 4096 pixels, and pixel `n`
is `a` when bit `n mod 8` of data byte `n div 8` is 0 and `b` when it is 1,
the least-significant bit of a byte being bit 0: the byte is shifted right
once per pixel and the next byte is read after every 8 bits.  A data byte
beyond the end of the stream is the EOF value, all of whose bits are 1. -/
theorem huffman_bit_order (fuel : Nat) (junk : Nat → Int) (p : Int) (fp : FILE)
    (a b : Fin 256) (data : List (Fin 256)) (hp : p = 0 ∨ p = 255) (ha : a.val < 128)
    (hb : b.val < 128) (hfile : fp.data.drop fp.pos = 255 :: a :: b :: data)
    (hfuel : 8192 ≤ fuel) :
    huffValid [255, a.val, b.val] = true ∧
    ∃ fp2 tile, decodeTile fuel junk p fp = Res.ok (fp2, some tile) ∧ tile.length = 4096 ∧
      ∀ n, n < 4096 →
        tileAt tile n
          = (if streamBit ⟨fp.data, fp.pos + 3, fp.eof⟩ n = 0 then a.val else b.val) ∧
        (n / 8 < data.length →
          streamBit ⟨fp.data, fp.pos + 3, fp.eof⟩ n
            = ((data.getD (n / 8) 0).val : Int) / 2 ^ (n % 8) % 2) ∧
        (data.length ≤ n / 8 → streamBit ⟨fp.data, fp.pos + 3, fp.eof⟩ n = 1) := by
  have hvalid := huffValid_two_leaf a.val b.val ha hb
  refine ⟨hvalid, ?_⟩
  obtain ⟨f, rfl⟩ : ∃ f, fuel = f + 3 := ⟨fuel - 3, by omega⟩
  have hbuild := huffBuild_two_leaf f fp a b data ha hb hfile
  have hsel : selectMode p = Mode.huffman := by
    unfold selectMode
    rw [if_pos hp]
  have hinit : (⟨(fgetc ⟨fp.data, fp.pos + 3, fp.eof⟩).2,
      (fgetc ⟨fp.data, fp.pos + 3, fp.eof⟩).1, 8, 0, []⟩ : HuffState)
      = twoLeafState ⟨fp.data, fp.pos + 3, fp.eof⟩ a.val b.val 0 := by
    simp only [twoLeafState, Nat.zero_div, Nat.zero_mod, Nat.zero_add, Function.iterate_one,
      List.range_zero, List.map_nil, Nat.sub_zero, nthByte, Function.iterate_zero, id_eq]
    rw [Int.shiftRight_eq_div_pow, Nat.pow_zero, Nat.cast_one, Int.ediv_one]
  have hdec := huffDecode_two_leaf ⟨fp.data, fp.pos + 3, fp.eof⟩ a.val b.val ha hb 4096 0
    (f + 3) rfl (by omega)
  refine ⟨(twoLeafState ⟨fp.data, fp.pos + 3, fp.eof⟩ a.val b.val 4096).fp,
    (twoLeafState ⟨fp.data, fp.pos + 3, fp.eof⟩ a.val b.val 4096).tile, ?_, ?_, ?_⟩
  · simp only [decodeTile, hsel, huffBranch, hbuild, show ¬ (2 = 1) by decide, if_false, hvalid,
      if_true, hinit, hdec]
  · simp only [twoLeafState, List.length_map, List.length_range]
  · intro n hn
    have hlen : fp.pos + 3 + data.length = fp.data.length := by
      have h1 := congrArg List.length hfile
      simp only [List.length_drop, List.length_cons] at h1
      omega
    refine ⟨?_, ?_, ?_⟩
    · unfold tileAt
      simp only [twoLeafState]
      rw [List.getD_eq_getElem?_getD, List.getElem?_map, List.getElem?_range hn]
      simp only [Option.map_some', Option.getD_some]
      exact twoLeafPixel_eq _ _ _ _
    · intro hk
      unfold streamBit
      rw [nthByte_of_lt (n / 8) ⟨fp.data, fp.pos + 3, fp.eof⟩ (by simp only; omega)]
      simp only
      have hget : fp.data.getD (fp.pos + 3 + n / 8) 0 = data.getD (n / 8) 0 := by
        have h3 : fp.data.drop (fp.pos + 3) = data := by
          rw [← List.drop_drop, hfile]
          rfl
        rw [List.getD_eq_getElem?_getD, List.getD_eq_getElem?_getD, ← h3, List.getElem?_drop]
      rw [hget]
    · intro hk
      unfold streamBit
      rw [nthByte_at_end (n / 8) ⟨fp.data, fp.pos + 3, fp.eof⟩ (by simp only; omega)]
      have hpos : (0 : Int) < 2 ^ (n % 8) := by positivity
      have hdiv : (-1 : Int) / 2 ^ (n % 8) = -1 :=
        ((Int.ediv_emod_unique hpos).mpr
          ⟨show (2 ^ (n % 8) - 1) + 2 ^ (n % 8) * (-1) = (-1 : Int) by ring, by omega,
            by omega⟩).1
      rw [hdiv]
      rfl

/-- C33, witness: the tile `00 FF 03 09 A5 0F` with the table `[255, 3, 9]`
and the data bytes `A5 0F`. -/
theorem huffman_bit_order_witness :
    huffValid [255, (3 : Fin 256).val, (9 : Fin 256).val] = true ∧
    ∃ fp2 tile, decodeTile 8192 (fun _ => 0) 0 ⟨[0, 255, 3, 9, 165, 15], 1, false⟩
        = Res.ok (fp2, some tile) ∧ tile.length = 4096 ∧
      ∀ n, n < 4096 →
        tileAt tile n
          = (if streamBit ⟨[0, 255, 3, 9, 165, 15], 1 + 3, false⟩ n = 0 then (3 : Fin 256).val
              else (9 : Fin 256).val) ∧
        (n / 8 < ([165, 15] : List (Fin 256)).length →
          streamBit ⟨[0, 255, 3, 9, 165, 15], 1 + 3, false⟩ n
            = (((([165, 15] : List (Fin 256)).getD (n / 8) 0).val : Nat) : Int) / 2 ^ (n % 8) % 2) ∧
        (([165, 15] : List (Fin 256)).length ≤ n / 8 →
          streamBit ⟨[0, 255, 3, 9, 165, 15], 1 + 3, false⟩ n = 1) :=
  huffman_bit_order 8192 (fun _ => 0) 0 ⟨[0, 255, 3, 9, 165, 15], 1, false⟩ 3 9 [165, 15]
    (Or.inl rfl) (by decide) (by decide) (by rfl) (by decide)

/-! ## Clipping in `xy_to_latlon` -/

/-- C34: on a map of at least one tile each way whose pixel sizes are in the
range of `int`, for every scale factor `s` and all `x`, `y` whose products
`x*s`, `y*s` are in the range of `int`, the variables `X`, `Y` that
`xy_to_latlon` substitutes into the polynomials satisfy
`0 ≤ X ≤ width*64 - 1` and `0 ≤ Y ≤ height*64`, and `X = x*s`, `Y = y*s`
whenever those products already lie in the ranges. -/
theorem xy_to_latlon_clips_to_map (q : QCTObject) (c : Coefficients) (x y : Int)
    (hx : -2147483648 ≤ x * (q.scalefactor : Int) ∧ x * (q.scalefactor : Int) ≤ 2147483647)
    (hy : -2147483648 ≤ y * (q.scalefactor : Int) ∧ y * (q.scalefactor : Int) ≤ 2147483647)
    (hw : 1 ≤ q.width ∧ q.width * 64 ≤ 2147483647)
    (hh : 1 ≤ q.height ∧ q.height * 64 ≤ 2147483647) :
    q.xy_to_latlon c x y = forwardPolynomials c (clipPixel q x y).1 (clipPixel q x y).2 ∧
    0 ≤ (clipPixel q x y).1 ∧ (clipPixel q x y).1 ≤ q.width * 64 - 1 ∧
    0 ≤ (clipPixel q x y).2 ∧ (clipPixel q x y).2 ≤ q.height * 64 ∧
    (0 ≤ x * (q.scalefactor : Int) → x * (q.scalefactor : Int) ≤ q.width * 64 - 1 →
      (clipPixel q x y).1 = x * (q.scalefactor : Int)) ∧
    (0 ≤ y * (q.scalefactor : Int) → y * (q.scalefactor : Int) ≤ q.height * 64 →
      (clipPixel q x y).2 = y * (q.scalefactor : Int)) := by
  have h := clipPixel_eq q x y hx hy ⟨by omega, hw.2⟩ ⟨by omega, hh.2⟩
  refine ⟨rfl, ?_, ?_, ?_, ?_, ?_, ?_⟩
  · rw [h]; simp only; omega
  · rw [h]; simp only; omega
  · rw [h]; simp only; omega
  · rw [h]; simp only; omega
  · intro a b; rw [h]; simp only; omega
  · intro a b; rw [h]; simp only; omega

/-- C34, witness: the pixels (40, 10), (-3, 50) of a one-tile map at scale
factor 2. -/
theorem xy_to_latlon_clips_to_map_witness :
    clipPixel halfScaleObject (-3) 50 = (0, 64) ∧
    (halfScaleObject.xy_to_latlon zeroCoefficients (-3) 50
      = forwardPolynomials zeroCoefficients (clipPixel halfScaleObject (-3) 50).1
          (clipPixel halfScaleObject (-3) 50).2 ∧
    0 ≤ (clipPixel halfScaleObject (-3) 50).1 ∧
    (clipPixel halfScaleObject (-3) 50).1 ≤ halfScaleObject.width * 64 - 1 ∧
    0 ≤ (clipPixel halfScaleObject (-3) 50).2 ∧
    (clipPixel halfScaleObject (-3) 50).2 ≤ halfScaleObject.height * 64 ∧
    (0 ≤ (-3 : Int) * (halfScaleObject.scalefactor : Int) →
      (-3 : Int) * (halfScaleObject.scalefactor : Int) ≤ halfScaleObject.width * 64 - 1 →
      (clipPixel halfScaleObject (-3) 50).1 = (-3 : Int) * (halfScaleObject.scalefactor : Int)) ∧
    (0 ≤ (50 : Int) * (halfScaleObject.scalefactor : Int) →
      (50 : Int) * (halfScaleObject.scalefactor : Int) ≤ halfScaleObject.height * 64 →
      (clipPixel halfScaleObject (-3) 50).2 = (50 : Int) * (halfScaleObject.scalefactor : Int))) :=
  ⟨by decide, xy_to_latlon_clips_to_map halfScaleObject zeroCoefficients (-3) 50 (by decide)
    (by decide) (by decide) (by decide)⟩

/-! ## Termination on truncated input -/

/-- The RLE branch with one sub-palette colour on a stream that holds the
colour at position 1 and only zero bytes after it: the run loop never fills
the tile. -/
theorem rleBranch_short_stream (fuel : Nat) (junk : Nat → Int) (data : List (Fin 256))
    (hz : ∀ k, 2 ≤ k → data.getD k 0 = 0) (h1 : 1 < data.length) :
    rleBranch fuel junk 1 ⟨data, 1, false⟩ = Res.outOfFuel := by
  have hb : bits_per_pixel 1 = some 1 := rfl
  have hzero : ∀ (fuel pos : Nat) (eof : Bool), 2 ≤ pos →
      rleLoop 1 (lowMask 1)
        (readSubPalette (1 : Int).toNat 0 ⟨data, 1, false⟩ junk).2 fuel ⟨data, pos, eof⟩ []
        = Res.outOfFuel := by
    intro fuel
    induction fuel with
    | zero =>
      intro pos eof _
      rw [rleLoop, if_pos (by decide)]
    | succ n ih =>
      intro pos eof hpos
      by_cases hend : data.length ≤ pos
      · exact rleLoop_at_end _ _ _ _ ⟨data, pos, eof⟩ [] hend (by decide)
      · rw [rleLoop, if_pos (by decide), fgetc_mk data pos eof (by omega), hz pos hpos]
        exact ih (pos + 1) eof (by omega)
  simp only [rleBranch, hb]
  have hsub : (readSubPalette (1 : Int).toNat 0 ⟨data, 1, false⟩ junk).1 = ⟨data, 2, false⟩ := by
    show (fgetc ⟨data, 1, false⟩).2 = _
    rw [fgetc_mk data 1 false h1]
  rw [hsub]
  exact hzero fuel 2 false (le_refl _)

/-- C35, at the failing inputs: for every amount of fuel, `readTile` does not
finish on the RLE tile `01 07` that ends before its first run, on the RLE tile
`01 07 00 00` whose runs have length zero, or on the prefix-code tile `00`
that ends after the packing byte: at the end of the stream the RLE loop reads
the run length -1 and stores nothing, and the table-build loop stores the
byte 255 as one more branch. -/
theorem readTile_loops_at_end_of_stream (fuel : Nat) (junk : Nat → Int) (q : QCT) :
    q.readTile fuel junk truncatedRleTile 0 0 1 = Res.outOfFuel ∧
    q.readTile fuel junk zeroRunTile 0 0 1 = Res.outOfFuel ∧
    q.readTile fuel junk truncatedHuffTile 0 0 1 = Res.outOfFuel := by
  have hr : ∀ data : List (Fin 256), data.getD 0 0 = 1 →
      (∀ k, 2 ≤ k → data.getD k 0 = 0) → 1 < data.length →
      q.readTile fuel junk ⟨data, 0, false⟩ 0 0 1 = Res.outOfFuel := by
    intro data h0 hz h1
    have hg : fgetc ⟨data, 0, false⟩ = (1, ⟨data, 1, false⟩) := by
      rw [fgetc_mk data 0 false (by omega), h0]
      rfl
    have hm : selectMode 1 = Mode.rle 1 := by decide
    simp only [QCT.readTile, hg, decodeTile, hm, rleBranch_short_stream fuel junk data hz h1,
      Res.map]
    rfl
  refine ⟨hr [1, 7] rfl ?_ (by decide), hr [1, 7, 0, 0] rfl ?_ (by decide), ?_⟩
  · intro k hk
    exact List.getD_eq_default _ _ (by simpa using hk)
  · intro k hk
    rcases Nat.lt_or_ge k 4 with h4 | h4
    · interval_cases k <;> rfl
    · exact List.getD_eq_default _ _ (by simpa using h4)
  · have hg : fgetc truncatedHuffTile = (0, ⟨[0], 1, false⟩) := rfl
    have hm : selectMode 0 = Mode.huffman := by decide
    simp only [QCT.readTile, hg, decodeTile, hm, huffBranch,
      huffBuild_at_end fuel ⟨[0], 1, false⟩ [] 0 0 (le_refl _) (le_refl _)]
    rfl

/-- C36, at the failing inputs: for every amount of fuel `readString` does
not return on the file `04 00 00 00 41`, whose string `A` is not followed by a
zero byte, or on the file `09 00 00 00`, whose string pointer is beyond the
end of the file: at the end of the file every `fgetc` gives -1, which is not
the terminating zero. -/
theorem readString_loops_at_end_of_file (fuel : Nat) (r : List Nat × FILE) :
    readString fuel unterminatedFile ≠ Res.ok r ∧ readString fuel beyondFile ≠ Res.ok r := by
  constructor
  · intro h
    have hi : readInt unterminatedFile = (4, ⟨[4, 0, 0, 0, 65], 4, false⟩) := rfl
    unfold readString at h
    rw [hi] at h
    simp only at h
    rw [if_neg (by decide)] at h
    obtain ⟨a, ha, _⟩ := bind_eq_ok _ _ _ h
    have hs : fseek ⟨[4, 0, 0, 0, 65], 4, false⟩ 4 = ⟨[4, 0, 0, 0, 65], 4, false⟩ := rfl
    rw [hs] at ha
    cases fuel with
    | zero =>
      rw [readStringLoop] at ha
      cases ha
    | succ n =>
      rw [readStringLoop, if_neg (by decide)] at ha
      have hg : fgetc ⟨[4, 0, 0, 0, 65], 4, false⟩ = (65, ⟨[4, 0, 0, 0, 65], 5, false⟩) := rfl
      rw [hg] at ha
      simp only at ha
      rw [if_neg (by decide)] at ha
      exact readStringLoop_at_end n ⟨[4, 0, 0, 0, 65], 5, false⟩ _ _ a (by decide) ha
  · intro h
    have hi : readInt beyondFile = (9, ⟨[9, 0, 0, 0], 4, false⟩) := rfl
    unfold readString at h
    rw [hi] at h
    simp only at h
    rw [if_neg (by decide)] at h
    obtain ⟨a, ha, _⟩ := bind_eq_ok _ _ _ h
    have hs : fseek ⟨[9, 0, 0, 0], 4, false⟩ 9 = ⟨[9, 0, 0, 0], 9, false⟩ := rfl
    rw [hs] at ha
    exact readStringLoop_at_end fuel ⟨[9, 0, 0, 0], 9, false⟩ _ _ a (by decide) ha

/-! ## The integer powers -/

/-- The polynomials of `xy_to_latlon` are evaluated on the four `int` powers
of `intPowers`. -/
theorem forwardPolynomials_of_intPowers (c : Coefficients) (x y : Int) :
    forwardPolynomials c x y
      = (c.lat + c.latX * x + c.latY * y + c.latXX * (intPowers x y).1 + c.latXY * x * y
          + c.latYY * (intPowers x y).2.2.1 + c.latXXX * (intPowers x y).2.1
          + c.latXXY * (intPowers x y).1 * y + c.latXYY * x * (intPowers x y).2.2.1
          + c.latYYY * (intPowers x y).2.2.2 + c.datum_shift_north,
         c.lon + c.lonX * x + c.lonY * y + c.lonXX * (intPowers x y).1 + c.lonXY * x * y
          + c.lonYY * (intPowers x y).2.2.1 + c.lonXXX * (intPowers x y).2.1
          + c.lonXXY * (intPowers x y).1 * y + c.lonXYY * x * (intPowers x y).2.2.1
          + c.lonYYY * (intPowers x y).2.2.2 + c.datum_shift_east) :=
  rfl

/-- C37, at the failing input: on a map of 1 by 21 tiles at scale factor 1
the pixel (0, 1300) is not clipped (`1300 ≤ 21*64`); the `int` variable
`y3 = y2 * y` wraps to -2097967296 while the cube of 1300 is 2197000000, and
with `latYYY = 1` and every other coefficient zero the latitude returned is
the wrapped value. -/
theorem xy_to_latlon_powers_wrap :
    clipPixel (blankObject 1 21) 0 1300 = (0, 1300) ∧
    intPowers 0 1300 = (0, 0, 1690000, -2097967296) ∧
    (1300 : Int) ^ 3 = 2197000000 ∧
    (blankObject 1 21).xy_to_latlon latCubeCoefficients 0 1300 = (-2097967296, 0) := by
  have hclip : clipPixel (blankObject 1 21) 0 1300 = (0, 1300) := by decide
  have h2 : wrapInt (1300 * 1300) = 1690000 := by decide
  have h3 : wrapInt (1690000 * 1300) = -2097967296 := by decide
  have h0 : wrapInt (0 * 0) = 0 := by decide
  refine ⟨hclip, by decide, by norm_num, ?_⟩
  unfold QCTObject.xy_to_latlon
  rw [hclip]
  unfold forwardPolynomials
  simp only [h2, h3, h0]
  norm_num [latCubeCoefficients, zeroCoefficients]

/-! ## Down-sampling against the placement at full resolution -/

/-- The value computed by the loop of `interpRun` is the matrix cell of its
last lookup; without a round it is the starting pixel. -/
theorem interpRun_eq_last_lookup (pal_interp : Nat → Nat → Nat) (tile : List Nat) :
    ∀ (n src pix : Nat),
      interpRun pal_interp tile n src pix
        = match (interpLookups pal_interp tile n src pix).getLast? with
          | some ij => pal_interp ij.1 ij.2
          | none => pix := by
  intro n
  induction n with
  | zero => intro src pix; rfl
  | succ n ih =>
    intro src pix
    rw [interpRun, interpLookups, ih]
    cases n with
    | zero => rfl
    | succ m =>
      rw [interpLookups, List.getLast?_cons_cons,
        List.getLast?_eq_getLast _ (List.cons_ne_nil _ _)]

/-- The lookups of output pixel (0, 0) at scale factor 4 on a solid tile of
index 42 with a matrix that holds 200 in every cell. -/
theorem pixelLookups_solid :
    pixelLookups wideInterpMap 4 (List.replicate 4096 42) 0 0
      = [(42, 42), (200, 42), (200, 42)] := by
  simp only [pixelLookups, interpLookups, Nat.zero_mul, Nat.zero_add, Nat.reduceSub,
    Nat.reduceAdd]
  rw [tileAt_replicate 42 0 (by decide), tileAt_replicate 42 1 (by decide),
    tileAt_replicate 42 2 (by decide), tileAt_replicate 42 3 (by decide)]
  rfl

theorem mem_placeLookups (q : QCT) (s : Nat) (tile : List Nat) (ij : Nat × Nat) (hs : s ≠ 1)
    (hs64 : 0 < 64 / s) (h : ij ∈ pixelLookups q s tile 0 0) : ij ∈ placeLookups q s tile := by
  simp only [placeLookups]
  rw [if_neg hs]
  simp only [List.mem_flatMap, List.mem_range]
  exact ⟨0, hs64, 0, hs64, h⟩

/-- The RLE mode on a stream `sub ++ data` whose runs fill the tile, for any
sub-palette size with a bit count: the decoder finishes with the concatenated
runs. -/
theorem decodeTile_rle_runs (b fuel : Nat) (junk : Nat → Int) (fp : FILE)
    (sub data : List (Fin 256)) (hp : 1 ≤ sub.length ∧ sub.length ≤ 127)
    (hbits : bits_per_pixel (sub.length : Int) = some b)
    (hfile : fp.data.drop fp.pos = sub ++ data)
    (hruns : 4096 ≤ (data.map (fun byte => byte.val / 2 ^ b)).sum)
    (hfuel : data.length ≤ fuel) :
    ∃ fp1 tile, decodeTile fuel junk (sub.length : Int) fp = Res.ok (fp1, some tile) ∧
      tile.take 4096 = (data.flatMap (rleRun b (subPaletteAt sub junk))).take 4096 := by
  obtain ⟨hbr, hpal⟩ := rleBranch_eq fuel b junk fp sub data hbits hfile
  have hdrop : ({ fp with pos := fp.pos + sub.length } : FILE).data.drop
      ({ fp with pos := fp.pos + sub.length } : FILE).pos = data := by
    show fp.data.drop (fp.pos + sub.length) = data
    rw [← List.drop_drop, hfile, List.drop_left]
  obtain ⟨fp1, tile1, h1, h2⟩ := rleLoop_take b (readSubPalette sub.length 0 fp junk).2 data
    { fp with pos := fp.pos + sub.length } [] fuel hdrop (by simpa using hruns) hfuel
  refine ⟨fp1, tile1, ?_, ?_⟩
  · simp only [decodeTile, selectMode_rle sub.length hp, hbr, h1, Res.map]
  · rw [h2, hpal, List.nil_append]

/-- The RLE tile with sub-palette `[200]` and 64 runs of length 64 decodes to
a buffer whose 4096 cells hold 200. -/
theorem wideRleTile_decodes (junk : Nat → Int) :
    ∃ fp1 tile, decodeTile 64 junk (fgetc wideRleTile).1 (fgetc wideRleTile).2
        = Res.ok (fp1, some tile) ∧ tile.take 4096 = List.replicate 4096 200 := by
  have hg : fgetc wideRleTile = (1, ⟨[1, 200] ++ List.replicate 64 128, 1, false⟩) := rfl
  have hsum : ∀ n : Nat, ((List.replicate n (128 : Fin 256)).map
      (fun byte => byte.val / 2 ^ 1)).sum = n * 64 := by
    intro n
    rw [List.map_replicate, List.sum_replicate]
    rfl
  have hdrop : (([1, 200] ++ List.replicate 64 128 : List (Fin 256)).drop 1)
      = [200] ++ List.replicate 64 128 := rfl
  have hbits : bits_per_pixel (([200] : List (Fin 256)).length : Int) = some 1 := rfl
  obtain ⟨fp1, tile1, h1, h2⟩ := decodeTile_rle_runs 1 64 junk
    ⟨[1, 200] ++ List.replicate 64 128, 1, false⟩ [200] (List.replicate 64 128)
    (by decide) hbits hdrop (by rw [hsum]) (by rw [List.length_replicate])
  rw [flatMap_replicate_run] at h2
  have e4 : 64 * ((128 : Fin 256).val / 2 ^ 1) = 4096 := by decide
  have e5 : subPaletteAt [200] junk ((128 : Fin 256).val % 2 ^ 1) = 200 := rfl
  rw [e4, e5, List.take_replicate, Nat.min_self] at h2
  rw [hg]
  exact ⟨fp1, tile1, h1, h2⟩

/-- C39, at the failing inputs: the solid prefix-code tile `00 2A` decodes to
4096 pixels of index 42; at scale factor 4, with an interpolation matrix that
holds 200 in every cell, the second lookup for output pixel (0, 0) is
`pal_interp[200][42]`, whose first index is beyond 127.  The RLE tile with
sub-palette `[200]` decodes to pixels of index 200; at scale factor 2 the
lookup for output pixel (0, 0) is `pal_interp[200][200]` for every matrix. -/
theorem readTile_lookup_outside_matrix (junk : Nat → Int) :
    decodeTile 1 junk 0 ⟨[0, 42], 1, false⟩
      = Res.ok (⟨[0, 42], 2, false⟩, some (List.replicate 4096 42)) ∧
    pixelLookups wideInterpMap 4 (List.replicate 4096 42) 0 0 = [(42, 42), (200, 42), (200, 42)] ∧
    (200, 42) ∈ placeLookups wideInterpMap 4 (List.replicate 4096 42) ∧
    ∃ fp1 tile, decodeTile 64 junk (fgetc wideRleTile).1 (fgetc wideRleTile).2
        = Res.ok (fp1, some tile) ∧
      ∀ q : QCT, pixelLookups q 2 tile 0 0 = [(200, 200)] ∧ (200, 200) ∈ placeLookups q 2 tile := by
  refine ⟨?_, pixelLookups_solid, ?_, ?_⟩
  · have hm : selectMode 0 = Mode.huffman := by decide
    have hb := huffBuild_single_leaf 0 ⟨[0, 42], 1, false⟩ 42 (by decide) rfl
    simp only [decodeTile, hm, huffBranch, hb, if_true, List.getD_cons_zero]
    rfl
  · apply mem_placeLookups _ _ _ _ (by decide) (by decide)
    rw [pixelLookups_solid]
    simp
  · obtain ⟨fp1, tile1, h1, h3⟩ := wideRleTile_decodes junk
    refine ⟨fp1, tile1, h1, ?_⟩
    intro q
    have hp : pixelLookups q 2 tile1 0 0 = [(200, 200)] := by
      simp only [pixelLookups, interpLookups]
      rw [tileAt_of_take tile1 200 _ (by decide) h3, tileAt_of_take tile1 200 _ (by decide) h3]
    refine ⟨hp, ?_⟩
    apply mem_placeLookups _ _ _ _ (by decide) (by decide)
    rw [hp]
    simp

/-! ## The library and the stand-alone converter -/

/-- C40, counterexample: for the first tile byte 128 the library takes the
reserved branch and the converter the bit-packed branch with 128 sub-palette
colours. -/
theorem converter_mode_differs_at_128 :
    selectMode 128 = Mode.unknown ∧ selectModeConverter 128 = Mode.pixel 128 ∧
      selectModeConverter 128 ≠ selectMode 128 := by
  decide

/-- C40 (amended): for every first tile byte `p` in 0..255 other than 128 the
`if` chain of the converter's `readTile` and the `if` chain of the library's
`readTile` select the same mode with the same sub-palette size; they differ
at 128, so the two agree exactly when `p ≠ 128`. -/
theorem converter_mode_agrees_except_128 (p : Int) (h0 : 0 ≤ p) (h1 : p ≤ 255) :
    selectModeConverter p = selectMode p ↔ p ≠ 128 := by
  unfold selectModeConverter selectMode
  constructor
  · intro h h128
    subst h128
    revert h
    decide
  · intro h128
    split_ifs <;> first | rfl | omega

/-- C40, witness: the first tile byte 200. -/
theorem converter_mode_agrees_except_128_witness :
    selectModeConverter 200 = selectMode 200 ↔ (200 : Int) ≠ 128 :=
  converter_mode_agrees_except_128 200 (by decide) (by decide)
